import Mathlib

/-!
Verification of the zeno HTTP router's radix matching engine.

The Go sources are shallowly embedded:
* `tree` / `node` (tree.go)  -> `Tree` / `Node` below; the in-place pointer
  mutation of Go is rendered by returning the updated node.
* Go byte strings are `List Nat` (one entry per byte); Go `[]Handler` chains
  are identified by `List Nat` of handler ids, with Go `nil` rendered as
  `none` of `Option Handlers`.
* compiled regexes (`regexp.Regexp`, built by `regexp.MustCompile ("^"++pat)`
  and queried with `FindIndex`) are modelled by an abstract matcher
  `Regex := Str -> Option Nat` returning the end offset of the anchored
  match; route registration is parametrised by an abstract
  `compile : Str -> Option Regex` (`none` = `MustCompile` panics).
* every recursive function of the engine takes an explicit recursion-depth
  budget `fuel` and recurses structurally on it, so that all definitions are
  executable by kernel reduction.  Exhausting the budget yields the
  distinguished outcome `Res.fuelout` (or `none` for the total helper
  functions), an artefact of the embedding that never occurs for the budgets
  supplied by the wrappers; a Go `panic` (index out of range, misplaced
  wildcard, failing `MustCompile`) is the distinct outcome `Res.panic`.
-/

namespace Zeno

/-- Go byte strings / byte slices: a list of byte values. -/
abbrev Str := List Nat

/-- A handler chain, identified by a list of handler ids.  A registered chain
may be empty; Go `nil` is rendered as `none` of `Option Handlers`. -/
abbrev Handlers := List Nat

/-- An abstract compiled regex: given the remaining path, returns the end
offset of the anchored match, or `none` when the regex does not match
(`regexp.FindIndex` result `m`, of which the code uses `m[1]`). -/
abbrev Regex := Str → Option Nat

/-- Encode an ASCII Lean string as a Go byte string. -/
def bstr (s : String) : Str := s.data.map Char.toNat

/-- `math.MaxInt32`, the initial value of `bestOrder` in `node.get`. -/
def maxInt32 : Nat := 2147483647

/-- Outcome of an embedded Go computation: a normal result, a Go `panic`, or
exhaustion of the artificial recursion budget (which never happens for the
budgets used by the wrappers). -/
inductive Res (α : Type) : Type where
  | ok (a : α) : Res α
  | panic : Res α
  | fuelout : Res α
  deriving DecidableEq

/-- The normal result of a `Res` computation, if any. -/
def Res.toOption {α : Type} : Res α → Option α
  | .ok a => some a
  | _ => none

/-- Whether the computation ended in a Go panic. -/
def Res.isPanic {α : Type} : Res α → Bool
  | .panic => true
  | _ => false

/-- A node of the routing radix tree (struct `node` in tree.go).  The Go
256-pointer static-child array is rendered as an association list from the
indexing byte to the child. -/
inductive Node : Type where
  | mk (static optional wildcard : Bool) (key : Str) (regex : Option Regex)
       (handlers : Option Handlers) (order minOrder : Nat)
       (children : List (Nat × Node)) (pchildren : List Node)
       (pindex : Int) (pnames : List Str) : Node

namespace Node

def static : Node → Bool | .mk s _ _ _ _ _ _ _ _ _ _ _ => s
def optional : Node → Bool | .mk _ o _ _ _ _ _ _ _ _ _ _ => o
def wildcard : Node → Bool | .mk _ _ w _ _ _ _ _ _ _ _ _ => w
def key : Node → Str | .mk _ _ _ k _ _ _ _ _ _ _ _ => k
def regex : Node → Option Regex | .mk _ _ _ _ r _ _ _ _ _ _ _ => r
def handlers : Node → Option Handlers | .mk _ _ _ _ _ h _ _ _ _ _ _ => h
def order : Node → Nat | .mk _ _ _ _ _ _ o _ _ _ _ _ => o
def minOrder : Node → Nat | .mk _ _ _ _ _ _ _ m _ _ _ _ => m
def children : Node → List (Nat × Node) | .mk _ _ _ _ _ _ _ _ c _ _ _ => c
def pchildren : Node → List Node | .mk _ _ _ _ _ _ _ _ _ p _ _ => p
def pindex : Node → Int | .mk _ _ _ _ _ _ _ _ _ _ i _ => i
def pnames : Node → List Str | .mk _ _ _ _ _ _ _ _ _ _ _ n => n

/-- Replace the node's static-children array (`n.children = ...`). -/
def setChildren : Node → List (Nat × Node) → Node
  | .mk s o w k r h od mo _ pch pi pn, ch => .mk s o w k r h od mo ch pch pi pn

/-- Replace the node's parametric-children list (`n.pchildren = ...`). -/
def setPChildren : Node → List Node → Node
  | .mk s o w k r h od mo ch _ pi pn, pch => .mk s o w k r h od mo ch pch pi pn

/-- Attach a handler chain and its order
(`n.handlers = handlers; n.order = order`). -/
def setRoute : Node → Handlers → Nat → Node
  | .mk s o w k r _ _ mo ch pch pi pn, hs, od =>
      .mk s o w k r (some hs) od mo ch pch pi pn

end Node

/-- Static-child lookup `n.children[b]` in the byte-indexed array. -/
def getChild : List (Nat × Node) → Nat → Option Node
  | [], _ => none
  | (b, c) :: rest, x => if b = x then some c else getChild rest x

/-- Static-child store `n.children[b] = v` in the byte-indexed array. -/
def setChild : List (Nat × Node) → Nat → Node → List (Nat × Node)
  | [], b, v => [(b, v)]
  | (b0, c) :: rest, b, v =>
      if b0 = b then (b, v) :: rest else (b0, c) :: setChild rest b v

/-- The `matched` loop at the top of `node.add`: length of the longest common
prefix of the two keys. -/
def commonPrefixLen : Str → Str → Nat
  | a :: as, b :: bs => if a = b then commonPrefixLen as bs + 1 else 0
  | _, _ => 0

/-- `bytes.IndexByte`. -/
def indexOfByte (l : Str) (b : Nat) : Int :=
  match l with
  | [] => -1
  | c :: rest =>
      if c = b then 0
      else match indexOfByte rest b with
        | -1 => -1
        | i => i + 1

/-- The brace-scanning loop at the top of `node.addChild`: walks the key from
index `i` keeping `p0` (position of the latest open brace, `-1` if none);
on a close brace with `p0 >= 0` it stops, returning `(p0, p1)`; if no such
close brace occurs it returns `p1 = -1`. -/
def scanBrace : Str → Nat → Int → Int × Int
  | [], _, p0 => (p0, -1)
  | c :: rest, i, p0 =>
      if c = 123 then scanBrace rest (i + 1) (Int.ofNat i)
      else if c = 125 ∧ 0 ≤ p0 then (p0, Int.ofNat i)
      else scanBrace rest (i + 1) p0

/-- The capture-boundary loop of the plain-parameter branch of `node.get`:
starting from index `i` (the head of the remaining suffix), advance while
the byte is not a slash and the node has no static child registered for
it; returns the stop index. -/
def seekIdx (children : List (Nat × Node)) : Str → Nat → Nat
  | [], i => i
  | c :: rest, i =>
      if c = 47 then i
      else if (getChild children c).isSome then i
      else seekIdx children rest (i + 1)

/-- Bounds-checked buffer write `pvalues[i] = v` (Go panics when the index is
out of range, rendered as `none`). -/
def setv (l : List Str) (i : Int) (v : Str) : Option (List Str) :=
  if 0 ≤ i ∧ i.toNat < l.length then some (l.set i.toNat v) else none

/-- Go `copy(dst, src)`: overwrite the first `min |dst| |src|` entries of
`dst` with those of `src`. -/
def goCopy (dst src : List Str) : List Str :=
  src.take (min dst.length src.length) ++ dst.drop (min dst.length src.length)

/-- `copy(dst[i:], src[i:])` with the slicing bounds checks of Go (panic,
rendered as `none`, when `i` is negative or past either length). -/
def copyFrom (dst src : List Str) (i : Int) : Option (List Str) :=
  if 0 ≤ i ∧ i.toNat ≤ dst.length ∧ i.toNat ≤ src.length then
    some (dst.take i.toNat ++ goCopy (dst.drop i.toNat) (src.drop i.toNat))
  else none

/-- The token-body parsing of `node.addChild` (tree.go lines 189-208):
relocate a leading `*` to the end, split at the first `:` into name and
regex pattern, then strip a trailing `?` (optional) and a trailing `*`
(wildcard).  Returns `(optional, wildcard, pname, pattern)`. -/
def parseToken (raw0 : Str) : Bool × Bool × Str × Str :=
  let raw := if 1 < raw0.length ∧ raw0.head? = some 42 then
      raw0.drop 1 ++ [42] else raw0
  let colon := indexOfByte raw 58
  let pname0 := if 0 ≤ colon then raw.take colon.toNat else raw
  let pattern := if 0 ≤ colon then raw.drop (colon.toNat + 1) else []
  let opt : Bool := pname0.getLast? == some 63
  let pname1 := if opt then pname0.dropLast else pname0
  let wc : Bool := pname1.getLast? == some 42
  let pname := if wc then pname1.dropLast else pname1
  (opt, wc, pname, pattern)

/-- `token[1 : len(token)-1]`: the body of the `{...}` token
`key[p0 : p1+1]` (with `p0 = 0`). -/
def tokenBody (key : Str) (p1 : Int) : Str :=
  ((key.take (p1.toNat + 1)).drop 1).take ((key.take (p1.toNat + 1)).length - 2)

/-- `regexp.MustCompile("^" + pattern)` guarded by `len(pattern) > 0`:
`some none` = no regex on this node, `some (some r)` = compiled regex,
`none` = `MustCompile` panicked. -/
def mustCompile (compile : Str → Option Regex) (pattern : Str) :
    Option (Option Regex) :=
  if pattern = [] then some none
  else
    match compile pattern with
    | some r => some (some r)
    | none => none

mutual

/-- `node.add` (tree.go lines 70-127): insert `key` below `n`, splitting
static nodes as needed; returns the updated node and the Go return value
(number of parameters, or `-1` when the key does not belong below this
node).  The Go code mutates nodes through pointers; here every call returns
the node's new value, which the caller stores back in place of the old
one. -/
def Node.addF : Nat → (Str → Option Regex) → Node → Str → Handlers → Nat →
    Res (Node × Int)
  | 0, _, _, _, _, _ => .fuelout
  | fuel + 1, compile, n, key, hs, ord =>
    let matched := commonPrefixLen key n.key
    if matched = n.key.length ∧ matched = key.length then
      if n.handlers = none then .ok (n.setRoute hs ord, n.pindex + 1)
      else .ok (n, n.pindex + 1)
    else if matched = n.key.length then
      match key.drop matched with
      | [] => .panic  -- Go indexes childKey[0]: unreachable, matched < |key|
      | c0 :: ck =>
        match getChild n.children c0 with
        | some lit =>
          match Node.addF fuel compile lit (c0 :: ck) hs ord with
          | .fuelout => .fuelout
          | .panic => .panic
          | .ok (lit2, pn) =>
            let n2 := n.setChildren (setChild n.children c0 lit2)
            if 0 ≤ pn then .ok (n2, pn)
            else Node.addRestF fuel compile n2 (c0 :: ck) hs ord
        | none => Node.addRestF fuel compile n (c0 :: ck) hs ord
    else if matched = 0 ∨ n.static = false then
      .ok (n, -1)
    else
      -- the node split of tree.go lines 104-126.  After truncating `n` the
      -- Go code re-runs `n.add(key, handlers, order)`; that re-run is
      -- inlined here: since `matched` is the length of the longest common
      -- prefix, the re-run takes the exact-match branch when
      -- `matched = key.length` (the truncated node has no handlers, so they
      -- are attached), and otherwise its static-child probe at
      -- `key[matched]` misses (`rest[0] = n.key[matched]` differs from
      -- `key[matched]` by maximality of `matched`), its parametric loop is
      -- empty, and it lands in `addChild`.
      match n.key.drop matched with
      | [] => .ok (n, -1)  -- unreachable: matched < n.key.length
      | r0 :: rk =>
        if matched = key.length then
          .ok (.mk n.static n.optional n.wildcard (key.take matched) n.regex
            (some hs) ord n.minOrder
            [(r0, .mk true n.optional n.wildcard (r0 :: rk) n.regex n.handlers
                n.order n.minOrder n.children n.pchildren n.pindex n.pnames)]
            [] n.pindex n.pnames, n.pindex + 1)
        else
          Node.addChildF fuel compile
            (.mk n.static n.optional n.wildcard (key.take matched) n.regex
              none n.order n.minOrder
              [(r0, .mk true n.optional n.wildcard (r0 :: rk) n.regex
                  n.handlers n.order n.minOrder n.children n.pchildren
                  n.pindex n.pnames)]
              [] n.pindex n.pnames)
            (key.drop matched) hs ord

/-- The tail of the `matched == len(n.key)` branch of `node.add`: try every
parametric child, then fall back to `addChild`. -/
def Node.addRestF : Nat → (Str → Option Regex) → Node → Str → Handlers →
    Nat → Res (Node × Int)
  | 0, _, _, _, _, _ => .fuelout
  | fuel + 1, compile, n, childKey, hs, ord =>
    match Node.addPCsF fuel compile n.pchildren childKey hs ord with
    | .fuelout => .fuelout
    | .panic => .panic
    | .ok (pcs2, some pn) => .ok (n.setPChildren pcs2, pn)
    | .ok (pcs2, none) =>
        Node.addChildF fuel compile (n.setPChildren pcs2) childKey hs ord

/-- The `for _, pc := range n.pchildren` loop of `node.add`: try inserting
into each parametric child in turn, returning on the first non-negative
result; the updated children are threaded through. -/
def Node.addPCsF : Nat → (Str → Option Regex) → List Node → Str → Handlers →
    Nat → Res (List Node × Option Int)
  | 0, _, _, _, _, _ => .fuelout
  | fuel + 1, compile, pcs, childKey, hs, ord =>
    match pcs with
    | [] => .ok ([], none)
    | pc :: rest =>
      match Node.addF fuel compile pc childKey hs ord with
      | .fuelout => .fuelout
      | .panic => .panic
      | .ok (pc2, pn) =>
        if 0 ≤ pn then .ok (pc2 :: rest, some pn)
        else
          match Node.addPCsF fuel compile rest childKey hs ord with
          | .fuelout => .fuelout
          | .panic => .panic
          | .ok (rest2, r) => .ok (pc2 :: rest2, r)

/-- `node.addChild` (tree.go lines 131-231): parse the first `{...}` token of
the remaining key and attach the corresponding static / parametric
children.  A misplaced wildcard or a failing regex compilation is a Go
`panic`.  The parameter-token case (lines 177-230) is the mutually
recursive `Node.addParamF`. -/
def Node.addChildF : Nat → (Str → Option Regex) → Node → Str → Handlers →
    Nat → Res (Node × Int)
  | 0, _, _, _, _, _ => .fuelout
  | fuel + 1, compile, n, key, hs, ord =>
    match scanBrace key 0 (-1) with
    | (p0, p1) =>
    if p0 < 0 ∨ p1 < 0 then
      -- static literal (the new node carries `pindex = n.pindex`, so the Go
      -- return value `lit.pindex + 1` is `n.pindex + 1`)
      match key with
      | [] => .panic  -- Go indexes key[0]: panic on an empty key
      | c0 :: _ =>
        .ok (n.setChildren (setChild n.children c0
          (.mk true false false key none (some hs) ord ord [] [] n.pindex
            n.pnames)), n.pindex + 1)
    else if 0 < p0 then
      -- static prefix before the parameter token
      match key with
      | [] => .panic  -- unreachable: 0 < p0 forces a nonempty key
      | c0 :: _ =>
        match Node.addChildF fuel compile
            (.mk true false false (key.take p0.toNat) none none 0 ord [] []
              n.pindex n.pnames)
            (key.drop p0.toNat) hs ord with
        | .fuelout => .fuelout
        | .panic => .panic
        | .ok (prefx2, r) =>
            .ok (n.setChildren (setChild n.children c0 prefx2), r)
    else
      -- parameter token at the head of the key
      Node.addParamF fuel compile n key hs ord p1

/-- The parameter-token case of `node.addChild` (tree.go lines 177-230),
where the first `{...}` token of `key` starts at index 0 and closes at
index `p1`: build the parametric child, panic on a non-terminal wildcard or
a failing regex compilation, append the child to `n.pchildren`, and recurse
into it when pattern remains after the token. -/
def Node.addParamF : Nat → (Str → Option Regex) → Node → Str → Handlers →
    Nat → Int → Res (Node × Int)
  | 0, _, _, _, _, _, _ => .fuelout
  | fuel + 1, compile, n, key, hs, ord, p1 =>
    match parseToken (tokenBody key p1) with
    | (opt, wc, pname, pattern) =>
    if wc ∧ p1.toNat + 1 ≠ key.length then
      .panic  -- panic: wildcard parameter must be terminal in pattern
    else
      match mustCompile compile pattern with
      | none => .panic  -- regexp.MustCompile panics
      | some rx =>
        if p1.toNat + 1 = key.length then
          .ok (n.setPChildren (n.pchildren ++
            [.mk false opt wc (key.take (p1.toNat + 1)) rx (some hs) ord ord
              [] [] (((n.pnames ++ [pname]).length : Int) - 1)
              (n.pnames ++ [pname])]),
            (((n.pnames ++ [pname]).length : Int) - 1) + 1)
        else
          match Node.addChildF fuel compile
              (.mk false opt wc (key.take (p1.toNat + 1)) rx none 0 ord [] []
                (((n.pnames ++ [pname]).length : Int) - 1)
                (n.pnames ++ [pname]))
              (key.drop (p1.toNat + 1)) hs ord with
          | .fuelout => .fuelout
          | .panic => .panic
          | .ok (child2, r) =>
              .ok (n.setPChildren (n.pchildren ++ [child2]), r)

end

mutual

/-- `node.get` (tree.go lines 236-312): the token-consumption step (lines
242-277), followed by the child-matching step `Node.descendF`.  It returns
`(bestData, bestNames, bestOrder)` and mutates `pvalues`; here the final
buffer is returned as a fourth component, and an out-of-range buffer access
(a Go panic) makes the outcome `.panic`.  The `goto repeat` loop of the Go
code only ever re-enters with the best candidate still in its initial
state, so it is rendered as the tail call in `Node.descendF`. -/
def Node.getF : Nat → Node → Str → List Str →
    Res (Option Handlers × List Str × Nat × List Str)
  | 0, _, _, _ => .fuelout
  | fuel + 1, n, path, pvalues =>
    if n.static then
      if n.key.isPrefixOf path then
        Node.descendF fuel n (path.drop n.key.length) pvalues
      else .ok (none, [], maxInt32, pvalues)
    else
      match n.regex with
      | some re =>
        if path.length = 0 ∧ n.optional then
          match setv pvalues n.pindex [] with
          | none => .panic
          | some pv => Node.descendF fuel n path pv
        else
          match re path with
          | some e =>
            match setv pvalues n.pindex (path.take e) with
            | none => .panic
            | some pv => Node.descendF fuel n (path.drop e) pv
          | none => .ok (none, [], maxInt32, pvalues)
      | none =>
        if n.wildcard then
          match setv pvalues n.pindex path with
          | none => .panic
          | some pv => Node.descendF fuel n [] pv
        else if path = [] then
          if n.optional then
            match setv pvalues n.pindex [] with
            | none => .panic
            | some pv => Node.descendF fuel n [] pv
          else .ok (none, [], maxInt32, pvalues)
        else
          match setv pvalues n.pindex (path.take (seekIdx n.children path 0)) with
          | none => .panic
          | some pv =>
              Node.descendF fuel n (path.drop (seekIdx n.children path 0)) pv

/-- Child-matching step of `node.get` (tree.go lines 279-311): try the static
child indexed by the next byte (tail-looping into it when there are no
parametric children), record the current node as a candidate when the path
is exhausted, then run the parametric-children loop. -/
def Node.descendF : Nat → Node → Str → List Str →
    Res (Option Handlers × List Str × Nat × List Str)
  | 0, _, _, _ => .fuelout
  | fuel + 1, n, path, pvalues =>
    match path with
    | p0 :: prest =>
      match getChild n.children p0 with
      | some lit =>
        if n.pchildren.length = 0 then Node.getF fuel lit (p0 :: prest) pvalues
        else
          match Node.getF fuel lit (p0 :: prest) pvalues with
          | .fuelout => .fuelout
          | .panic => .panic
          | .ok (d, names, o, pv2) =>
            if d ≠ none ∧ o < maxInt32 then
              Node.pcLoopF fuel n.pchildren (p0 :: prest) d names o pv2 none
            else
              Node.pcLoopF fuel n.pchildren (p0 :: prest) none [] maxInt32 pv2
                none
      | none =>
          Node.pcLoopF fuel n.pchildren (p0 :: prest) none [] maxInt32 pvalues
            none
    | [] =>
      match n.handlers with
      | some hs =>
          Node.pcLoopF fuel n.pchildren [] (some hs) n.pnames n.order pvalues
            none
      | none => Node.pcLoopF fuel n.pchildren [] none [] maxInt32 pvalues none

/-- The `for _, pc := range n.pchildren` loop of `node.get` (tree.go lines
293-309).  `tmp = none` renders the state before `scratch` is allocated, in
which `tmp` in the Go code aliases `pvalues`; once a best candidate exists,
a zeroed scratch buffer of the same length is allocated and all further
speculative writes go there, being committed into `pvalues` from offset
`pc.pindex` on only for a strictly better match. -/
def Node.pcLoopF : Nat → List Node → Str → Option Handlers → List Str → Nat →
    List Str → Option (List Str) →
    Res (Option Handlers × List Str × Nat × List Str)
  | 0, _, _, _, _, _, _, _ => .fuelout
  | fuel + 1, pcs, path, bestData, bestNames, bestOrder, pvalues, tmp =>
    match pcs with
    | [] => .ok (bestData, bestNames, bestOrder, pvalues)
    | pc :: rest =>
      if bestOrder ≤ pc.minOrder then
        Node.pcLoopF fuel rest path bestData bestNames bestOrder pvalues tmp
      else
        match tmp, bestData with
        | some t, _ =>
          match Node.getF fuel pc path t with
          | .fuelout => .fuelout
          | .panic => .panic
          | .ok (d, names, o, t2) =>
            if d ≠ none ∧ o < bestOrder then
              match copyFrom pvalues t2 pc.pindex with
              | none => .panic
              | some pv2 => Node.pcLoopF fuel rest path d names o pv2 (some t2)
            else
              Node.pcLoopF fuel rest path bestData bestNames bestOrder pvalues
                (some t2)
        | none, some bd =>
          match Node.getF fuel pc path (List.replicate pvalues.length []) with
          | .fuelout => .fuelout
          | .panic => .panic
          | .ok (d, names, o, t2) =>
            if d ≠ none ∧ o < bestOrder then
              match copyFrom pvalues t2 pc.pindex with
              | none => .panic
              | some pv2 => Node.pcLoopF fuel rest path d names o pv2 (some t2)
            else
              Node.pcLoopF fuel rest path (some bd) bestNames bestOrder pvalues
                (some t2)
        | none, none =>
          match Node.getF fuel pc path pvalues with
          | .fuelout => .fuelout
          | .panic => .panic
          | .ok (d, names, o, pv2) =>
            if d ≠ none ∧ o < bestOrder then
              Node.pcLoopF fuel rest path d names o pv2 none
            else Node.pcLoopF fuel rest path none bestNames bestOrder pv2 none

end

mutual

/-- The match component of `node.get`, without the value buffer: `node.get`
never reads `pvalues`, so the `(bestData, bestNames, bestOrder)` triple it
returns depends only on the node and the path.  This is the same code as
`Node.getF` with the buffer operations erased (`none` = out of fuel). -/
def Node.getM : Nat → Node → Str → Option (Option Handlers × List Str × Nat)
  | 0, _, _ => none
  | fuel + 1, n, path =>
    if n.static then
      if n.key.isPrefixOf path then Node.descendM fuel n (path.drop n.key.length)
      else some (none, [], maxInt32)
    else
      match n.regex with
      | some re =>
        if path.length = 0 ∧ n.optional then Node.descendM fuel n path
        else
          match re path with
          | some e => Node.descendM fuel n (path.drop e)
          | none => some (none, [], maxInt32)
      | none =>
        if n.wildcard then Node.descendM fuel n []
        else if path = [] then
          if n.optional then Node.descendM fuel n []
          else some (none, [], maxInt32)
        else Node.descendM fuel n (path.drop (seekIdx n.children path 0))

/-- Buffer-less child-matching step, mirroring `Node.descendF`. -/
def Node.descendM : Nat → Node → Str → Option (Option Handlers × List Str × Nat)
  | 0, _, _ => none
  | fuel + 1, n, path =>
    match path with
    | p0 :: prest =>
      match getChild n.children p0 with
      | some lit =>
        if n.pchildren.length = 0 then Node.getM fuel lit (p0 :: prest)
        else
          match Node.getM fuel lit (p0 :: prest) with
          | none => none
          | some (d, names, o) =>
            if d ≠ none ∧ o < maxInt32 then
              Node.pcLoopM fuel n.pchildren (p0 :: prest) d names o
            else Node.pcLoopM fuel n.pchildren (p0 :: prest) none [] maxInt32
      | none => Node.pcLoopM fuel n.pchildren (p0 :: prest) none [] maxInt32
    | [] =>
      match n.handlers with
      | some hs => Node.pcLoopM fuel n.pchildren [] (some hs) n.pnames n.order
      | none => Node.pcLoopM fuel n.pchildren [] none [] maxInt32

/-- Buffer-less parametric-children loop, mirroring `Node.pcLoopF`. -/
def Node.pcLoopM : Nat → List Node → Str → Option Handlers → List Str → Nat →
    Option (Option Handlers × List Str × Nat)
  | 0, _, _, _, _, _ => none
  | fuel + 1, pcs, path, bd, bn, bo =>
    match pcs with
    | [] => some (bd, bn, bo)
    | pc :: rest =>
      if bo ≤ pc.minOrder then Node.pcLoopM fuel rest path bd bn bo
      else
        match Node.getM fuel pc path with
        | none => none
        | some (d, names, o) =>
          if d ≠ none ∧ o < bo then Node.pcLoopM fuel rest path d names o
          else Node.pcLoopM fuel rest path bd bn bo

end

mutual

/-- `Node.getM` with the `minOrder` pruning of the parametric-children loop
removed: every parametric child is explored unconditionally. -/
def Node.getMNP : Nat → Node → Str → Option (Option Handlers × List Str × Nat)
  | 0, _, _ => none
  | fuel + 1, n, path =>
    if n.static then
      if n.key.isPrefixOf path then
        Node.descendMNP fuel n (path.drop n.key.length)
      else some (none, [], maxInt32)
    else
      match n.regex with
      | some re =>
        if path.length = 0 ∧ n.optional then Node.descendMNP fuel n path
        else
          match re path with
          | some e => Node.descendMNP fuel n (path.drop e)
          | none => some (none, [], maxInt32)
      | none =>
        if n.wildcard then Node.descendMNP fuel n []
        else if path = [] then
          if n.optional then Node.descendMNP fuel n []
          else some (none, [], maxInt32)
        else Node.descendMNP fuel n (path.drop (seekIdx n.children path 0))

def Node.descendMNP : Nat → Node → Str →
    Option (Option Handlers × List Str × Nat)
  | 0, _, _ => none
  | fuel + 1, n, path =>
    match path with
    | p0 :: prest =>
      match getChild n.children p0 with
      | some lit =>
        if n.pchildren.length = 0 then Node.getMNP fuel lit (p0 :: prest)
        else
          match Node.getMNP fuel lit (p0 :: prest) with
          | none => none
          | some (d, names, o) =>
            if d ≠ none ∧ o < maxInt32 then
              Node.pcLoopMNP fuel n.pchildren (p0 :: prest) d names o
            else Node.pcLoopMNP fuel n.pchildren (p0 :: prest) none [] maxInt32
      | none => Node.pcLoopMNP fuel n.pchildren (p0 :: prest) none [] maxInt32
    | [] =>
      match n.handlers with
      | some hs => Node.pcLoopMNP fuel n.pchildren [] (some hs) n.pnames n.order
      | none => Node.pcLoopMNP fuel n.pchildren [] none [] maxInt32

def Node.pcLoopMNP : Nat → List Node → Str → Option Handlers → List Str →
    Nat → Option (Option Handlers × List Str × Nat)
  | 0, _, _, _, _, _ => none
  | fuel + 1, pcs, path, bd, bn, bo =>
    match pcs with
    | [] => some (bd, bn, bo)
    | pc :: rest =>
      match Node.getMNP fuel pc path with
      | none => none
      | some (d, names, o) =>
        if d ≠ none ∧ o < bo then Node.pcLoopMNP fuel rest path d names o
        else Node.pcLoopMNP fuel rest path bd bn bo

end

mutual

/-- All complete matches of `path` in the subtree of `n`: the token
consumption of each node kind is the (deterministic) one of `node.get`, the
choice of child branch is enumerated, and a node is recorded as a match
only when it carries handlers and the whole path has been consumed
(`none` = out of fuel). -/
def Node.matchList : Nat → Node → Str →
    Option (List (Handlers × List Str × Nat))
  | 0, _, _ => none
  | fuel + 1, n, path =>
    if n.static then
      if n.key.isPrefixOf path then
        Node.matchAfter fuel n (path.drop n.key.length)
      else some []
    else
      match n.regex with
      | some re =>
        if path.length = 0 ∧ n.optional then Node.matchAfter fuel n path
        else
          match re path with
          | some e => Node.matchAfter fuel n (path.drop e)
          | none => some []
      | none =>
        if n.wildcard then Node.matchAfter fuel n []
        else if path = [] then
          if n.optional then Node.matchAfter fuel n [] else some []
        else Node.matchAfter fuel n (path.drop (seekIdx n.children path 0))

def Node.matchAfter : Nat → Node → Str →
    Option (List (Handlers × List Str × Nat))
  | 0, _, _ => none
  | fuel + 1, n, path =>
    match
      (match path with
       | p0 :: _ =>
         match getChild n.children p0 with
         | some lit => Node.matchList fuel lit path
         | none => some []
       | [] =>
         match n.handlers with
         | some hs => some [(hs, n.pnames, n.order)]
         | none => some []) with
    | none => none
    | some first =>
      match Node.matchPCs fuel n.pchildren path with
      | none => none
      | some rest => some (first ++ rest)

def Node.matchPCs : Nat → List Node → Str →
    Option (List (Handlers × List Str × Nat))
  | 0, _, _ => none
  | fuel + 1, pcs, path =>
    match pcs with
    | [] => some []
    | pc :: rest =>
      match Node.matchList fuel pc path with
      | none => none
      | some ms =>
        match Node.matchPCs fuel rest path with
        | none => none
        | some ms2 => some (ms ++ ms2)

end

mutual

/-- Number of nodes (plus list spine cells) in a subtree; an executable
measure of the tree, used only to compute sufficient recursion budgets. -/
def Node.size : Node → Nat
  | .mk _ _ _ _ _ _ _ _ ch pch _ _ => 1 + sizeCh ch + sizePCh pch

def sizeCh : List (Nat × Node) → Nat
  | [] => 1
  | (_, c) :: rest => 1 + Node.size c + sizeCh rest

def sizePCh : List Node → Nat
  | [] => 1
  | c :: rest => 1 + Node.size c + sizePCh rest

end

/-- Recursion budget for the `get`-side functions: any call chain of
`getF`/`descendF`/`pcLoopF` (and their buffer-less mirrors) starting at `n`
is shorter than `3 * Node.size n`, since every hop to a child strictly
decreases `Node.size` and at most three frames are spent per node. -/
def getFuel (n : Node) : Nat := 3 * Node.size n

/-- Recursion budget for the `add`-side functions, dominating the recursion
depth of `node.add`/`addChild` (which is bounded by the lexicographic
measure on (remaining key length, size of the current subtree)). -/
def addFuel (n : Node) (key : Str) : Nat :=
  3 * (key.length + 2) * (Node.size n + 4 * key.length + 16)

/-- Struct `tree` of tree.go: a root node plus the monotonic registration
counter that assigns match priorities. -/
structure Tree where
  root : Node
  count : Nat

/-- `newTree` of tree.go. -/
def newTree : Tree :=
  ⟨.mk true false false [] none none 0 0 [] [] (-1) [], 0⟩

/-- `tree.Add`: bump the counter and insert at the root; the Go return value
is the number of named parameters of the route. -/
def Tree.Add (compile : Str → Option Regex) (t : Tree) (key : Str)
    (hs : Handlers) : Res (Tree × Int) :=
  match Node.addF (addFuel t.root key) compile t.root key hs (t.count + 1) with
  | .fuelout => .fuelout
  | .panic => .panic
  | .ok (r, pn) => .ok (⟨r, t.count + 1⟩, pn)

/-- `tree.Get`: match a path, returning the handler chain (`none` = Go `nil`,
no match), the parameter names, and the final value buffer. -/
def Tree.Get (t : Tree) (path : Str) (pv : List Str) :
    Res (Option Handlers × List Str × List Str) :=
  match Node.getF (getFuel t.root) t.root path pv with
  | .fuelout => .fuelout
  | .panic => .panic
  | .ok (d, names, _, pv2) => .ok (d, names, pv2)

/-- The registration loop of the router (`Zeno.add` in zeno.go, for a single
method tree): insert each pattern in turn, tracking the router-wide maximum
parameter count exactly as `if n > z.maxParams { z.maxParams = n }`. -/
def buildTree (compile : Str → Option Regex) (regs : List (Str × Handlers)) :
    Res (Tree × Int) :=
  regs.foldl
    (fun acc r =>
      match acc with
      | .fuelout => .fuelout
      | .panic => .panic
      | .ok (t, maxp) =>
        match Tree.Add compile t r.1 r.2 with
        | .fuelout => .fuelout
        | .panic => .panic
        | .ok (t2, pn) => .ok (t2, if maxp < pn then pn else maxp))
    (.ok (newTree, 0))


/-- `buildURLTemplate` (route.go lines 235-259), inner loop: walk the path
keeping `template` (accumulated output), `start` (index of the pending open
brace, `-1` if none) and `end` (index of the last consumed close brace,
`-1` initially); on a close brace with a pending open brace, the token is
reduced to `{name}` where `name` stops at the first colon of the token
body.  The walk is over the remaining suffix, with `i` its start index. -/
def buildLoop (path : Str) : Str → Nat → Str → Int → Int → Str × Int
  | [], _, template, _, endd => (template, endd)
  | c :: rest, i, template, start, endd =>
    if c = 123 ∧ start < 0 then
      buildLoop path rest (i + 1) template (Int.ofNat i) endd
    else if c = 125 ∧ 0 ≤ start then
      buildLoop path rest (i + 1)
        (template ++ ((path.take (start.toNat)).drop (endd + 1).toNat) ++
          [123] ++
          (match indexOfByte ((path.take i).drop (start.toNat + 1)) 58 with
           | Int.negSucc _ => (path.take i).drop (start.toNat + 1)
           | Int.ofNat j => ((path.take i).drop (start.toNat + 1)).take j) ++
          [125])
        (-1) (Int.ofNat i)
    else buildLoop path rest (i + 1) template start endd

/-- `buildURLTemplate` (route.go lines 235-259): reduce every `{...}` token
of the pattern to `{name}`, stripping a `:regex` qualifier, while keeping
the surrounding literals. -/
def buildURLTemplate (path : Str) : Str :=
  match buildLoop path path 0 [] (-1) (-1) with
  | (template, endd) =>
    if endd < 0 then path
    else if endd < (path.length : Int) - 1 then
      template ++ path.drop (endd.toNat + 1)
    else template

/-- Go `sort.Strings` comparison: lexicographic byte order. -/
def strLt : Str → Str → Bool
  | [], [] => false
  | [], _ :: _ => true
  | _ :: _, [] => false
  | a :: as, b :: bs => if a < b then true else if b < a then false else strLt as bs

def insertSorted (x : Str) : List Str → List Str
  | [] => [x]
  | y :: rest => if strLt y x then y :: insertSorted x rest else x :: y :: rest

/-- `sort.Strings`: sort ascending in lexicographic byte order. -/
def sortStrs : List Str → List Str
  | [] => []
  | x :: rest => insertSorted x (sortStrs rest)

/-- `strings.Join(ms, ", ")`. -/
def joinComma : List Str → Str
  | [] => []
  | [x] => x
  | x :: y :: rest => x ++ [44, 32] ++ joinComma (y :: rest)

/-- The routing-relevant state of struct `Zeno` (zeno.go): one optional tree
per HTTP method, plus the router-wide maximum parameter count that sizes
the pooled value buffers. -/
structure ZenoR where
  getTree : Option Tree
  headTree : Option Tree
  postTree : Option Tree
  putTree : Option Tree
  patchTree : Option Tree
  deletedTree : Option Tree
  connectTree : Option Tree
  optionsTree : Option Tree
  traceTree : Option Tree
  maxParams : Nat

/-- `Zeno.treeForMethod`. -/
def ZenoR.treeForMethod (z : ZenoR) (method : Str) : Option Tree :=
  if method = bstr "GET" then z.getTree
  else if method = bstr "HEAD" then z.headTree
  else if method = bstr "POST" then z.postTree
  else if method = bstr "PUT" then z.putTree
  else if method = bstr "PATCH" then z.patchTree
  else if method = bstr "DELETE" then z.deletedTree
  else if method = bstr "CONNECT" then z.connectTree
  else if method = bstr "OPTIONS" then z.optionsTree
  else if method = bstr "TRACE" then z.traceTree
  else none

/-- One `check(method, tree)` step of `Zeno.findAllowedMethods`: probe the
tree (if present) with the shared scratch buffer, and record the method
when some route matches this path. -/
def checkMethod (path : Str) (acc : Res (List Str × List Str)) (m : Str)
    (t? : Option Tree) : Res (List Str × List Str) :=
  match acc with
  | .panic => .panic
  | .fuelout => .fuelout
  | .ok (ms, pv) =>
    match t? with
    | none => .ok (ms, pv)
    | some t =>
      match Tree.Get t path pv with
      | .panic => .panic
      | .fuelout => .fuelout
      | .ok (h, _, pv2) =>
          .ok (if h ≠ none then ms ++ [m] else ms, pv2)

/-- `Zeno.findAllowedMethods` (zeno.go lines 162-185): probe every method
tree at `path` (reusing one scratch buffer of `maxParams` slots and
discarding the captured values) and collect the set of methods for which
some route matches, in probe order. -/
def ZenoR.findAllowedMethods (z : ZenoR) (path : Str) : Res (List Str) :=
  let pv : List Str := List.replicate z.maxParams []
  match
    checkMethod path
      (checkMethod path
        (checkMethod path
          (checkMethod path
            (checkMethod path
              (checkMethod path
                (checkMethod path
                  (checkMethod path
                    (checkMethod path (.ok ([], pv)) (bstr "GET") z.getTree)
                    (bstr "HEAD") z.headTree)
                  (bstr "POST") z.postTree)
                (bstr "PUT") z.putTree)
              (bstr "PATCH") z.patchTree)
            (bstr "DELETE") z.deletedTree)
          (bstr "CONNECT") z.connectTree)
        (bstr "OPTIONS") z.optionsTree)
      (bstr "TRACE") z.traceTree with
  | .panic => .panic
  | .fuelout => .fuelout
  | .ok (ms, _) => .ok ms

/-- The not-found handler chain `[MethodNotAllowedHandler, NotFoundHandler]`
of zeno.go, run under `Context.Next` with the default `ErrorHandler`:
`MethodNotAllowedHandler` (lines 281-298) computes the allowed methods; if
the set is empty it returns without aborting and `NotFoundHandler` yields
`ErrNotFound`, which the default error handler renders as status 404;
otherwise it adds `OPTIONS`, sorts, joins with `", "` into the `Allow`
header, sets status 405 unless the request method is `OPTIONS`, and
aborts.  The result is `(status, Allow header)`. -/
def ZenoR.notFoundChain (z : ZenoR) (method path : Str) :
    Res (Nat × Option Str) :=
  match z.findAllowedMethods path with
  | .panic => .panic
  | .fuelout => .fuelout
  | .ok ms =>
    if ms.length = 0 then .ok (404, none)
    else
      match joinComma (sortStrs
          (if bstr "OPTIONS" ∈ ms then ms else ms ++ [bstr "OPTIONS"])) with
      | allow =>
        if method = bstr "OPTIONS" then .ok (200, some allow)
        else .ok (405, some allow)

/-- `Zeno.HandleRequest` + `Zeno.find` (zeno.go lines 150-208), restricted
to the routing outcome: a matched route runs its handler chain (modelled,
as in the repository tests, as succeeding without changing the default
status 200); an unmatched route falls back to the not-found chain.  The
result is `(status code, Allow header)`. -/
def ZenoR.handleRequest (z : ZenoR) (method path : Str) :
    Res (Nat × Option Str) :=
  match z.treeForMethod method with
  | some t =>
    match Tree.Get t path (List.replicate z.maxParams []) with
    | .panic => .panic
    | .fuelout => .fuelout
    | .ok (some _, _, _) => .ok (200, none)
    | .ok (none, _, _) => z.notFoundChain method path
  | none => z.notFoundChain method path

/-- A compile function for routes without regex tokens (never invoked on
them). -/
def noRegex : Str → Option Regex := fun _ => none

/-- The stop condition of the plain-parameter capture: a slash or a byte for
which the node has a registered static child. -/
def stopByte (children : List (Nat × Node)) (c : Nat) : Prop :=
  c = 47 ∨ (getChild children c).isSome = true

instance (children : List (Nat × Node)) (c : Nat) :
    Decidable (stopByte children c) := by
  unfold stopByte
  infer_instance

/-- Build a tree from string patterns, for the concrete routing examples
below (`newTree` on a registration failure). -/
def treeOf (pats : List (String × Handlers)) : Tree :=
  match buildTree noRegex (pats.map (fun p => (bstr p.1, p.2))) with
  | .ok (t, _) => t
  | _ => newTree

/-- Two overlapping parametric registrations under `/x/`. -/
def regsX : List (Str × Handlers) :=
  [(bstr "/x/\x7ba\x7d", [1]), (bstr "/x/\x7bb\x7d", [2])]

/-- The tree built from `regsX`. -/
def tX : Tree :=
  match buildTree noRegex regsX with
  | .ok (t, _) => t
  | _ => newTree

/-- The single registration `/page/\x7byear\x7d-\x7bslug\x7d`. -/
def regsPage : List (Str × Handlers) :=
  [(bstr "/page/\x7byear\x7d-\x7bslug\x7d", [1])]

/-- The tree built from `regsPage`. -/
def tPage : Tree :=
  match buildTree noRegex regsPage with
  | .ok (t, _) => t
  | _ => newTree

/-- The single registration `/post/\x7bid?\x7d`. -/
def regsPost : List (Str × Handlers) := [(bstr "/post/\x7bid?\x7d", [1])]

/-- The tree built from `regsPost`. -/
def tPost : Tree :=
  match buildTree noRegex regsPost with
  | .ok (t, _) => t
  | _ => newTree

/-- A parametric child node with a registered handler, used to exercise the
parametric-children loop directly. -/
def pcW : Node := .mk false false false [] none (some [9]) 7 0 [] [] 0 [bstr "x"]

/-- A router with `/demo` registered under GET and POST only. -/
def z9 : ZenoR :=
  { getTree := (buildTree noRegex [(bstr "/demo", [10])]).toOption.map Prod.fst
    headTree := none
    postTree := (buildTree noRegex [(bstr "/demo", [20])]).toOption.map Prod.fst
    putTree := none, patchTree := none, deletedTree := none
    connectTree := none, optionsTree := none, traceTree := none
    maxParams := 0 }

/-- `m` is a node of the subtree rooted at `n`: reachable through the static
`children` array and the parametric `pchildren` list. -/
inductive Sub : Node → Node → Prop
  | refl (n : Node) : Sub n n
  | child {n c m : Node} {b : Nat} (hc : (b, c) ∈ n.children) (h : Sub c m) :
      Sub n m
  | pchild {n c m : Node} (hc : c ∈ n.pchildren) (h : Sub c m) : Sub n m

/-- Well-formedness of a single node of a routing tree built by `tree.Add`,
relative to the registration counter `c` and the parameter-count bound `b`:
orders and minimum orders are bounded by the counter, `minOrder` really is
a lower bound for the handler orders of the subtree, parameter slots of
non-static nodes lie inside the value buffer, and parametric children are
never static. -/
def InvAt (c : Nat) (b : Int) (m : Node) : Prop :=
  m.minOrder ≤ c ∧
  (∀ hs, m.handlers = some hs → m.order ≤ c) ∧
  (∀ hs, m.handlers = some hs → m.minOrder ≤ m.order) ∧
  (∀ x, Sub m x → m.minOrder ≤ x.minOrder) ∧
  m.pindex = (m.pnames.length : Int) - 1 ∧
  (m.static = false → 0 ≤ m.pindex ∧ m.pindex < b) ∧
  (∀ pc, pc ∈ m.pchildren → pc.static = false)

/-- Well-formedness of the whole subtree rooted at `n`. -/
def Inv (c : Nat) (b : Int) (n : Node) : Prop :=
  ∀ m, Sub n m → InvAt c b m

/-- The least insertion order among a list of complete matches
(`maxInt32` when there is none), mirroring the `bestOrder` selection. -/
def minO (ms : List (Handlers × List Str × Nat)) : Nat :=
  (ms.map (fun m => m.2.2)).foldr min maxInt32


end Zeno

namespace Zeno

section Lemmas

@[simp] lemma Node.mk_static (s o w : Bool) (k : Str) (r : Option Regex) (h : Option Handlers) (od mo : Nat) (ch : List (Nat × Node)) (pch : List Node) (pi : Int) (pn : List Str) :
    (Node.mk s o w k r h od mo ch pch pi pn).static = s := rfl

@[simp] lemma Node.mk_optional (s o w : Bool) (k : Str) (r : Option Regex) (h : Option Handlers) (od mo : Nat) (ch : List (Nat × Node)) (pch : List Node) (pi : Int) (pn : List Str) :
    (Node.mk s o w k r h od mo ch pch pi pn).optional = o := rfl

@[simp] lemma Node.mk_wildcard (s o w : Bool) (k : Str) (r : Option Regex) (h : Option Handlers) (od mo : Nat) (ch : List (Nat × Node)) (pch : List Node) (pi : Int) (pn : List Str) :
    (Node.mk s o w k r h od mo ch pch pi pn).wildcard = w := rfl

@[simp] lemma Node.mk_key (s o w : Bool) (k : Str) (r : Option Regex) (h : Option Handlers) (od mo : Nat) (ch : List (Nat × Node)) (pch : List Node) (pi : Int) (pn : List Str) :
    (Node.mk s o w k r h od mo ch pch pi pn).key = k := rfl

@[simp] lemma Node.mk_regex (s o w : Bool) (k : Str) (r : Option Regex) (h : Option Handlers) (od mo : Nat) (ch : List (Nat × Node)) (pch : List Node) (pi : Int) (pn : List Str) :
    (Node.mk s o w k r h od mo ch pch pi pn).regex = r := rfl

@[simp] lemma Node.mk_handlers (s o w : Bool) (k : Str) (r : Option Regex) (h : Option Handlers) (od mo : Nat) (ch : List (Nat × Node)) (pch : List Node) (pi : Int) (pn : List Str) :
    (Node.mk s o w k r h od mo ch pch pi pn).handlers = h := rfl

@[simp] lemma Node.mk_order (s o w : Bool) (k : Str) (r : Option Regex) (h : Option Handlers) (od mo : Nat) (ch : List (Nat × Node)) (pch : List Node) (pi : Int) (pn : List Str) :
    (Node.mk s o w k r h od mo ch pch pi pn).order = od := rfl

@[simp] lemma Node.mk_minOrder (s o w : Bool) (k : Str) (r : Option Regex) (h : Option Handlers) (od mo : Nat) (ch : List (Nat × Node)) (pch : List Node) (pi : Int) (pn : List Str) :
    (Node.mk s o w k r h od mo ch pch pi pn).minOrder = mo := rfl

@[simp] lemma Node.mk_children (s o w : Bool) (k : Str) (r : Option Regex) (h : Option Handlers) (od mo : Nat) (ch : List (Nat × Node)) (pch : List Node) (pi : Int) (pn : List Str) :
    (Node.mk s o w k r h od mo ch pch pi pn).children = ch := rfl

@[simp] lemma Node.mk_pchildren (s o w : Bool) (k : Str) (r : Option Regex) (h : Option Handlers) (od mo : Nat) (ch : List (Nat × Node)) (pch : List Node) (pi : Int) (pn : List Str) :
    (Node.mk s o w k r h od mo ch pch pi pn).pchildren = pch := rfl

@[simp] lemma Node.mk_pindex (s o w : Bool) (k : Str) (r : Option Regex) (h : Option Handlers) (od mo : Nat) (ch : List (Nat × Node)) (pch : List Node) (pi : Int) (pn : List Str) :
    (Node.mk s o w k r h od mo ch pch pi pn).pindex = pi := rfl

@[simp] lemma Node.mk_pnames (s o w : Bool) (k : Str) (r : Option Regex) (h : Option Handlers) (od mo : Nat) (ch : List (Nat × Node)) (pch : List Node) (pi : Int) (pn : List Str) :
    (Node.mk s o w k r h od mo ch pch pi pn).pnames = pn := rfl

@[simp] lemma Node.setChildren_static (n : Node) (ch2 : List (Nat × Node)) :
    (n.setChildren ch2).static = n.static := by
  cases n; rfl

@[simp] lemma Node.setChildren_optional (n : Node) (ch2 : List (Nat × Node)) :
    (n.setChildren ch2).optional = n.optional := by
  cases n; rfl

@[simp] lemma Node.setChildren_wildcard (n : Node) (ch2 : List (Nat × Node)) :
    (n.setChildren ch2).wildcard = n.wildcard := by
  cases n; rfl

@[simp] lemma Node.setChildren_key (n : Node) (ch2 : List (Nat × Node)) :
    (n.setChildren ch2).key = n.key := by
  cases n; rfl

@[simp] lemma Node.setChildren_regex (n : Node) (ch2 : List (Nat × Node)) :
    (n.setChildren ch2).regex = n.regex := by
  cases n; rfl

@[simp] lemma Node.setChildren_handlers (n : Node) (ch2 : List (Nat × Node)) :
    (n.setChildren ch2).handlers = n.handlers := by
  cases n; rfl

@[simp] lemma Node.setChildren_order (n : Node) (ch2 : List (Nat × Node)) :
    (n.setChildren ch2).order = n.order := by
  cases n; rfl

@[simp] lemma Node.setChildren_minOrder (n : Node) (ch2 : List (Nat × Node)) :
    (n.setChildren ch2).minOrder = n.minOrder := by
  cases n; rfl

@[simp] lemma Node.setChildren_children (n : Node) (ch2 : List (Nat × Node)) :
    (n.setChildren ch2).children = ch2 := by
  cases n; rfl

@[simp] lemma Node.setChildren_pchildren (n : Node) (ch2 : List (Nat × Node)) :
    (n.setChildren ch2).pchildren = n.pchildren := by
  cases n; rfl

@[simp] lemma Node.setChildren_pindex (n : Node) (ch2 : List (Nat × Node)) :
    (n.setChildren ch2).pindex = n.pindex := by
  cases n; rfl

@[simp] lemma Node.setChildren_pnames (n : Node) (ch2 : List (Nat × Node)) :
    (n.setChildren ch2).pnames = n.pnames := by
  cases n; rfl

@[simp] lemma Node.setPChildren_static (n : Node) (pch2 : List Node) :
    (n.setPChildren pch2).static = n.static := by
  cases n; rfl

@[simp] lemma Node.setPChildren_optional (n : Node) (pch2 : List Node) :
    (n.setPChildren pch2).optional = n.optional := by
  cases n; rfl

@[simp] lemma Node.setPChildren_wildcard (n : Node) (pch2 : List Node) :
    (n.setPChildren pch2).wildcard = n.wildcard := by
  cases n; rfl

@[simp] lemma Node.setPChildren_key (n : Node) (pch2 : List Node) :
    (n.setPChildren pch2).key = n.key := by
  cases n; rfl

@[simp] lemma Node.setPChildren_regex (n : Node) (pch2 : List Node) :
    (n.setPChildren pch2).regex = n.regex := by
  cases n; rfl

@[simp] lemma Node.setPChildren_handlers (n : Node) (pch2 : List Node) :
    (n.setPChildren pch2).handlers = n.handlers := by
  cases n; rfl

@[simp] lemma Node.setPChildren_order (n : Node) (pch2 : List Node) :
    (n.setPChildren pch2).order = n.order := by
  cases n; rfl

@[simp] lemma Node.setPChildren_minOrder (n : Node) (pch2 : List Node) :
    (n.setPChildren pch2).minOrder = n.minOrder := by
  cases n; rfl

@[simp] lemma Node.setPChildren_children (n : Node) (pch2 : List Node) :
    (n.setPChildren pch2).children = n.children := by
  cases n; rfl

@[simp] lemma Node.setPChildren_pchildren (n : Node) (pch2 : List Node) :
    (n.setPChildren pch2).pchildren = pch2 := by
  cases n; rfl

@[simp] lemma Node.setPChildren_pindex (n : Node) (pch2 : List Node) :
    (n.setPChildren pch2).pindex = n.pindex := by
  cases n; rfl

@[simp] lemma Node.setPChildren_pnames (n : Node) (pch2 : List Node) :
    (n.setPChildren pch2).pnames = n.pnames := by
  cases n; rfl

@[simp] lemma Node.setRoute_static (n : Node) (hs2 : Handlers) (od2 : Nat) :
    (n.setRoute hs2 od2).static = n.static := by
  cases n; rfl

@[simp] lemma Node.setRoute_optional (n : Node) (hs2 : Handlers) (od2 : Nat) :
    (n.setRoute hs2 od2).optional = n.optional := by
  cases n; rfl

@[simp] lemma Node.setRoute_wildcard (n : Node) (hs2 : Handlers) (od2 : Nat) :
    (n.setRoute hs2 od2).wildcard = n.wildcard := by
  cases n; rfl

@[simp] lemma Node.setRoute_key (n : Node) (hs2 : Handlers) (od2 : Nat) :
    (n.setRoute hs2 od2).key = n.key := by
  cases n; rfl

@[simp] lemma Node.setRoute_regex (n : Node) (hs2 : Handlers) (od2 : Nat) :
    (n.setRoute hs2 od2).regex = n.regex := by
  cases n; rfl

@[simp] lemma Node.setRoute_handlers (n : Node) (hs2 : Handlers) (od2 : Nat) :
    (n.setRoute hs2 od2).handlers = some hs2 := by
  cases n; rfl

@[simp] lemma Node.setRoute_order (n : Node) (hs2 : Handlers) (od2 : Nat) :
    (n.setRoute hs2 od2).order = od2 := by
  cases n; rfl

@[simp] lemma Node.setRoute_minOrder (n : Node) (hs2 : Handlers) (od2 : Nat) :
    (n.setRoute hs2 od2).minOrder = n.minOrder := by
  cases n; rfl

@[simp] lemma Node.setRoute_children (n : Node) (hs2 : Handlers) (od2 : Nat) :
    (n.setRoute hs2 od2).children = n.children := by
  cases n; rfl

@[simp] lemma Node.setRoute_pchildren (n : Node) (hs2 : Handlers) (od2 : Nat) :
    (n.setRoute hs2 od2).pchildren = n.pchildren := by
  cases n; rfl

@[simp] lemma Node.setRoute_pindex (n : Node) (hs2 : Handlers) (od2 : Nat) :
    (n.setRoute hs2 od2).pindex = n.pindex := by
  cases n; rfl

@[simp] lemma Node.setRoute_pnames (n : Node) (hs2 : Handlers) (od2 : Nat) :
    (n.setRoute hs2 od2).pnames = n.pnames := by
  cases n; rfl

lemma sub_cases {n m : Node} (h : Sub n m) :
    m = n ∨ (∃ x c, (x, c) ∈ n.children ∧ Sub c m) ∨
      (∃ c ∈ n.pchildren, Sub c m) := by
  cases h with
  | refl => exact Or.inl rfl
  | child hc hs => exact Or.inr (Or.inl ⟨_, _, hc, hs⟩)
  | pchild hc hs => exact Or.inr (Or.inr ⟨_, hc, hs⟩)

lemma Inv_mono {c c2 : Nat} {b b2 : Int} {n : Node} (hc : c ≤ c2)
    (hb : b ≤ b2) (h : Inv c b n) : Inv c2 b2 n := by
  intro m hm
  obtain ⟨h1, h2, h3, h4, h5, h6, h7⟩ := h m hm
  exact ⟨le_trans h1 hc, fun hs hh => le_trans (h2 hs hh) hc, h3, h4, h5,
    fun hst => ⟨(h6 hst).1, lt_of_lt_of_le (h6 hst).2 hb⟩, h7⟩

/-- To establish the subtree invariant it suffices to establish it at the
root and inherit it from the children. -/
lemma Inv_node {c : Nat} {b : Int} {n : Node}
    (hself : InvAt c b n)
    (hch : ∀ x ch, (x, ch) ∈ n.children → Inv c b ch)
    (hpch : ∀ pc ∈ n.pchildren, Inv c b pc) : Inv c b n := by
  intro m hm
  rcases sub_cases hm with rfl | ⟨x, ch, hc2, hs⟩ | ⟨pc, hc2, hs⟩
  · exact hself
  · exact hch x ch hc2 m hs
  · exact hpch pc hc2 m hs

lemma setChild_mem :
    ∀ (ch : List (Nat × Node)) (b : Nat) (v : Node) (x : Nat) (c : Node),
      (x, c) ∈ setChild ch b v → (x = b ∧ c = v) ∨ (x, c) ∈ ch := by
  intro ch
  induction ch with
  | nil =>
      intro b v x c h
      simp [setChild] at h
      exact Or.inl ⟨h.1, h.2⟩
  | cons hd rest ih =>
      intro b v x c h
      obtain ⟨b0, c0⟩ := hd
      by_cases hb : b0 = b
      · subst hb
        simp only [setChild, if_pos rfl] at h
        rcases List.mem_cons.mp h with h1 | h2
        · simp at h1
          exact Or.inl ⟨h1.1, h1.2⟩
        · exact Or.inr (List.mem_cons_of_mem _ h2)
      · simp only [setChild, if_neg hb] at h
        rcases List.mem_cons.mp h with h1 | h2
        · exact Or.inr (by simp [h1])
        · rcases ih b v x c h2 with h3 | h4
          · exact Or.inl h3
          · exact Or.inr (List.mem_cons_of_mem _ h4)

lemma getChild_mem :
    ∀ (ch : List (Nat × Node)) (b : Nat) (c : Node),
      getChild ch b = some c → (b, c) ∈ ch := by
  intro ch
  induction ch with
  | nil => intro b c h; simp [getChild] at h
  | cons hd rest ih =>
      intro b c h
      obtain ⟨b0, c0⟩ := hd
      by_cases hb : b0 = b
      · subst hb
        simp [getChild] at h
        simp [h]
      · simp [getChild, hb] at h
        exact List.mem_cons_of_mem _ (ih b c h)

lemma Inv_child {c : Nat} {b : Int} {n ch : Node} {x : Nat}
    (h : Inv c b n) (hc : (x, ch) ∈ n.children) : Inv c b ch :=
  fun m hm => h m (Sub.child hc hm)

lemma Inv_pchild {c : Nat} {b : Int} {n ch : Node}
    (h : Inv c b n) (hc : ch ∈ n.pchildren) : Inv c b ch :=
  fun m hm => h m (Sub.pchild hc hm)

lemma minO_nil : minO [] = maxInt32 := rfl

lemma minO_cons (x : Handlers × List Str × Nat)
    (ms : List (Handlers × List Str × Nat)) :
    minO (x :: ms) = min x.2.2 (minO ms) := rfl

lemma minO_le_max (ms : List (Handlers × List Str × Nat)) :
    minO ms ≤ maxInt32 := by
  induction ms with
  | nil => exact le_refl _
  | cons x rest ih => exact le_trans (min_le_right _ _) ih

lemma minO_append (a b : List (Handlers × List Str × Nat)) :
    minO (a ++ b) = min (minO a) (minO b) := by
  induction a with
  | nil => simp [minO_nil, Nat.min_eq_right (minO_le_max b)]
  | cons x rest ih =>
      simp only [List.cons_append, minO_cons, ih, Nat.min_assoc]

lemma minO_le_of_mem {x : Handlers × List Str × Nat}
    {ms : List (Handlers × List Str × Nat)} (h : x ∈ ms) :
    minO ms ≤ x.2.2 := by
  induction ms with
  | nil => cases h
  | cons y rest ih =>
      rcases List.mem_cons.mp h with h1 | h2
      · subst h1; exact min_le_left _ _
      · exact le_trans (min_le_right _ _) (ih h2)

lemma le_minO {lo : Nat} {ms : List (Handlers × List Str × Nat)}
    (hmax : lo ≤ maxInt32) (h : ∀ x ∈ ms, lo ≤ x.2.2) : lo ≤ minO ms := by
  induction ms with
  | nil => exact hmax
  | cons y rest ih =>
      refine le_min (h y (by simp)) (ih ?_)
      intro x hx
      exact h x (List.mem_cons_of_mem _ hx)

lemma minO_le_of_forall {c : Nat} {ms : List (Handlers × List Str × Nat)}
    (hne : ms ≠ []) (h : ∀ x ∈ ms, x.2.2 ≤ c) : minO ms ≤ c := by
  match ms with
  | [] => exact absurd rfl hne
  | y :: rest =>
      exact le_trans (min_le_left _ _) (h y (by simp))

/-- Every complete match enumerated by `Node.matchList` is carried by a node
of the subtree, with matching handlers, parameter names and order. -/
lemma matchSub :
    ∀ fuel : Nat,
      (∀ n path ms, Node.matchList fuel n path = some ms →
        ∀ x ∈ ms, ∃ m, Sub n m ∧ m.handlers = some x.1 ∧
          m.pnames = x.2.1 ∧ m.order = x.2.2) ∧
      (∀ n path ms, Node.matchAfter fuel n path = some ms →
        ∀ x ∈ ms, ∃ m, Sub n m ∧ m.handlers = some x.1 ∧
          m.pnames = x.2.1 ∧ m.order = x.2.2) ∧
      (∀ pcs path ms, Node.matchPCs fuel pcs path = some ms →
        ∀ x ∈ ms, ∃ pc ∈ pcs, ∃ m, Sub pc m ∧ m.handlers = some x.1 ∧
          m.pnames = x.2.1 ∧ m.order = x.2.2) := by
  intro fuel
  induction fuel with
  | zero =>
      refine ⟨?_, ?_, ?_⟩
      · intro n path ms h; simp [Node.matchList] at h
      · intro n path ms h; simp [Node.matchAfter] at h
      · intro pcs path ms h; simp [Node.matchPCs] at h
  | succ fuel ih =>
      obtain ⟨ih1, ih2, ih3⟩ := ih
      refine ⟨?_, ?_, ?_⟩
      · intro n path ms h x hx
        simp only [Node.matchList] at h
        repeat' split at h
        all_goals
          first
            | (simp only [Option.some.injEq] at h; subst h; simp at hx)
            | exact ih2 n _ ms h x hx
      · intro n path ms h x hx
        match path with
        | p0 :: prest =>
            simp only [Node.matchAfter] at h
            cases hlit : getChild n.children p0 with
            | some lit =>
                simp only [hlit] at h
                cases hml : Node.matchList fuel lit (p0 :: prest) with
                | none => simp only [hml] at h; exact absurd h (by simp)
                | some l1 =>
                    simp only [hml] at h
                    cases hpcs :
                        Node.matchPCs fuel n.pchildren (p0 :: prest) with
                    | none => simp only [hpcs] at h; exact absurd h (by simp)
                    | some r =>
                        simp only [hpcs] at h
                        simp only [Option.some.injEq] at h
                        subst h
                        rcases List.mem_append.mp hx with hx1 | hx2
                        · obtain ⟨m, hsub, hrest⟩ := ih1 lit _ l1 hml x hx1
                          exact ⟨m,
                            Sub.child (getChild_mem _ _ _ hlit) hsub, hrest⟩
                        · obtain ⟨pc, hpc, m, hsub, hrest⟩ :=
                            ih3 n.pchildren _ r hpcs x hx2
                          exact ⟨m, Sub.pchild hpc hsub, hrest⟩
            | none =>
                simp only [hlit] at h
                cases hpcs : Node.matchPCs fuel n.pchildren (p0 :: prest) with
                | none => simp only [hpcs] at h; exact absurd h (by simp)
                | some r =>
                    simp only [hpcs] at h
                    simp only [Option.some.injEq] at h
                    subst h
                    simp only [List.nil_append] at hx
                    obtain ⟨pc, hpc, m, hsub, hrest⟩ :=
                      ih3 n.pchildren _ r hpcs x hx
                    exact ⟨m, Sub.pchild hpc hsub, hrest⟩
        | [] =>
            simp only [Node.matchAfter] at h
            cases hh : n.handlers with
            | some hs =>
                simp only [hh] at h
                cases hpcs : Node.matchPCs fuel n.pchildren [] with
                | none => simp only [hpcs] at h; exact absurd h (by simp)
                | some r =>
                    simp only [hpcs] at h
                    simp only [Option.some.injEq] at h
                    subst h
                    rcases List.mem_cons.mp hx with hx1 | hx2
                    · subst hx1
                      exact ⟨n, Sub.refl n, hh, rfl, rfl⟩
                    · obtain ⟨pc, hpc, m, hsub, hrest⟩ :=
                        ih3 n.pchildren _ r hpcs x hx2
                      exact ⟨m, Sub.pchild hpc hsub, hrest⟩
            | none =>
                simp only [hh] at h
                cases hpcs : Node.matchPCs fuel n.pchildren [] with
                | none => simp only [hpcs] at h; exact absurd h (by simp)
                | some r =>
                    simp only [hpcs] at h
                    simp only [Option.some.injEq] at h
                    subst h
                    simp only [List.nil_append] at hx
                    obtain ⟨pc, hpc, m, hsub, hrest⟩ :=
                      ih3 n.pchildren _ r hpcs x hx
                    exact ⟨m, Sub.pchild hpc hsub, hrest⟩
      · intro pcs path ms h x hx
        match pcs with
        | [] =>
            simp [Node.matchPCs] at h
            subst h
            cases hx
        | pc :: rest =>
            simp only [Node.matchPCs] at h
            cases hml : Node.matchList fuel pc path with
            | none => simp only [hml] at h; exact absurd h (by simp)
            | some l1 =>
                simp only [hml] at h
                cases hr : Node.matchPCs fuel rest path with
                | none => simp only [hr] at h; exact absurd h (by simp)
                | some r =>
                    simp only [hr] at h
                    simp only [Option.some.injEq] at h
                    subst h
                    rcases List.mem_append.mp hx with hx1 | hx2
                    · obtain ⟨m, hsub, hrest⟩ := ih1 pc _ l1 hml x hx1
                      exact ⟨pc, by simp, m, hsub, hrest⟩
                    · obtain ⟨pc2, hpc2, m, hsub, hrest⟩ :=
                        ih3 rest _ r hr x hx2
                      exact ⟨pc2, List.mem_cons_of_mem _ hpc2, m, hsub, hrest⟩

/-- Bounds transported along `matchSub`: under the tree invariant, every
complete match has order at least the minimum order of its subtree root and
at most the registration counter. -/
lemma matchGe {c : Nat} {b : Int} {n : Node} {fuel : Nat} {path : Str}
    {ms : List (Handlers × List Str × Nat)}
    (hinv : Inv c b n) (h : Node.matchList fuel n path = some ms) :
    ∀ x ∈ ms, n.minOrder ≤ x.2.2 ∧ x.2.2 ≤ c := by
  intro x hx
  obtain ⟨m, hsub, hh, _, hord⟩ := (matchSub fuel).1 n path ms h x hx
  constructor
  · have h1 := (hinv n (Sub.refl n)).2.2.2.1 m hsub
    have h2 := (hinv m hsub).2.2.1 x.1 hh
    omega
  · have := (hinv m hsub).2.1 x.1 hh
    omega

/-- Soundness of the matching engine with respect to the declarative match
enumeration: whenever `node.get` returns a handler chain, that result is one
of the complete matches of the path. -/
lemma soundM :
    ∀ fuel : Nat,
      (∀ n path d ns o ms, Node.getM fuel n path = some (some d, ns, o) →
        Node.matchList fuel n path = some ms → (d, ns, o) ∈ ms) ∧
      (∀ n path d ns o ms, Node.descendM fuel n path = some (some d, ns, o) →
        Node.matchAfter fuel n path = some ms → (d, ns, o) ∈ ms) ∧
      (∀ pcs path bd bn bo d ns o ms,
        Node.pcLoopM fuel pcs path bd bn bo = some (some d, ns, o) →
        Node.matchPCs fuel pcs path = some ms →
        (d, ns, o) ∈ ms ∨ (bd = some d ∧ bn = ns ∧ bo = o)) := by
  intro fuel
  induction fuel with
  | zero =>
      refine ⟨?_, ?_, ?_⟩
      · intro n path d ns o ms h hm; simp [Node.getM] at h
      · intro n path d ns o ms h hm; simp [Node.descendM] at h
      · intro pcs path bd bn bo d ns o ms h hm; simp [Node.pcLoopM] at h
  | succ fuel ih =>
      obtain ⟨ih1, ih2, ih3⟩ := ih
      refine ⟨?_, ?_, ?_⟩
      · intro n path d ns o ms h hm
        simp only [Node.getM] at h
        simp only [Node.matchList] at hm
        by_cases hst : n.static = true
        · rw [if_pos hst] at h hm
          by_cases hpre : n.key.isPrefixOf path = true
          · rw [if_pos hpre] at h hm
            exact ih2 n _ d ns o ms h hm
          · rw [if_neg hpre] at h hm
            simp at h
        · rw [if_neg hst] at h hm
          cases hre : n.regex with
          | some re =>
              simp only [hre] at h hm
              by_cases hopt : path.length = 0 ∧ n.optional = true
              · rw [if_pos hopt] at h hm
                exact ih2 n path d ns o ms h hm
              · rw [if_neg hopt] at h hm
                cases hrp : re path with
                | some e =>
                    simp only [hrp] at h hm
                    exact ih2 n _ d ns o ms h hm
                | none => simp only [hrp] at h; simp at h
          | none =>
              simp only [hre] at h hm
              by_cases hwc : n.wildcard = true
              · rw [if_pos hwc] at h hm
                exact ih2 n [] d ns o ms h hm
              · rw [if_neg hwc] at h hm
                by_cases hnil : path = []
                · rw [if_pos hnil] at h hm
                  by_cases hop2 : n.optional = true
                  · rw [if_pos hop2] at h hm
                    exact ih2 n [] d ns o ms h hm
                  · rw [if_neg hop2] at h hm
                    simp at h
                · rw [if_neg hnil] at h hm
                  exact ih2 n _ d ns o ms h hm
      · intro n path d ns o ms h hm
        match path with
        | p0 :: prest =>
            simp only [Node.descendM] at h
            simp only [Node.matchAfter] at hm
            cases hlit : getChild n.children p0 with
            | some lit =>
                simp only [hlit] at h hm
                cases hml : Node.matchList fuel lit (p0 :: prest) with
                | none => simp only [hml] at hm; exact absurd hm (by simp)
                | some l1 =>
                    simp only [hml] at hm
                    cases hpcs :
                        Node.matchPCs fuel n.pchildren (p0 :: prest) with
                    | none => simp only [hpcs] at hm; exact absurd hm (by simp)
                    | some r =>
                        simp only [hpcs] at hm
                        simp only [Option.some.injEq] at hm
                        subst hm
                        by_cases hpz : n.pchildren.length = 0
                        · rw [if_pos hpz] at h
                          exact List.mem_append_left _
                            (ih1 lit _ d ns o l1 h hml)
                        · rw [if_neg hpz] at h
                          cases hgl : Node.getM fuel lit (p0 :: prest) with
                          | none => simp only [hgl] at h; exact absurd h (by simp)
                          | some t =>
                              obtain ⟨d1, ns1, o1⟩ := t
                              simp only [hgl] at h
                              by_cases hbet : d1 ≠ none ∧ o1 < maxInt32
                              · rw [if_pos hbet] at h
                                rcases ih3 n.pchildren _ d1 ns1 o1 d ns o r
                                    h hpcs with hin | ⟨he1, he2, he3⟩
                                · exact List.mem_append_right _ hin
                                · subst he1; subst he2; subst he3
                                  exact List.mem_append_left _
                                    (ih1 lit _ _ _ _ l1 hgl hml)
                              · rw [if_neg hbet] at h
                                rcases ih3 n.pchildren _ none [] maxInt32
                                    d ns o r h hpcs with hin | ⟨he1, _, _⟩
                                · exact List.mem_append_right _ hin
                                · exact absurd he1 (by simp)
            | none =>
                simp only [hlit] at h hm
                cases hpcs : Node.matchPCs fuel n.pchildren (p0 :: prest) with
                | none => simp only [hpcs] at hm; exact absurd hm (by simp)
                | some r =>
                    simp only [hpcs] at hm
                    simp only [Option.some.injEq] at hm
                    subst hm
                    rcases ih3 n.pchildren _ none [] maxInt32 d ns o r
                        h hpcs with hin | ⟨he1, _, _⟩
                    · simpa using hin
                    · exact absurd he1 (by simp)
        | [] =>
            simp only [Node.descendM] at h
            simp only [Node.matchAfter] at hm
            cases hh : n.handlers with
            | some hs =>
                simp only [hh] at h hm
                cases hpcs : Node.matchPCs fuel n.pchildren [] with
                | none => simp only [hpcs] at hm; exact absurd hm (by simp)
                | some r =>
                    simp only [hpcs] at hm
                    simp only [Option.some.injEq] at hm
                    subst hm
                    rcases ih3 n.pchildren _ (some hs) n.pnames n.order
                        d ns o r h hpcs with hin | ⟨he1, he2, he3⟩
                    · exact List.mem_append_right _ hin
                    · refine List.mem_append_left _ ?_
                      simp only [Option.some.injEq] at he1
                      subst he1; subst he2; subst he3
                      simp
            | none =>
                simp only [hh] at h hm
                cases hpcs : Node.matchPCs fuel n.pchildren [] with
                | none => simp only [hpcs] at hm; exact absurd hm (by simp)
                | some r =>
                    simp only [hpcs] at hm
                    simp only [Option.some.injEq] at hm
                    subst hm
                    rcases ih3 n.pchildren _ none [] maxInt32 d ns o r
                        h hpcs with hin | ⟨he1, _, _⟩
                    · simpa using hin
                    · exact absurd he1 (by simp)
      · intro pcs path bd bn bo d ns o ms h hm
        match pcs with
        | [] =>
            simp only [Node.pcLoopM] at h
            simp only [Option.some.injEq, Prod.mk.injEq] at h
            right
            exact ⟨h.1, h.2.1, h.2.2⟩
        | pc :: rest =>
            simp only [Node.pcLoopM] at h
            simp only [Node.matchPCs] at hm
            cases hml : Node.matchList fuel pc path with
            | none => simp only [hml] at hm; exact absurd hm (by simp)
            | some l1 =>
                simp only [hml] at hm
                cases hr : Node.matchPCs fuel rest path with
                | none => simp only [hr] at hm; exact absurd hm (by simp)
                | some r =>
                    simp only [hr] at hm
                    simp only [Option.some.injEq] at hm
                    subst hm
                    by_cases hprune : bo ≤ pc.minOrder
                    · rw [if_pos hprune] at h
                      rcases ih3 rest path bd bn bo d ns o r h hr with
                          hin | heq
                      · exact Or.inl (List.mem_append_right _ hin)
                      · exact Or.inr heq
                    · rw [if_neg hprune] at h
                      cases hgp : Node.getM fuel pc path with
                      | none => simp only [hgp] at h; exact absurd h (by simp)
                      | some t =>
                          obtain ⟨d1, ns1, o1⟩ := t
                          simp only [hgp] at h
                          by_cases hbet : d1 ≠ none ∧ o1 < bo
                          · rw [if_pos hbet] at h
                            rcases ih3 rest path d1 ns1 o1 d ns o r h hr with
                                hin | ⟨he1, he2, he3⟩
                            · exact Or.inl (List.mem_append_right _ hin)
                            · subst he1; subst he2; subst he3
                              exact Or.inl (List.mem_append_left _
                                (ih1 pc _ _ _ _ l1 hgp hml))
                          · rw [if_neg hbet] at h
                            rcases ih3 rest path bd bn bo d ns o r h hr with
                                hin | heq
                            · exact Or.inl (List.mem_append_right _ hin)
                            · exact Or.inr heq

lemma seekIdx_ge (ch : List (Nat × Node)) :
    ∀ (l : Str) (i : Nat), i ≤ seekIdx ch l i := by
  intro l
  induction l with
  | nil => intro i; simp [seekIdx]
  | cons c rest ih =>
      intro i
      by_cases h1 : c = 47
      · simp [seekIdx, h1]
      · by_cases h2 : (getChild ch c).isSome
        · simp [seekIdx, h1, h2]
        · simp only [seekIdx, h1, h2, if_false, Bool.false_eq_true]
          have := ih (i + 1)
          omega

lemma seekIdx_le (ch : List (Nat × Node)) :
    ∀ (l : Str) (i : Nat), seekIdx ch l i ≤ i + l.length := by
  intro l
  induction l with
  | nil => intro i; simp [seekIdx]
  | cons c rest ih =>
      intro i
      by_cases h1 : c = 47
      · simp [seekIdx, h1]
      · by_cases h2 : (getChild ch c).isSome
        · simp [seekIdx, h1, h2]
        · simp only [seekIdx, h1, h2, if_false, Bool.false_eq_true,
            List.length_cons]
          have := ih (i + 1)
          omega

lemma seekIdx_before (ch : List (Nat × Node)) :
    ∀ (l : Str) (i j : Nat), i ≤ j → j < seekIdx ch l i →
      ∀ c, l.get? (j - i) = some c → ¬ stopByte ch c := by
  intro l
  induction l with
  | nil =>
      intro i j hij hlt
      simp [seekIdx] at hlt
      omega
  | cons c0 rest ih =>
      intro i j hij hlt c hget
      by_cases h1 : c0 = 47
      · simp [seekIdx, h1] at hlt; omega
      · by_cases h2 : (getChild ch c0).isSome
        · simp [seekIdx, h1, h2] at hlt; omega
        · simp only [seekIdx, h1, h2, if_false, Bool.false_eq_true] at hlt
          by_cases hji : j = i
          · subst hji
            simp at hget
            subst hget
            intro hstop
            rcases hstop with h | h
            · exact h1 h
            · simp [h] at h2
          · have hij2 : i + 1 ≤ j := by omega
            have : (c0 :: rest).get? (j - i) = rest.get? (j - (i + 1)) := by
              have : j - i = (j - (i + 1)) + 1 := by omega
              simp [this]
            rw [this] at hget
            exact ih (i + 1) j hij2 hlt c hget

lemma seekIdx_stop (ch : List (Nat × Node)) :
    ∀ (l : Str) (i : Nat), seekIdx ch l i < i + l.length →
      ∃ c, l.get? (seekIdx ch l i - i) = some c ∧ stopByte ch c := by
  intro l
  induction l with
  | nil => intro i h; simp [seekIdx] at h
  | cons c0 rest ih =>
      intro i h
      by_cases h1 : c0 = 47
      · refine ⟨c0, ?_, Or.inl h1⟩
        simp [seekIdx, h1]
      · by_cases h2 : (getChild ch c0).isSome
        · refine ⟨c0, ?_, Or.inr h2⟩
          simp [seekIdx, h1, h2]
        · simp only [seekIdx, h1, h2, if_false, Bool.false_eq_true] at h ⊢
          have hlen : seekIdx ch rest (i + 1) < (i + 1) + rest.length := by
            simp at h
            omega
          obtain ⟨c, hc, hstop⟩ := ih (i + 1) hlen
          refine ⟨c, ?_, hstop⟩
          have hge := seekIdx_ge ch rest (i + 1)
          have : seekIdx ch rest (i + 1) - i =
              (seekIdx ch rest (i + 1) - (i + 1)) + 1 := by omega
          rw [List.get?_eq_getElem?] at hc
          simp [this, hc]

/-- The order of the best candidate never increases along the parametric
loop. -/
lemma matchPCs_nil {fuel : Nat} {path : Str} {r : List (Handlers × List Str × Nat)}
    (h : Node.matchPCs fuel [] path = some r) : r = [] := by
  match fuel with
  | 0 => simp [Node.matchPCs] at h
  | fuel + 1 =>
      simp [Node.matchPCs] at h
      exact h

/-- Completeness and minimality of the matching engine: under the tree
invariant, whenever the complete matches of a path are defined, `node.get`
is defined as well, succeeds exactly when some complete match exists, and
returns the least insertion order among the complete matches. -/
lemma minM :
    ∀ fuel : Nat,
      (∀ (c : Nat) (b : Int) n path ms, Inv c b n → c < maxInt32 →
        Node.matchList fuel n path = some ms →
        ∃ d2 ns2 o2, Node.getM fuel n path = some (d2, ns2, o2) ∧
          o2 = minO ms ∧ (d2 = none ↔ ms = [])) ∧
      (∀ (c : Nat) (b : Int) n path ms, Inv c b n → c < maxInt32 →
        Node.matchAfter fuel n path = some ms →
        ∃ d2 ns2 o2, Node.descendM fuel n path = some (d2, ns2, o2) ∧
          o2 = minO ms ∧ (d2 = none ↔ ms = [])) ∧
      (∀ (c : Nat) (b : Int) pcs path ms bd bn bo,
        (∀ pc ∈ pcs, Inv c b pc) → c < maxInt32 →
        Node.matchPCs fuel pcs path = some ms →
        (bd = none → bo = maxInt32) → (bd ≠ none → bo < maxInt32) →
        ∃ d2 ns2 o2, Node.pcLoopM fuel pcs path bd bn bo = some (d2, ns2, o2) ∧
          o2 = min bo (minO ms) ∧ (d2 = none ↔ (bd = none ∧ ms = []))) := by
  intro fuel
  induction fuel with
  | zero =>
      refine ⟨?_, ?_, ?_⟩
      · intro c b n path ms _ _ hm; simp [Node.matchList] at hm
      · intro c b n path ms _ _ hm; simp [Node.matchAfter] at hm
      · intro c b pcs path ms bd bn bo _ _ hm; simp [Node.matchPCs] at hm
  | succ fuel ih =>
      obtain ⟨ih1, ih2, ih3⟩ := ih
      refine ⟨?_, ?_, ?_⟩
      · intro c b n path ms hinv hc hm
        simp only [Node.matchList] at hm
        simp only [Node.getM]
        by_cases hst : n.static = true
        · rw [if_pos hst] at hm ⊢
          by_cases hpre : n.key.isPrefixOf path = true
          · rw [if_pos hpre] at hm ⊢
            exact ih2 c b n _ ms hinv hc hm
          · rw [if_neg hpre] at hm ⊢
            simp only [Option.some.injEq] at hm
            exact ⟨none, [], maxInt32, rfl, by simp [← hm, minO_nil],
              by simp [← hm]⟩
        · rw [if_neg hst] at hm ⊢
          cases hre : n.regex with
          | some re =>
              simp only [hre] at hm ⊢
              by_cases hopt : path.length = 0 ∧ n.optional = true
              · rw [if_pos hopt] at hm ⊢
                exact ih2 c b n path ms hinv hc hm
              · rw [if_neg hopt] at hm ⊢
                cases hrp : re path with
                | some e =>
                    simp only [hrp] at hm ⊢
                    exact ih2 c b n _ ms hinv hc hm
                | none =>
                    simp only [hrp] at hm ⊢
                    simp only [Option.some.injEq] at hm
                    exact ⟨none, [], maxInt32, rfl, by simp [← hm, minO_nil],
                      by simp [← hm]⟩
          | none =>
              simp only [hre] at hm ⊢
              by_cases hwc : n.wildcard = true
              · rw [if_pos hwc] at hm ⊢
                exact ih2 c b n [] ms hinv hc hm
              · rw [if_neg hwc] at hm ⊢
                by_cases hnil : path = []
                · rw [if_pos hnil] at hm ⊢
                  by_cases hop2 : n.optional = true
                  · rw [if_pos hop2] at hm ⊢
                    exact ih2 c b n [] ms hinv hc hm
                  · rw [if_neg hop2] at hm ⊢
                    simp only [Option.some.injEq] at hm
                    exact ⟨none, [], maxInt32, rfl, by simp [← hm, minO_nil],
                      by simp [← hm]⟩
                · rw [if_neg hnil] at hm ⊢
                  exact ih2 c b n _ ms hinv hc hm
      · intro c b n path ms hinv hc hm
        match path with
        | p0 :: prest =>
            simp only [Node.matchAfter] at hm
            simp only [Node.descendM]
            cases hlit : getChild n.children p0 with
            | some lit =>
                simp only [hlit] at hm ⊢
                cases hml : Node.matchList fuel lit (p0 :: prest) with
                | none => simp only [hml] at hm; exact absurd hm (by simp)
                | some l1 =>
                    simp only [hml] at hm
                    cases hpcs :
                        Node.matchPCs fuel n.pchildren (p0 :: prest) with
                    | none => simp only [hpcs] at hm; exact absurd hm (by simp)
                    | some r =>
                        simp only [hpcs] at hm
                        simp only [Option.some.injEq] at hm
                        subst hm
                        have hinvlit : Inv c b lit :=
                          Inv_child hinv (getChild_mem _ _ _ hlit)
                        obtain ⟨d1, ns1, o1, hgl, ho1, hiff1⟩ :=
                          ih1 c b lit (p0 :: prest) l1 hinvlit hc hml
                        by_cases hpz : n.pchildren.length = 0
                        · rw [if_pos hpz]
                          have hpe : n.pchildren = [] :=
                            List.length_eq_zero.mp hpz
                          rw [hpe] at hpcs
                          have hr0 : r = [] := matchPCs_nil hpcs
                          subst hr0
                          exact ⟨d1, ns1, o1, hgl,
                            by simp [ho1], by simp [hiff1]⟩
                        · rw [if_neg hpz]
                          simp only [hgl]
                          have hinvpcs : ∀ pc ∈ n.pchildren, Inv c b pc :=
                            fun pc hpc => Inv_pchild hinv hpc
                          have hma : minO (l1 ++ r) = min (minO l1) (minO r) :=
                            minO_append l1 r
                          by_cases hbet : d1 ≠ none ∧ o1 < maxInt32
                          · rw [if_pos hbet]
                            obtain ⟨d2, ns2, o2, hlp, ho2, hiff2⟩ :=
                              ih3 c b n.pchildren (p0 :: prest) r d1 ns1 o1
                                hinvpcs hc hpcs
                                (fun hn => absurd hn hbet.1)
                                (fun _ => hbet.2)
                            refine ⟨d2, ns2, o2, hlp, ?_, ?_⟩
                            · rw [ho2, hma, ← ho1]
                            · rw [hiff2]
                              constructor
                              · rintro ⟨he, -⟩
                                exact absurd he hbet.1
                              · intro he
                                exact absurd (List.append_eq_nil.mp he).1
                                  (fun h0 => hbet.1 (hiff1.mpr h0))
                          · rw [if_neg hbet]
                            obtain ⟨d2, ns2, o2, hlp, ho2, hiff2⟩ :=
                              ih3 c b n.pchildren (p0 :: prest) r none []
                                maxInt32 hinvpcs hc hpcs (fun _ => rfl)
                                (fun hn => absurd rfl hn)
                            have hl10 : l1 = [] := by
                              by_cases hd1 : d1 = none
                              · exact hiff1.mp hd1
                              · exfalso
                                have ho1c : o1 ≤ c := by
                                  rw [ho1]
                                  refine minO_le_of_forall ?_ ?_
                                  · intro he
                                    exact hd1 (hiff1.mpr he)
                                  · intro x hx
                                    exact (matchGe hinvlit hml x hx).2
                                exact hbet ⟨hd1, by omega⟩
                            subst hl10
                            refine ⟨d2, ns2, o2, hlp, ?_, ?_⟩
                            · rw [ho2]
                              simp only [List.nil_append]
                              have := minO_le_max r
                              omega
                            · rw [hiff2]
                              simp
            | none =>
                simp only [hlit] at hm ⊢
                cases hpcs : Node.matchPCs fuel n.pchildren (p0 :: prest) with
                | none => simp only [hpcs] at hm; exact absurd hm (by simp)
                | some r =>
                    simp only [hpcs] at hm
                    simp only [Option.some.injEq] at hm
                    subst hm
                    obtain ⟨d2, ns2, o2, hlp, ho2, hiff2⟩ :=
                      ih3 c b n.pchildren (p0 :: prest) r none [] maxInt32
                        (fun pc hpc => Inv_pchild hinv hpc) hc hpcs
                        (fun _ => rfl) (fun hn => absurd rfl hn)
                    refine ⟨d2, ns2, o2, hlp, ?_, ?_⟩
                    · rw [ho2]
                      simp only [List.nil_append]
                      have := minO_le_max r
                      omega
                    · rw [hiff2]
                      simp
        | [] =>
            simp only [Node.matchAfter] at hm
            simp only [Node.descendM]
            cases hh : n.handlers with
            | some hs =>
                simp only [hh] at hm ⊢
                cases hpcs : Node.matchPCs fuel n.pchildren [] with
                | none => simp only [hpcs] at hm; exact absurd hm (by simp)
                | some r =>
                    simp only [hpcs] at hm
                    simp only [Option.some.injEq] at hm
                    subst hm
                    have hoc : n.order ≤ c := (hinv n (Sub.refl n)).2.1 hs hh
                    obtain ⟨d2, ns2, o2, hlp, ho2, hiff2⟩ :=
                      ih3 c b n.pchildren [] r (some hs) n.pnames n.order
                        (fun pc hpc => Inv_pchild hinv hpc) hc hpcs
                        (fun hn => by cases hn) (fun _ => by omega)
                    refine ⟨d2, ns2, o2, hlp, ?_, ?_⟩
                    · rw [ho2]
                      simp only [List.singleton_append, minO_cons]
                    · rw [hiff2]
                      simp
            | none =>
                simp only [hh] at hm ⊢
                cases hpcs : Node.matchPCs fuel n.pchildren [] with
                | none => simp only [hpcs] at hm; exact absurd hm (by simp)
                | some r =>
                    simp only [hpcs] at hm
                    simp only [Option.some.injEq] at hm
                    subst hm
                    obtain ⟨d2, ns2, o2, hlp, ho2, hiff2⟩ :=
                      ih3 c b n.pchildren [] r none [] maxInt32
                        (fun pc hpc => Inv_pchild hinv hpc) hc hpcs
                        (fun _ => rfl) (fun hn => absurd rfl hn)
                    refine ⟨d2, ns2, o2, hlp, ?_, ?_⟩
                    · rw [ho2]
                      simp only [List.nil_append]
                      have := minO_le_max r
                      omega
                    · rw [hiff2]
                      simp
      · intro c b pcs path ms bd bn bo hinvs hc hm hb1 hb2
        match pcs with
        | [] =>
            simp only [Node.matchPCs] at hm
            simp only [Option.some.injEq] at hm
            subst hm
            simp only [Node.pcLoopM]
            refine ⟨bd, bn, bo, rfl, ?_, ?_⟩
            · have hboMax : bo ≤ maxInt32 := by
                by_cases hbd : bd = none
                · exact le_of_eq (hb1 hbd)
                · exact le_of_lt (hb2 hbd)
              rw [minO_nil]
              omega
            · simp
        | pc :: rest =>
            simp only [Node.matchPCs] at hm
            simp only [Node.pcLoopM]
            cases hml : Node.matchList fuel pc path with
            | none => simp only [hml] at hm; exact absurd hm (by simp)
            | some l1 =>
                simp only [hml] at hm
                cases hr : Node.matchPCs fuel rest path with
                | none => simp only [hr] at hm; exact absurd hm (by simp)
                | some r =>
                    simp only [hr] at hm
                    simp only [Option.some.injEq] at hm
                    subst hm
                    have hinvpc : Inv c b pc := hinvs pc (by simp)
                    have hinvrest : ∀ q ∈ rest, Inv c b q :=
                      fun q hq => hinvs q (List.mem_cons_of_mem _ hq)
                    have hboMax : bo ≤ maxInt32 := by
                      by_cases hbd : bd = none
                      · exact le_of_eq (hb1 hbd)
                      · exact le_of_lt (hb2 hbd)
                    have hma : minO (l1 ++ r) = min (minO l1) (minO r) :=
                      minO_append l1 r
                    by_cases hprune : bo ≤ pc.minOrder
                    · rw [if_pos hprune]
                      have hminc : pc.minOrder ≤ c :=
                        (hinvpc pc (Sub.refl pc)).1
                      have hbdne : bd ≠ none := by
                        intro hbd
                        have hE := hb1 hbd
                        omega
                      have hbl1 : bo ≤ minO l1 :=
                        le_minO hboMax (fun x hx =>
                          le_trans hprune (matchGe hinvpc hml x hx).1)
                      obtain ⟨d2, ns2, o2, hlp, ho2, hiff2⟩ :=
                        ih3 c b rest path r bd bn bo hinvrest hc hr hb1 hb2
                      refine ⟨d2, ns2, o2, hlp, ?_, ?_⟩
                      · rw [ho2, hma]
                        omega
                      · rw [hiff2]
                        constructor
                        · rintro ⟨he, -⟩
                          exact absurd he hbdne
                        · rintro ⟨he, -⟩
                          exact absurd he hbdne
                    · rw [if_neg hprune]
                      obtain ⟨d1, ns1, o1, hg1, ho1, hiff1⟩ :=
                        ih1 c b pc path l1 hinvpc hc hml
                      simp only [hg1]
                      by_cases hbet : d1 ≠ none ∧ o1 < bo
                      · rw [if_pos hbet]
                        have hl1ne : l1 ≠ [] := fun he => hbet.1 (hiff1.mpr he)
                        have ho1c : o1 ≤ c := by
                          rw [ho1]
                          exact minO_le_of_forall hl1ne
                            (fun x hx => (matchGe hinvpc hml x hx).2)
                        obtain ⟨d2, ns2, o2, hlp, ho2, hiff2⟩ :=
                          ih3 c b rest path r d1 ns1 o1 hinvrest hc hr
                            (fun hn => absurd hn hbet.1) (fun _ => by omega)
                        refine ⟨d2, ns2, o2, hlp, ?_, ?_⟩
                        · rw [ho2, hma, ← ho1]
                          have hb2m := hbet.2
                          omega
                        · rw [hiff2]
                          constructor
                          · rintro ⟨he, -⟩
                            exact absurd he hbet.1
                          · rintro ⟨hbd, happ⟩
                            exact absurd (List.append_eq_nil.mp happ).1 hl1ne
                      · rw [if_neg hbet]
                        obtain ⟨d2, ns2, o2, hlp, ho2, hiff2⟩ :=
                          ih3 c b rest path r bd bn bo hinvrest hc hr hb1 hb2
                        have hkey : min bo (minO r) =
                            min bo (minO (l1 ++ r)) := by
                          rw [hma]
                          by_cases hd1 : d1 = none
                          · have hl1 : l1 = [] := hiff1.mp hd1
                            subst hl1
                            rw [minO_nil]
                            have := minO_le_max r
                            omega
                          · have hob : bo ≤ o1 := by
                              rcases Nat.lt_or_ge o1 bo with hlt | hge
                              · exact absurd ⟨hd1, hlt⟩ hbet
                              · omega
                            rw [← ho1]
                            omega
                        refine ⟨d2, ns2, o2, hlp, ?_, ?_⟩
                        · rw [ho2]
                          exact hkey
                        · rw [hiff2]
                          by_cases hd1 : d1 = none
                          · have hl1 : l1 = [] := hiff1.mp hd1
                            subst hl1
                            simp
                          · have hl1ne : l1 ≠ [] :=
                              fun he => hd1 (hiff1.mpr he)
                            have ho1c : o1 ≤ c := by
                              rw [ho1]
                              exact minO_le_of_forall hl1ne
                                (fun x hx => (matchGe hinvpc hml x hx).2)
                            constructor
                            · rintro ⟨hbd, -⟩
                              have hbo2 := hb1 hbd
                              have hob : bo ≤ o1 := by
                                rcases Nat.lt_or_ge o1 bo with hlt | hge
                                · exact absurd ⟨hd1, hlt⟩ hbet
                                · omega
                              omega
                            · rintro ⟨hbd, happ⟩
                              exact absurd (List.append_eq_nil.mp happ).1 hl1ne

/-- The `minOrder` pruning of the parametric-children loop never changes the
result: under the tree invariant, the engine with pruning removed computes
exactly the same value. -/
lemma npM :
    ∀ fuel : Nat,
      (∀ (c : Nat) (b : Int) n path ms, Inv c b n → c < maxInt32 →
        Node.matchList fuel n path = some ms →
        Node.getMNP fuel n path = Node.getM fuel n path) ∧
      (∀ (c : Nat) (b : Int) n path ms, Inv c b n → c < maxInt32 →
        Node.matchAfter fuel n path = some ms →
        Node.descendMNP fuel n path = Node.descendM fuel n path) ∧
      (∀ (c : Nat) (b : Int) pcs path ms bd bn bo,
        (∀ pc ∈ pcs, Inv c b pc) → c < maxInt32 →
        Node.matchPCs fuel pcs path = some ms →
        (bd = none → bo = maxInt32) → (bd ≠ none → bo < maxInt32) →
        Node.pcLoopMNP fuel pcs path bd bn bo =
          Node.pcLoopM fuel pcs path bd bn bo) := by
  intro fuel
  induction fuel with
  | zero =>
      refine ⟨?_, ?_, ?_⟩
      · intro c b n path ms _ _ _; rfl
      · intro c b n path ms _ _ _; rfl
      · intro c b pcs path ms bd bn bo _ _ _ _ _; rfl
  | succ fuel ih =>
      obtain ⟨ih1, ih2, ih3⟩ := ih
      refine ⟨?_, ?_, ?_⟩
      · intro c b n path ms hinv hc hm
        simp only [Node.matchList] at hm
        simp only [Node.getMNP, Node.getM]
        by_cases hst : n.static = true
        · rw [if_pos hst] at hm; rw [if_pos hst, if_pos hst]
          by_cases hpre : n.key.isPrefixOf path = true
          · rw [if_pos hpre] at hm; rw [if_pos hpre, if_pos hpre]
            exact ih2 c b n _ ms hinv hc hm
          · rw [if_neg hpre] at hm; rw [if_neg hpre, if_neg hpre]
        · rw [if_neg hst] at hm; rw [if_neg hst, if_neg hst]
          cases hre : n.regex with
          | some re =>
              simp only [hre] at hm ⊢
              by_cases hopt : path.length = 0 ∧ n.optional = true
              · rw [if_pos hopt] at hm; rw [if_pos hopt, if_pos hopt]
                exact ih2 c b n path ms hinv hc hm
              · rw [if_neg hopt] at hm; rw [if_neg hopt, if_neg hopt]
                cases hrp : re path with
                | some e =>
                    simp only [hrp] at hm ⊢
                    exact ih2 c b n _ ms hinv hc hm
                | none => simp only [hrp]
          | none =>
              simp only [hre] at hm ⊢
              by_cases hwc : n.wildcard = true
              · rw [if_pos hwc] at hm; rw [if_pos hwc, if_pos hwc]
                exact ih2 c b n [] ms hinv hc hm
              · rw [if_neg hwc] at hm; rw [if_neg hwc, if_neg hwc]
                by_cases hnil : path = []
                · rw [if_pos hnil] at hm; rw [if_pos hnil, if_pos hnil]
                  by_cases hop2 : n.optional = true
                  · rw [if_pos hop2] at hm; rw [if_pos hop2, if_pos hop2]
                    exact ih2 c b n [] ms hinv hc hm
                  · rw [if_neg hop2] at hm; rw [if_neg hop2, if_neg hop2]
                · rw [if_neg hnil] at hm; rw [if_neg hnil, if_neg hnil]
                  exact ih2 c b n _ ms hinv hc hm
      · intro c b n path ms hinv hc hm
        match path with
        | p0 :: prest =>
            simp only [Node.matchAfter] at hm
            simp only [Node.descendMNP, Node.descendM]
            cases hlit : getChild n.children p0 with
            | some lit =>
                simp only [hlit] at hm ⊢
                cases hml : Node.matchList fuel lit (p0 :: prest) with
                | none => simp only [hml] at hm; exact absurd hm (by simp)
                | some l1 =>
                    simp only [hml] at hm
                    cases hpcs :
                        Node.matchPCs fuel n.pchildren (p0 :: prest) with
                    | none => simp only [hpcs] at hm; exact absurd hm (by simp)
                    | some r =>
                        have hinvlit : Inv c b lit :=
                          Inv_child hinv (getChild_mem _ _ _ hlit)
                        have hinvpcs : ∀ pc ∈ n.pchildren, Inv c b pc :=
                          fun pc hpc => Inv_pchild hinv hpc
                        rw [ih1 c b lit (p0 :: prest) l1 hinvlit hc hml]
                        by_cases hpz : n.pchildren.length = 0
                        · rw [if_pos hpz, if_pos hpz]
                        · rw [if_neg hpz, if_neg hpz]
                          cases hgl : Node.getM fuel lit (p0 :: prest) with
                          | none => rfl
                          | some t =>
                              obtain ⟨d1, ns1, o1⟩ := t
                              dsimp only
                              by_cases hbet : d1 ≠ none ∧ o1 < maxInt32
                              · rw [if_pos hbet, if_pos hbet]
                                exact ih3 c b n.pchildren (p0 :: prest) r
                                  d1 ns1 o1 hinvpcs hc hpcs
                                  (fun hn => absurd hn hbet.1)
                                  (fun _ => hbet.2)
                              · rw [if_neg hbet, if_neg hbet]
                                exact ih3 c b n.pchildren (p0 :: prest) r
                                  none [] maxInt32 hinvpcs hc hpcs
                                  (fun _ => rfl) (fun hn => absurd rfl hn)
            | none =>
                simp only [hlit] at hm ⊢
                cases hpcs : Node.matchPCs fuel n.pchildren (p0 :: prest) with
                | none => simp only [hpcs] at hm; exact absurd hm (by simp)
                | some r =>
                    exact ih3 c b n.pchildren (p0 :: prest) r none []
                      maxInt32 (fun pc hpc => Inv_pchild hinv hpc) hc hpcs
                      (fun _ => rfl) (fun hn => absurd rfl hn)
        | [] =>
            simp only [Node.matchAfter] at hm
            simp only [Node.descendMNP, Node.descendM]
            cases hh : n.handlers with
            | some hs =>
                simp only [hh] at hm ⊢
                cases hpcs : Node.matchPCs fuel n.pchildren [] with
                | none => simp only [hpcs] at hm; exact absurd hm (by simp)
                | some r =>
                    have hoc : n.order ≤ c := (hinv n (Sub.refl n)).2.1 hs hh
                    exact ih3 c b n.pchildren [] r (some hs) n.pnames
                      n.order (fun pc hpc => Inv_pchild hinv hpc) hc hpcs
                      (fun hn => by cases hn) (fun _ => by omega)
            | none =>
                simp only [hh] at hm ⊢
                cases hpcs : Node.matchPCs fuel n.pchildren [] with
                | none => simp only [hpcs] at hm; exact absurd hm (by simp)
                | some r =>
                    exact ih3 c b n.pchildren [] r none [] maxInt32
                      (fun pc hpc => Inv_pchild hinv hpc) hc hpcs
                      (fun _ => rfl) (fun hn => absurd rfl hn)
      · intro c b pcs path ms bd bn bo hinvs hc hm hb1 hb2
        match pcs with
        | [] => rfl
        | pc :: rest =>
            simp only [Node.matchPCs] at hm
            simp only [Node.pcLoopMNP, Node.pcLoopM]
            cases hml : Node.matchList fuel pc path with
            | none => simp only [hml] at hm; exact absurd hm (by simp)
            | some l1 =>
                simp only [hml] at hm
                cases hr : Node.matchPCs fuel rest path with
                | none => simp only [hr] at hm; exact absurd hm (by simp)
                | some r =>
                    have hinvpc : Inv c b pc := hinvs pc (by simp)
                    have hinvrest : ∀ q ∈ rest, Inv c b q :=
                      fun q hq => hinvs q (List.mem_cons_of_mem _ hq)
                    have hboMax : bo ≤ maxInt32 := by
                      by_cases hbd : bd = none
                      · exact le_of_eq (hb1 hbd)
                      · exact le_of_lt (hb2 hbd)
                    obtain ⟨d1, ns1, o1, hg1, ho1, hiff1⟩ :=
                      (minM fuel).1 c b pc path l1 hinvpc hc hml
                    rw [ih1 c b pc path l1 hinvpc hc hml]
                    simp only [hg1]
                    by_cases hprune : bo ≤ pc.minOrder
                    · rw [if_pos hprune]
                      have hbl1 : bo ≤ minO l1 :=
                        le_minO hboMax (fun x hx =>
                          le_trans hprune (matchGe hinvpc hml x hx).1)
                      have hnbet : ¬ (d1 ≠ none ∧ o1 < bo) := by
                        rintro ⟨-, hlt⟩
                        omega
                      rw [if_neg hnbet]
                      exact ih3 c b rest path r bd bn bo hinvrest hc hr
                        hb1 hb2
                    · rw [if_neg hprune]
                      by_cases hbet : d1 ≠ none ∧ o1 < bo
                      · rw [if_pos hbet, if_pos hbet]
                        have hl1ne : l1 ≠ [] := fun he => hbet.1 (hiff1.mpr he)
                        have ho1c : o1 ≤ c := by
                          rw [ho1]
                          exact minO_le_of_forall hl1ne
                            (fun x hx => (matchGe hinvpc hml x hx).2)
                        exact ih3 c b rest path r d1 ns1 o1 hinvrest hc hr
                          (fun hn => absurd hn hbet.1) (fun _ => by omega)
                      · rw [if_neg hbet, if_neg hbet]
                        exact ih3 c b rest path r bd bn bo hinvrest hc hr
                          hb1 hb2

/-- `node.get` never reads the value buffer: the `(bestData, bestNames,
bestOrder)` triple computed by the buffered engine is the one computed by
its buffer-less mirror. -/
lemma bufM :
    ∀ fuel : Nat,
      (∀ n path pv d ns o pv2,
        Node.getF fuel n path pv = .ok (d, ns, o, pv2) →
        Node.getM fuel n path = some (d, ns, o)) ∧
      (∀ n path pv d ns o pv2,
        Node.descendF fuel n path pv = .ok (d, ns, o, pv2) →
        Node.descendM fuel n path = some (d, ns, o)) ∧
      (∀ pcs path bd bn bo pv tmp d ns o pv2,
        Node.pcLoopF fuel pcs path bd bn bo pv tmp = .ok (d, ns, o, pv2) →
        Node.pcLoopM fuel pcs path bd bn bo = some (d, ns, o)) := by
  intro fuel
  induction fuel with
  | zero =>
      refine ⟨?_, ?_, ?_⟩
      · intro n path pv d ns o pv2 h; simp [Node.getF] at h
      · intro n path pv d ns o pv2 h; simp [Node.descendF] at h
      · intro pcs path bd bn bo pv tmp d ns o pv2 h
        simp [Node.pcLoopF] at h
  | succ fuel ih =>
      obtain ⟨ih1, ih2, ih3⟩ := ih
      refine ⟨?_, ?_, ?_⟩
      · intro n path pv d ns o pv2 h
        simp only [Node.getF] at h
        simp only [Node.getM]
        by_cases hst : n.static = true
        · rw [if_pos hst] at h ⊢
          by_cases hpre : n.key.isPrefixOf path = true
          · rw [if_pos hpre] at h ⊢
            exact ih2 n _ pv d ns o pv2 h
          · rw [if_neg hpre] at h ⊢
            simp only [Res.ok.injEq, Prod.mk.injEq] at h
            simp [h.1, h.2.1, h.2.2.1]
        · rw [if_neg hst] at h ⊢
          cases hre : n.regex with
          | some re =>
              simp only [hre] at h ⊢
              by_cases hopt : path.length = 0 ∧ n.optional = true
              · rw [if_pos hopt] at h ⊢
                cases hsv : setv pv n.pindex [] with
                | none => simp only [hsv] at h; exact absurd h (by simp)
                | some pv3 =>
                    simp only [hsv] at h
                    exact ih2 n path pv3 d ns o pv2 h
              · rw [if_neg hopt] at h ⊢
                cases hrp : re path with
                | some e =>
                    simp only [hrp] at h ⊢
                    cases hsv : setv pv n.pindex (path.take e) with
                    | none => simp only [hsv] at h; exact absurd h (by simp)
                    | some pv3 =>
                        simp only [hsv] at h
                        exact ih2 n _ pv3 d ns o pv2 h
                | none =>
                    simp only [hrp] at h ⊢
                    simp only [Res.ok.injEq, Prod.mk.injEq] at h
                    simp [h.1, h.2.1, h.2.2.1]
          | none =>
              simp only [hre] at h ⊢
              by_cases hwc : n.wildcard = true
              · rw [if_pos hwc] at h ⊢
                cases hsv : setv pv n.pindex path with
                | none => simp only [hsv] at h; exact absurd h (by simp)
                | some pv3 =>
                    simp only [hsv] at h
                    exact ih2 n [] pv3 d ns o pv2 h
              · rw [if_neg hwc] at h ⊢
                by_cases hnil : path = []
                · rw [if_pos hnil] at h ⊢
                  by_cases hop2 : n.optional = true
                  · rw [if_pos hop2] at h ⊢
                    cases hsv : setv pv n.pindex [] with
                    | none => simp only [hsv] at h; exact absurd h (by simp)
                    | some pv3 =>
                        simp only [hsv] at h
                        exact ih2 n [] pv3 d ns o pv2 h
                  · rw [if_neg hop2] at h ⊢
                    simp only [Res.ok.injEq, Prod.mk.injEq] at h
                    simp [h.1, h.2.1, h.2.2.1]
                · rw [if_neg hnil] at h ⊢
                  cases hsv :
                      setv pv n.pindex (path.take (seekIdx n.children path 0))
                      with
                  | none => simp only [hsv] at h; exact absurd h (by simp)
                  | some pv3 =>
                      simp only [hsv] at h
                      exact ih2 n _ pv3 d ns o pv2 h
      · intro n path pv d ns o pv2 h
        match path with
        | p0 :: prest =>
            simp only [Node.descendF] at h
            simp only [Node.descendM]
            cases hlit : getChild n.children p0 with
            | some lit =>
                simp only [hlit] at h ⊢
                by_cases hpz : n.pchildren.length = 0
                · rw [if_pos hpz] at h ⊢
                  exact ih1 lit _ pv d ns o pv2 h
                · rw [if_neg hpz] at h ⊢
                  cases hgf : Node.getF fuel lit (p0 :: prest) pv with
                  | fuelout => simp only [hgf] at h; exact absurd h (by simp)
                  | panic => simp only [hgf] at h; exact absurd h (by simp)
                  | ok t =>
                      obtain ⟨d1, ns1, o1, pv3⟩ := t
                      simp only [hgf] at h
                      rw [ih1 lit _ pv d1 ns1 o1 pv3 hgf]
                      dsimp only
                      by_cases hbet : d1 ≠ none ∧ o1 < maxInt32
                      · rw [if_pos hbet] at h ⊢
                        exact ih3 n.pchildren _ d1 ns1 o1 pv3 none
                          d ns o pv2 h
                      · rw [if_neg hbet] at h ⊢
                        exact ih3 n.pchildren _ none [] maxInt32 pv3 none
                          d ns o pv2 h
            | none =>
                simp only [hlit] at h ⊢
                exact ih3 n.pchildren _ none [] maxInt32 pv none d ns o pv2 h
        | [] =>
            simp only [Node.descendF] at h
            simp only [Node.descendM]
            cases hh : n.handlers with
            | some hs =>
                simp only [hh] at h ⊢
                exact ih3 n.pchildren [] (some hs) n.pnames n.order pv none
                  d ns o pv2 h
            | none =>
                simp only [hh] at h ⊢
                exact ih3 n.pchildren [] none [] maxInt32 pv none d ns o pv2 h
      · intro pcs path bd bn bo pv tmp d ns o pv2 h
        match pcs with
        | [] =>
            simp only [Node.pcLoopF] at h
            simp only [Node.pcLoopM]
            simp only [Res.ok.injEq, Prod.mk.injEq] at h
            simp [h.1, h.2.1, h.2.2.1]
        | pc :: rest =>
            simp only [Node.pcLoopF] at h
            simp only [Node.pcLoopM]
            by_cases hprune : bo ≤ pc.minOrder
            · rw [if_pos hprune] at h ⊢
              exact ih3 rest path bd bn bo pv tmp d ns o pv2 h
            · rw [if_neg hprune] at h ⊢
              match htmp : tmp, hbd : bd with
              | some t, xbd =>
                  cases hgf : Node.getF fuel pc path t with
                  | fuelout => simp only [hgf] at h; exact absurd h (by simp)
                  | panic => simp only [hgf] at h; exact absurd h (by simp)
                  | ok u =>
                      obtain ⟨d1, ns1, o1, t2⟩ := u
                      simp only [hgf] at h
                      rw [ih1 pc path t d1 ns1 o1 t2 hgf]
                      dsimp only
                      by_cases hbet : d1 ≠ none ∧ o1 < bo
                      · rw [if_pos hbet] at h ⊢
                        cases hcf : copyFrom pv t2 pc.pindex with
                        | none => simp only [hcf] at h; exact absurd h (by simp)
                        | some pv3 =>
                            simp only [hcf] at h
                            exact ih3 rest path d1 ns1 o1 pv3 (some t2)
                              d ns o pv2 h
                      · rw [if_neg hbet] at h ⊢
                        exact ih3 rest path xbd bn bo pv (some t2) d ns o pv2 h
              | none, some hd =>
                  cases hgf :
                      Node.getF fuel pc path (List.replicate pv.length []) with
                  | fuelout => simp only [hgf] at h; exact absurd h (by simp)
                  | panic => simp only [hgf] at h; exact absurd h (by simp)
                  | ok u =>
                      obtain ⟨d1, ns1, o1, t2⟩ := u
                      simp only [hgf] at h
                      rw [ih1 pc path _ d1 ns1 o1 t2 hgf]
                      dsimp only
                      by_cases hbet : d1 ≠ none ∧ o1 < bo
                      · rw [if_pos hbet] at h ⊢
                        cases hcf : copyFrom pv t2 pc.pindex with
                        | none => simp only [hcf] at h; exact absurd h (by simp)
                        | some pv3 =>
                            simp only [hcf] at h
                            exact ih3 rest path d1 ns1 o1 pv3 (some t2)
                              d ns o pv2 h
                      · rw [if_neg hbet] at h ⊢
                        exact ih3 rest path (some hd) bn bo pv (some t2)
                          d ns o pv2 h
              | none, none =>
                  cases hgf : Node.getF fuel pc path pv with
                  | fuelout => simp only [hgf] at h; exact absurd h (by simp)
                  | panic => simp only [hgf] at h; exact absurd h (by simp)
                  | ok u =>
                      obtain ⟨d1, ns1, o1, pv3⟩ := u
                      simp only [hgf] at h
                      rw [ih1 pc path pv d1 ns1 o1 pv3 hgf]
                      dsimp only
                      by_cases hbet : d1 ≠ none ∧ o1 < bo
                      · rw [if_pos hbet] at h ⊢
                        exact ih3 rest path d1 ns1 o1 pv3 none d ns o pv2 h
                      · rw [if_neg hbet] at h ⊢
                        exact ih3 rest path none bn bo pv3 none d ns o pv2 h

/-- A node with no children at all has only itself in its subtree. -/
lemma sub_leaf {st op wc : Bool} {k : Str} {rx : Option Regex}
    {h : Option Handlers} {od mo : Nat} {pi : Int} {pn : List Str} {m : Node}
    (hm : Sub (.mk st op wc k rx h od mo [] [] pi pn) m) :
    m = .mk st op wc k rx h od mo [] [] pi pn := by
  rcases sub_cases hm with rfl | ⟨x, c, hc2, _⟩ | ⟨c, hc2, _⟩
  · rfl
  · simp at hc2
  · simp at hc2

/-- The subtree invariant for a fresh childless node. -/
lemma Inv_leaf {c : Nat} {b : Int} {st op wc : Bool} {k : Str}
    {rx : Option Regex} {h : Option Handlers} {od mo : Nat} {pi : Int}
    {pn : List Str}
    (h1 : mo ≤ c) (h2 : ∀ hs, h = some hs → od ≤ c)
    (h3 : ∀ hs, h = some hs → mo ≤ od)
    (h5 : pi = (pn.length : Int) - 1)
    (h6 : st = false → 0 ≤ pi ∧ pi < b) :
    Inv c b (.mk st op wc k rx h od mo [] [] pi pn) := by
  intro m hm
  rw [sub_leaf hm]
  refine ⟨by simpa using h1, by simpa using h2, by simpa using h3, ?_,
    by simpa using h5, by simpa using h6, by simp⟩
  intro x hx
  rw [sub_leaf hx]

/-- `setRoute` preserves the subtree invariant when the new order is the
current registration counter. -/
lemma Inv_setRoute {ord : Nat} {b : Int} {n : Node} {hs : Handlers}
    (hinv : Inv ord b n) : Inv ord b (n.setRoute hs ord) := by
  obtain ⟨i1, i2, i3, i4, i5, i6, i7⟩ := hinv n (Sub.refl n)
  refine Inv_node ?_ ?_ ?_
  · refine ⟨by simpa using i1, by simp, by simpa using i1, ?_,
      by simpa using i5, by simpa using i6, by simpa using i7⟩
    intro x hx
    rcases sub_cases hx with rfl | ⟨y, c, hc2, hsub⟩ | ⟨pc, hc2, hsub⟩
    · exact le_refl _
    · simp only [Node.setRoute_children] at hc2
      simpa using i4 x (Sub.child hc2 hsub)
    · simp only [Node.setRoute_pchildren] at hc2
      simpa using i4 x (Sub.pchild hc2 hsub)
  · intro x ch hc2
    simp only [Node.setRoute_children] at hc2
    exact Inv_child hinv hc2
  · intro pc hc2
    simp only [Node.setRoute_pchildren] at hc2
    exact Inv_pchild hinv hc2

/-- Replacing one static-child entry by an invariant subtree whose minimum
order dominates the node's preserves the subtree invariant. -/
lemma Inv_setChild {ord : Nat} {b : Int} {n v : Node} {c0 : Nat}
    (hinv : Inv ord b n) (hv : Inv ord b v)
    (hmo : n.minOrder ≤ v.minOrder) :
    Inv ord b (n.setChildren (setChild n.children c0 v)) := by
  obtain ⟨i1, i2, i3, i4, i5, i6, i7⟩ := hinv n (Sub.refl n)
  refine Inv_node ?_ ?_ ?_
  · refine ⟨by simpa using i1, by simpa using i2, by simpa using i3, ?_,
      by simpa using i5, by simpa using i6, by simpa using i7⟩
    intro x hx
    rcases sub_cases hx with rfl | ⟨y, c, hc2, hsub⟩ | ⟨pc, hc2, hsub⟩
    · exact le_refl _
    · simp only [Node.setChildren_children] at hc2
      rcases setChild_mem _ _ _ _ _ hc2 with ⟨-, rfl⟩ | hold
      · simp only [Node.setChildren_minOrder]
        exact le_trans hmo ((hv _ (Sub.refl _)).2.2.2.1 x hsub)
      · simpa using i4 x (Sub.child hold hsub)
    · simp only [Node.setChildren_pchildren] at hc2
      simpa using i4 x (Sub.pchild hc2 hsub)
  · intro x ch hc2
    simp only [Node.setChildren_children] at hc2
    rcases setChild_mem _ _ _ _ _ hc2 with ⟨-, rfl⟩ | hold
    · exact hv
    · exact Inv_child hinv hold
  · intro pc hc2
    simp only [Node.setChildren_pchildren] at hc2
    exact Inv_pchild hinv hc2

/-- Appending an invariant non-static parametric child whose minimum order
dominates the node's preserves the subtree invariant. -/
lemma Inv_appendPC {ord : Nat} {b : Int} {n v : Node}
    (hinv : Inv ord b n) (hv : Inv ord b v) (hst : v.static = false)
    (hmo : n.minOrder ≤ v.minOrder) :
    Inv ord b (n.setPChildren (n.pchildren ++ [v])) := by
  obtain ⟨i1, i2, i3, i4, i5, i6, i7⟩ := hinv n (Sub.refl n)
  refine Inv_node ?_ ?_ ?_
  · refine ⟨by simpa using i1, by simpa using i2, by simpa using i3, ?_,
      by simpa using i5, by simpa using i6, ?_⟩
    · intro x hx
      rcases sub_cases hx with rfl | ⟨y, c, hc2, hsub⟩ | ⟨pc, hc2, hsub⟩
      · exact le_refl _
      · simp only [Node.setPChildren_children] at hc2
        simpa using i4 x (Sub.child hc2 hsub)
      · simp only [Node.setPChildren_pchildren] at hc2
        rcases List.mem_append.mp hc2 with hold | hnew
        · simpa using i4 x (Sub.pchild hold hsub)
        · simp only [List.mem_singleton] at hnew
          subst hnew
          simp only [Node.setPChildren_minOrder]
          exact le_trans hmo ((hv pc (Sub.refl pc)).2.2.2.1 x hsub)
    · intro pc hc2
      simp only [Node.setPChildren_pchildren] at hc2
      rcases List.mem_append.mp hc2 with hold | hnew
      · exact i7 pc hold
      · simp only [List.mem_singleton] at hnew
        subst hnew
        exact hst
  · intro x ch hc2
    simp only [Node.setPChildren_children] at hc2
    exact Inv_child hinv hc2
  · intro pc hc2
    simp only [Node.setPChildren_pchildren] at hc2
    rcases List.mem_append.mp hc2 with hold | hnew
    · exact Inv_pchild hinv hold
    · simp only [List.mem_singleton] at hnew
      subst hnew
      exact hv

/-- Replacing the parametric-children list by a pointwise-invariant list
whose subtree minimum orders are floored by the old entries preserves the
subtree invariant. -/
lemma Inv_setPCs {ord : Nat} {b : Int} {n : Node} {pcs2 : List Node}
    (hinv : Inv ord b n)
    (hall : ∀ pc2 ∈ pcs2, Inv ord b pc2 ∧ pc2.static = false)
    (hfloor : ∀ pc2 ∈ pcs2, ∀ x, Sub pc2 x →
      ∃ pc ∈ n.pchildren, pc.minOrder ≤ x.minOrder) :
    Inv ord b (n.setPChildren pcs2) := by
  obtain ⟨i1, i2, i3, i4, i5, i6, i7⟩ := hinv n (Sub.refl n)
  refine Inv_node ?_ ?_ ?_
  · refine ⟨by simpa using i1, by simpa using i2, by simpa using i3, ?_,
      by simpa using i5, by simpa using i6, ?_⟩
    · intro x hx
      rcases sub_cases hx with rfl | ⟨y, c, hc2, hsub⟩ | ⟨pc, hc2, hsub⟩
      · exact le_refl _
      · simp only [Node.setPChildren_children] at hc2
        simpa using i4 x (Sub.child hc2 hsub)
      · simp only [Node.setPChildren_pchildren] at hc2
        obtain ⟨pco, hpco, hle⟩ := hfloor pc hc2 x hsub
        simp only [Node.setPChildren_minOrder]
        exact le_trans (i4 pco (Sub.pchild hpco (Sub.refl pco))) hle
    · intro pc hc2
      simp only [Node.setPChildren_pchildren] at hc2
      exact (hall pc hc2).2
  · intro x ch hc2
    simp only [Node.setPChildren_children] at hc2
    exact Inv_child hinv hc2
  · intro pc hc2
    simp only [Node.setPChildren_pchildren] at hc2
    exact (hall pc hc2).1

/-- The node split of `node.add` preserves the subtree invariant: the
truncated node keeps its metadata and acquires the suffix node (which
inherits the whole old subtree) as its only child. -/
lemma Inv_split {ord : Nat} {b : Int} {n : Node} {k1 : Str} {r0 : Nat}
    {rk : Str} {hsOpt : Option Handlers} {odv : Nat}
    (hinv : Inv ord b n) (hcase : hsOpt = none ∨ odv = ord) :
    Inv ord b (.mk n.static n.optional n.wildcard k1 n.regex hsOpt odv
      n.minOrder
      [(r0, .mk true n.optional n.wildcard (r0 :: rk) n.regex n.handlers
          n.order n.minOrder n.children n.pchildren n.pindex n.pnames)]
      [] n.pindex n.pnames) := by
  obtain ⟨i1, i2, i3, i4, i5, i6, i7⟩ := hinv n (Sub.refl n)
  have hn1 : Inv ord b (.mk true n.optional n.wildcard (r0 :: rk) n.regex
      n.handlers n.order n.minOrder n.children n.pchildren n.pindex
      n.pnames) := by
    refine Inv_node ?_ ?_ ?_
    · refine ⟨by simpa using i1, by simpa using i2, by simpa using i3, ?_,
        by simpa using i5, by simp, by simpa using i7⟩
      intro x hx
      rcases sub_cases hx with rfl | ⟨y, c, hc2, hsub⟩ | ⟨pc, hc2, hsub⟩
      · exact le_refl _
      · simp only [Node.mk_children] at hc2
        simpa using i4 x (Sub.child hc2 hsub)
      · simp only [Node.mk_pchildren] at hc2
        simpa using i4 x (Sub.pchild hc2 hsub)
    · intro x ch hc2
      simp only [Node.mk_children] at hc2
      exact Inv_child hinv hc2
    · intro pc hc2
      simp only [Node.mk_pchildren] at hc2
      exact Inv_pchild hinv hc2
  refine Inv_node ?_ ?_ ?_
  · refine ⟨by simpa using i1, ?_, ?_, ?_, by simpa using i5,
      by simpa using i6, by simp⟩
    · intro hs2 hh
      simp only [Node.mk_handlers] at hh
      simp only [Node.mk_order]
      rcases hcase with rfl | rfl
      · cases hh
      · exact le_refl _
    · intro hs2 hh
      simp only [Node.mk_handlers] at hh
      simp only [Node.mk_order, Node.mk_minOrder]
      rcases hcase with rfl | rfl
      · cases hh
      · exact i1
    · intro x hx
      rcases sub_cases hx with rfl | ⟨y, c, hc2, hsub⟩ | ⟨pc, hc2, hsub⟩
      · exact le_refl _
      · simp only [Node.mk_children, List.mem_singleton] at hc2
        obtain ⟨rfl, rfl⟩ := Prod.mk.injEq .. ▸ hc2
        simp only [Node.mk_minOrder]
        have := (hn1 x hsub).2.2.2.1
        simpa using (hn1 _ (Sub.refl _)).2.2.2.1 x hsub
      · simp only [Node.mk_pchildren] at hc2
        cases hc2
  · intro x ch hc2
    simp only [Node.mk_children, List.mem_singleton] at hc2
    obtain ⟨rfl, rfl⟩ := Prod.mk.injEq .. ▸ hc2
    exact hn1
  · intro pc hc2
    simp only [Node.mk_pchildren] at hc2
    cases hc2

/-- Insertion preserves the subtree invariant: inserting a route with order
`ord` into a tree well-formed at counter `ord` (and parameter bound `b`)
yields a tree well-formed at `ord` and at any parameter bound dominating
both `b` and the returned parameter count. -/
lemma addInv :
    ∀ fuel : Nat,
      (∀ compile n key hs ord (b : Int) n2 pn, -1 ≤ b → Inv ord b n →
        Node.addF fuel compile n key hs ord = .ok (n2, pn) →
        n2.minOrder = n.minOrder ∧ n2.static = n.static ∧
        ∀ b2, b ≤ b2 → pn ≤ b2 → Inv ord b2 n2) ∧
      (∀ compile n childKey hs ord (b : Int) n2 pn, -1 ≤ b → Inv ord b n →
        Node.addRestF fuel compile n childKey hs ord = .ok (n2, pn) →
        n2.minOrder = n.minOrder ∧ n2.static = n.static ∧
        ∀ b2, b ≤ b2 → pn ≤ b2 → Inv ord b2 n2) ∧
      (∀ compile pcs childKey hs ord (b : Int) pcs2 rr, -1 ≤ b →
        (∀ pc ∈ pcs, Inv ord b pc) → (∀ pc ∈ pcs, pc.static = false) →
        Node.addPCsF fuel compile pcs childKey hs ord = .ok (pcs2, rr) →
        ∀ b2, b ≤ b2 → (∀ pn, rr = some pn → pn ≤ b2) →
          (∀ pc2 ∈ pcs2, Inv ord b2 pc2 ∧ pc2.static = false) ∧
          (∀ pc2 ∈ pcs2, ∀ x, Sub pc2 x →
            ∃ pc ∈ pcs, pc.minOrder ≤ x.minOrder)) ∧
      (∀ compile n key hs ord (b : Int) n2 r, -1 ≤ b → Inv ord b n →
        Node.addChildF fuel compile n key hs ord = .ok (n2, r) →
        n2.minOrder = n.minOrder ∧ n2.static = n.static ∧ n.pindex < r ∧
        ∀ b2, b ≤ b2 → r ≤ b2 → Inv ord b2 n2) ∧
      (∀ compile n key hs ord (b : Int) (p1 : Int) n2 r, -1 ≤ b →
        Inv ord b n →
        Node.addParamF fuel compile n key hs ord p1 = .ok (n2, r) →
        n2.minOrder = n.minOrder ∧ n2.static = n.static ∧ n.pindex < r ∧
        ∀ b2, b ≤ b2 → r ≤ b2 → Inv ord b2 n2) := by
  intro fuel
  induction fuel with
  | zero =>
      refine ⟨?_, ?_, ?_, ?_, ?_⟩
      · intro compile n key hs ord b n2 pn _ _ h; simp [Node.addF] at h
      · intro compile n key hs ord b n2 pn _ _ h; simp [Node.addRestF] at h
      · intro compile pcs key hs ord b pcs2 rr _ _ _ h
        simp [Node.addPCsF] at h
      · intro compile n key hs ord b n2 r _ _ h; simp [Node.addChildF] at h
      · intro compile n key hs ord b p1 n2 r _ _ h
        simp [Node.addParamF] at h
  | succ fuel ih =>
      obtain ⟨ih1, ih2, ih3, ih4, ih5⟩ := ih
      refine ⟨?_, ?_, ?_, ?_, ?_⟩
      · intro compile n key hs ord b n2 pn hbneg hinv h
        simp only [Node.addF] at h
        by_cases hEx : commonPrefixLen key n.key = n.key.length ∧
            commonPrefixLen key n.key = key.length
        · rw [if_pos hEx] at h
          by_cases hH : n.handlers = none
          · rw [if_pos hH] at h
            simp only [Res.ok.injEq, Prod.mk.injEq] at h
            obtain ⟨rfl, rfl⟩ := h
            refine ⟨by simp, by simp, ?_⟩
            intro b2 hb2 _
            exact Inv_setRoute (Inv_mono (le_refl _) hb2 hinv)
          · rw [if_neg hH] at h
            simp only [Res.ok.injEq, Prod.mk.injEq] at h
            obtain ⟨rfl, rfl⟩ := h
            exact ⟨rfl, rfl, fun b2 hb2 _ => Inv_mono (le_refl _) hb2 hinv⟩
        · rw [if_neg hEx] at h
          by_cases hM : commonPrefixLen key n.key = n.key.length
          · rw [if_pos hM] at h
            cases hdrop : key.drop (commonPrefixLen key n.key) with
            | nil => simp only [hdrop] at h; exact absurd h (by simp)
            | cons c0 ck =>
                simp only [hdrop] at h
                cases hlit : getChild n.children c0 with
                | some lit =>
                    simp only [hlit] at h
                    cases haf : Node.addF fuel compile lit (c0 :: ck) hs ord
                        with
                    | fuelout => simp only [haf] at h; exact absurd h (by simp)
                    | panic => simp only [haf] at h; exact absurd h (by simp)
                    | ok t =>
                        obtain ⟨lit2, pn1⟩ := t
                        simp only [haf] at h
                        have hlitInv : Inv ord b lit :=
                          Inv_child hinv (getChild_mem _ _ _ hlit)
                        obtain ⟨hmo1, hst1, hIH1⟩ :=
                          ih1 compile lit (c0 :: ck) hs ord b lit2 pn1 hbneg
                            hlitInv haf
                        have hchain : n.minOrder ≤ lit2.minOrder := by
                          rw [hmo1]
                          exact (hinv n (Sub.refl n)).2.2.2.1 lit
                            (Sub.child (getChild_mem _ _ _ hlit)
                              (Sub.refl lit))
                        by_cases hpn : (0 : Int) ≤ pn1
                        · rw [if_pos hpn] at h
                          simp only [Res.ok.injEq, Prod.mk.injEq] at h
                          obtain ⟨rfl, rfl⟩ := h
                          refine ⟨by simp, by simp, ?_⟩
                          intro b2 hb2 hpn2
                          exact Inv_setChild
                            (Inv_mono (le_refl _) hb2 hinv)
                            (hIH1 b2 hb2 hpn2) hchain
                        · rw [if_neg hpn] at h
                          have hn2Inv : Inv ord b
                              (n.setChildren (setChild n.children c0 lit2)) :=
                            Inv_setChild hinv
                              (hIH1 b (le_refl _) (by omega)) hchain
                          obtain ⟨hmo2, hst2, hIH2⟩ :=
                            ih2 compile _ (c0 :: ck) hs ord b n2 pn hbneg
                              hn2Inv h
                          exact ⟨by simpa using hmo2, by simpa using hst2,
                            hIH2⟩
                | none =>
                    simp only [hlit] at h
                    exact ih2 compile n (c0 :: ck) hs ord b n2 pn hbneg hinv h
          · rw [if_neg hM] at h
            by_cases hZ : commonPrefixLen key n.key = 0 ∨ n.static = false
            · rw [if_pos hZ] at h
              simp only [Res.ok.injEq, Prod.mk.injEq] at h
              obtain ⟨rfl, rfl⟩ := h
              exact ⟨rfl, rfl, fun b2 hb2 _ => Inv_mono (le_refl _) hb2 hinv⟩
            · rw [if_neg hZ] at h
              cases hdropk : n.key.drop (commonPrefixLen key n.key) with
              | nil =>
                  simp only [hdropk] at h
                  simp only [Res.ok.injEq, Prod.mk.injEq] at h
                  obtain ⟨rfl, rfl⟩ := h
                  exact ⟨rfl, rfl,
                    fun b2 hb2 _ => Inv_mono (le_refl _) hb2 hinv⟩
              | cons r0 rk =>
                  simp only [hdropk] at h
                  by_cases hK : commonPrefixLen key n.key = key.length
                  · rw [if_pos hK] at h
                    simp only [Res.ok.injEq, Prod.mk.injEq] at h
                    obtain ⟨rfl, rfl⟩ := h
                    refine ⟨by simp, by simp, ?_⟩
                    intro b2 hb2 _
                    exact Inv_split (Inv_mono (le_refl _) hb2 hinv)
                      (Or.inr rfl)
                  · rw [if_neg hK] at h
                    have hcomp : Inv ord b
                        (.mk n.static n.optional n.wildcard
                          (key.take (commonPrefixLen key n.key)) n.regex none
                          n.order n.minOrder
                          [(r0, .mk true n.optional n.wildcard (r0 :: rk)
                              n.regex n.handlers n.order n.minOrder
                              n.children n.pchildren n.pindex n.pnames)]
                          [] n.pindex n.pnames) :=
                      Inv_split hinv (Or.inl rfl)
                    obtain ⟨hmo4, hst4, hlt4, hIH4⟩ :=
                      ih4 compile _ (key.drop (commonPrefixLen key n.key))
                        hs ord b n2 pn hbneg hcomp h
                    exact ⟨by simpa using hmo4, by simpa using hst4, hIH4⟩
      · intro compile n childKey hs ord b n2 pn hbneg hinv h
        simp only [Node.addRestF] at h
        cases hpcs : Node.addPCsF fuel compile n.pchildren childKey hs ord
            with
        | fuelout => simp only [hpcs] at h; exact absurd h (by simp)
        | panic => simp only [hpcs] at h; exact absurd h (by simp)
        | ok t =>
            obtain ⟨pcs2, rr⟩ := t
            simp only [hpcs] at h
            have hpcsInv := ih3 compile n.pchildren childKey hs ord b pcs2 rr
              hbneg (fun pc hpc => Inv_pchild hinv hpc)
              ((hinv n (Sub.refl n)).2.2.2.2.2.2) hpcs
            cases rr with
            | some pnv =>
                simp only [Res.ok.injEq, Prod.mk.injEq] at h
                obtain ⟨rfl, rfl⟩ := h
                refine ⟨by simp, by simp, ?_⟩
                intro b2 hb2 hpn2
                obtain ⟨hall, hfloor⟩ := hpcsInv b2 hb2
                  (fun pn2 heq => by
                    injection heq with heq2
                    omega)
                exact Inv_setPCs (Inv_mono (le_refl _) hb2 hinv) hall hfloor
            | none =>
                obtain ⟨hall, hfloor⟩ := hpcsInv b (le_refl _)
                  (fun pn2 heq => nomatch heq)
                have hbase : Inv ord b (n.setPChildren pcs2) :=
                  Inv_setPCs hinv hall hfloor
                obtain ⟨hmo4, hst4, hlt4, hIH4⟩ :=
                  ih4 compile _ childKey hs ord b n2 pn hbneg hbase h
                exact ⟨by simpa using hmo4, by simpa using hst4, hIH4⟩
      · intro compile pcs childKey hs ord b pcs2 rr hbneg hinvs hstat h
        match pcs with
        | [] =>
            simp only [Node.addPCsF] at h
            simp only [Res.ok.injEq, Prod.mk.injEq] at h
            obtain ⟨rfl, rfl⟩ := h
            intro b2 hb2 hcond
            exact ⟨fun pc2 hpc2 => absurd hpc2 (List.not_mem_nil _),
              fun pc2 hpc2 x _ => absurd hpc2 (List.not_mem_nil _)⟩
        | pc :: rest =>
            simp only [Node.addPCsF] at h
            cases haf : Node.addF fuel compile pc childKey hs ord with
            | fuelout => simp only [haf] at h; exact absurd h (by simp)
            | panic => simp only [haf] at h; exact absurd h (by simp)
            | ok t =>
                obtain ⟨pc2, pn1⟩ := t
                simp only [haf] at h
                have hpcInv : Inv ord b pc := hinvs pc (by simp)
                obtain ⟨hmo1, hst1, hIH1⟩ :=
                  ih1 compile pc childKey hs ord b pc2 pn1 hbneg hpcInv haf
                by_cases hpn : (0 : Int) ≤ pn1
                · rw [if_pos hpn] at h
                  simp only [Res.ok.injEq, Prod.mk.injEq] at h
                  obtain ⟨rfl, rfl⟩ := h
                  intro b2 hb2 hcond
                  have hpc2Inv : Inv ord b2 pc2 :=
                    hIH1 b2 hb2 (hcond pn1 rfl)
                  constructor
                  · intro q hq
                    rcases List.mem_cons.mp hq with rfl | hq2
                    · exact ⟨hpc2Inv, by
                        rw [hst1]
                        exact hstat pc (by simp)⟩
                    · exact ⟨Inv_mono (le_refl _) hb2
                        (hinvs q (List.mem_cons_of_mem _ hq2)),
                        hstat q (List.mem_cons_of_mem _ hq2)⟩
                  · intro q hq x hsub
                    rcases List.mem_cons.mp hq with rfl | hq2
                    · refine ⟨pc, by simp, ?_⟩
                      rw [← hmo1]
                      exact (hpc2Inv q (Sub.refl q)).2.2.2.1 x hsub
                    · exact ⟨q, List.mem_cons_of_mem _ hq2,
                        (hinvs q (List.mem_cons_of_mem _ hq2) q
                          (Sub.refl q)).2.2.2.1 x hsub⟩
                · rw [if_neg hpn] at h
                  cases hrest : Node.addPCsF fuel compile rest childKey hs ord
                      with
                  | fuelout =>
                      simp only [hrest] at h; exact absurd h (by simp)
                  | panic => simp only [hrest] at h; exact absurd h (by simp)
                  | ok u =>
                      obtain ⟨rest2, r2⟩ := u
                      simp only [hrest] at h
                      simp only [Res.ok.injEq, Prod.mk.injEq] at h
                      obtain ⟨rfl, rfl⟩ := h
                      have hrestInv := ih3 compile rest childKey hs ord b
                        rest2 r2 hbneg
                        (fun q hq => hinvs q (List.mem_cons_of_mem _ hq))
                        (fun q hq => hstat q (List.mem_cons_of_mem _ hq))
                        hrest
                      intro b2 hb2 hcond
                      obtain ⟨hall, hfloor⟩ := hrestInv b2 hb2 hcond
                      have hpc2Inv : Inv ord b2 pc2 :=
                        hIH1 b2 hb2 (by omega)
                      constructor
                      · intro q hq
                        rcases List.mem_cons.mp hq with rfl | hq2
                        · exact ⟨hpc2Inv, by
                            rw [hst1]
                            exact hstat pc (by simp)⟩
                        · exact hall q hq2
                      · intro q hq x hsub
                        rcases List.mem_cons.mp hq with rfl | hq2
                        · refine ⟨pc, by simp, ?_⟩
                          rw [← hmo1]
                          exact (hpc2Inv q (Sub.refl q)).2.2.2.1 x hsub
                        · obtain ⟨pco, hpco, hle⟩ := hfloor q hq2 x hsub
                          exact ⟨pco, List.mem_cons_of_mem _ hpco, hle⟩
      · intro compile n key hs ord b n2 r hbneg hinv h
        simp only [Node.addChildF] at h
        cases hscan : scanBrace key 0 (-1) with
        | mk p0 p1 =>
        simp only [hscan] at h
        by_cases hneg : p0 < 0 ∨ p1 < 0
        · rw [if_pos hneg] at h
          cases key with
          | nil => exact absurd h (by simp)
          | cons c0 krest =>
              simp only [Res.ok.injEq, Prod.mk.injEq] at h
              obtain ⟨rfl, rfl⟩ := h
              obtain ⟨i1, i2, i3, i4, i5, i6, i7⟩ := hinv n (Sub.refl n)
              refine ⟨by simp, by simp, by omega, ?_⟩
              intro b2 hb2 hr2
              have hleaf : Inv ord b2 (.mk true false false (c0 :: krest)
                  none (some hs) ord ord [] [] n.pindex n.pnames) :=
                Inv_leaf (le_refl _) (fun _ _ => le_refl _)
                  (fun _ _ => le_refl _) (by simpa using i5) (by simp)
              exact Inv_setChild (Inv_mono (le_refl _) hb2 hinv) hleaf
                (by simpa using i1)
        · rw [if_neg hneg] at h
          by_cases hpos : (0 : Int) < p0
          · rw [if_pos hpos] at h
            cases key with
            | nil => exact absurd h (by simp)
            | cons c0 krest =>
                cases hrec : Node.addChildF fuel compile
                    (.mk true false false ((c0 :: krest).take p0.toNat) none
                      none 0 ord [] [] n.pindex n.pnames)
                    ((c0 :: krest).drop p0.toNat) hs ord with
                | fuelout => simp only [hrec] at h; exact absurd h (by simp)
                | panic => simp only [hrec] at h; exact absurd h (by simp)
                | ok t =>
                    obtain ⟨prefx2, r1⟩ := t
                    simp only [hrec] at h
                    simp only [Res.ok.injEq, Prod.mk.injEq] at h
                    obtain ⟨rfl, rfl⟩ := h
                    obtain ⟨i1, i2, i3, i4, i5, i6, i7⟩ :=
                      hinv n (Sub.refl n)
                    have hfresh : Inv ord b (.mk true false false
                        ((c0 :: krest).take p0.toNat) none none 0 ord [] []
                        n.pindex n.pnames) :=
                      Inv_leaf (le_refl _) (fun _ h0 => nomatch h0)
                        (fun _ h0 => nomatch h0) (by simpa using i5)
                        (by simp)
                    obtain ⟨hmo4, hst4, hlt4, hIH4⟩ :=
                      ih4 compile _ _ hs ord b prefx2 r1 hbneg hfresh hrec
                    refine ⟨by simp, by simp, by simpa using hlt4, ?_⟩
                    intro b2 hb2 hr2
                    exact Inv_setChild (Inv_mono (le_refl _) hb2 hinv)
                      (hIH4 b2 hb2 hr2)
                      (by rw [hmo4]; simpa using i1)
          · rw [if_neg hpos] at h
            exact ih5 compile n key hs ord b p1 n2 r hbneg hinv h
      · intro compile n key hs ord b p1 n2 r hbneg hinv h
        simp only [Node.addParamF] at h
        rcases hpt : parseToken (tokenBody key p1) with ⟨opt, wc, pname, pat⟩
        simp only [hpt] at h
        by_cases hwcq : wc = true ∧ p1.toNat + 1 ≠ key.length
        · rw [if_pos hwcq] at h
          exact absurd h (by simp)
        · rw [if_neg hwcq] at h
          cases hmc : mustCompile compile pat with
          | none => simp only [hmc] at h; exact absurd h (by simp)
          | some rx =>
              simp only [hmc] at h
              obtain ⟨i1, i2, i3, i4, i5, i6, i7⟩ := hinv n (Sub.refl n)
              have hlen : (n.pnames ++ [pname]).length =
                  n.pnames.length + 1 := by simp
              by_cases hterm : p1.toNat + 1 = key.length
              · rw [if_pos hterm] at h
                simp only [Res.ok.injEq, Prod.mk.injEq] at h
                obtain ⟨rfl, rfl⟩ := h
                refine ⟨by simp, by simp, by
                  simp only [hlen]
                  omega, ?_⟩
                intro b2 hb2 hr2
                simp only [hlen] at hr2
                have hleaf : Inv ord b2 (.mk false opt wc
                    (key.take (p1.toNat + 1)) rx (some hs) ord ord [] []
                    (((n.pnames ++ [pname]).length : Int) - 1)
                    (n.pnames ++ [pname])) := by
                  refine Inv_leaf (le_refl _) (fun _ _ => le_refl _)
                    (fun _ _ => le_refl _) rfl ?_
                  intro _
                  simp only [hlen]
                  omega
                exact Inv_appendPC (Inv_mono (le_refl _) hb2 hinv) hleaf
                  (by simp) (by simpa using i1)
              · rw [if_neg hterm] at h
                cases hrec : Node.addChildF fuel compile
                    (.mk false opt wc (key.take (p1.toNat + 1)) rx none 0 ord
                      [] [] (((n.pnames ++ [pname]).length : Int) - 1)
                      (n.pnames ++ [pname]))
                    (key.drop (p1.toNat + 1)) hs ord with
                | fuelout => simp only [hrec] at h; exact absurd h (by simp)
                | panic => simp only [hrec] at h; exact absurd h (by simp)
                | ok t =>
                    obtain ⟨child2, r1⟩ := t
                    simp only [hrec] at h
                    simp only [Res.ok.injEq, Prod.mk.injEq] at h
                    obtain ⟨rfl, rfl⟩ := h
                    have hfresh : Inv ord
                        ((n.pnames ++ [pname]).length : Int)
                        (.mk false opt wc (key.take (p1.toNat + 1)) rx none 0
                          ord [] []
                          (((n.pnames ++ [pname]).length : Int) - 1)
                          (n.pnames ++ [pname])) := by
                      refine Inv_leaf (le_refl _) (fun _ h0 => nomatch h0)
                        (fun _ h0 => nomatch h0) rfl ?_
                      intro _
                      simp only [hlen]
                      omega
                    obtain ⟨hmo4, hst4, hlt4, hIH4⟩ :=
                      ih4 compile _ _ hs ord _ child2 r1
                        (by simp only [hlen]; omega) hfresh hrec
                    simp only [Node.mk_pindex] at hlt4
                    refine ⟨by simp, by simp, by
                      simp only [hlen] at hlt4 ⊢
                      omega, ?_⟩
                    intro b2 hb2 hr2
                    have hc2 : Inv ord b2 child2 := by
                      refine hIH4 b2 ?_ hr2
                      simp only [hlen] at hlt4 ⊢
                      omega
                    exact Inv_appendPC (Inv_mono (le_refl _) hb2 hinv) hc2
                      (by rw [hst4]; simp)
                      (by rw [hmo4]; simpa using i1)

/-- The empty tree is well-formed. -/
lemma newTree_inv : Inv 0 0 newTree.root := by
  refine Inv_leaf (le_refl _) (fun _ h0 => nomatch h0) (fun _ h0 => nomatch h0)
    (by simp) (by simp)

/-- One registration step preserves the tree invariant, raising the counter
by one and the parameter bound to the router-wide maximum update
`if maxp < pn then pn else maxp`. -/
lemma addTreeInv {compile : Str → Option Regex} {t : Tree} {key : Str}
    {hs : Handlers} {t2 : Tree} {pn : Int} {maxp : Int}
    (hinv : Inv t.count maxp t.root) (hbneg : -1 ≤ maxp)
    (h : Tree.Add compile t key hs = .ok (t2, pn)) :
    Inv t2.count (if maxp < pn then pn else maxp) t2.root ∧
      t2.count = t.count + 1 ∧ -1 ≤ (if maxp < pn then pn else maxp) := by
  unfold Tree.Add at h
  cases haf : Node.addF (addFuel t.root key) compile t.root key hs
      (t.count + 1) with
  | fuelout => simp only [haf] at h; exact absurd h (by simp)
  | panic => simp only [haf] at h; exact absurd h (by simp)
  | ok u =>
      obtain ⟨r, pn1⟩ := u
      simp only [haf] at h
      simp only [Res.ok.injEq, Prod.mk.injEq] at h
      obtain ⟨rfl, rfl⟩ := h
      obtain ⟨-, -, hIH⟩ :=
        ((addInv (addFuel t.root key)).1 compile t.root key hs (t.count + 1)
          maxp r pn1 hbneg
          (Inv_mono (Nat.le_succ _) (le_refl _) hinv) haf)
      refine ⟨?_, rfl, by split <;> omega⟩
      by_cases hlt : maxp < pn1
      · rw [if_pos hlt]
        exact hIH pn1 (by omega) (le_refl _)
      · rw [if_neg hlt]
        exact hIH maxp (le_refl _) (by omega)

/-- The registration fold of `buildTree` keeps the tree invariant, with the
counter equal to the number of processed registrations. -/
lemma buildFoldInv :
    ∀ (regs : List (Str × Handlers)) (compile : Str → Option Regex)
      (acc : Res (Tree × Int)) (t : Tree) (maxp : Int) (N : Nat),
      (∀ t0 maxp0, acc = .ok (t0, maxp0) →
        Inv t0.count maxp0 t0.root ∧ -1 ≤ maxp0 ∧
          t0.count + regs.length = N) →
      regs.foldl
        (fun acc2 r =>
          match acc2 with
          | .fuelout => .fuelout
          | .panic => .panic
          | .ok (tA, maxpA) =>
            match Tree.Add compile tA r.1 r.2 with
            | .fuelout => .fuelout
            | .panic => .panic
            | .ok (t2, pn) => .ok (t2, if maxpA < pn then pn else maxpA))
        acc = .ok (t, maxp) →
      Inv t.count maxp t.root ∧ -1 ≤ maxp ∧ t.count = N := by
  intro regs
  induction regs with
  | nil =>
      intro compile acc t maxp N hP h
      simp only [List.foldl_nil] at h
      obtain ⟨h1, h2, h3⟩ := hP t maxp h
      exact ⟨h1, h2, by simpa using h3⟩
  | cons r rs ih =>
      intro compile acc t maxp N hP h
      rw [List.foldl_cons] at h
      refine ih compile _ t maxp N ?_ h
      intro t0 maxp0 hacc
      match acc, hacc with
      | .ok (tA, maxpA), hacc =>
        obtain ⟨hInvA, hbA, hcntA⟩ := hP tA maxpA rfl
        dsimp only at hacc
        cases hadd : Tree.Add compile tA r.1 r.2 with
        | fuelout => rw [hadd] at hacc; exact absurd hacc (by simp)
        | panic => rw [hadd] at hacc; exact absurd hacc (by simp)
        | ok u =>
            obtain ⟨t2, pn⟩ := u
            rw [hadd] at hacc
            simp only [Res.ok.injEq, Prod.mk.injEq] at hacc
            obtain ⟨rfl, rfl⟩ := hacc
            obtain ⟨hInv2, hcnt2, hb2⟩ := addTreeInv hInvA hbA hadd
            refine ⟨hInv2, hb2, ?_⟩
            simp only [List.length_cons] at hcntA ⊢
            omega

/-- A tree built by `buildTree` is well-formed: the subtree invariant holds
at counter `count` (= the number of registrations) and parameter bound
`maxp` (the returned maximum parameter count). -/
lemma buildInv {compile : Str → Option Regex}
    {regs : List (Str × Handlers)} {t : Tree} {maxp : Int}
    (h : buildTree compile regs = .ok (t, maxp)) :
    Inv t.count maxp t.root ∧ -1 ≤ maxp ∧ t.count = regs.length := by
  unfold buildTree at h
  exact buildFoldInv regs compile _ t maxp regs.length
    (fun t0 maxp0 hacc => by
      simp only [Res.ok.injEq, Prod.mk.injEq] at hacc
      obtain ⟨rfl, rfl⟩ := hacc
      exact ⟨newTree_inv, by omega, by simp [newTree]⟩) h

lemma size_eq (n : Node) :
    Node.size n = 1 + sizeCh n.children + sizePCh n.pchildren := by
  cases n; rfl

lemma size_pos (n : Node) : 1 ≤ Node.size n := by
  rw [size_eq n]; omega

lemma sizeCh_child :
    ∀ (ch : List (Nat × Node)) (b : Nat) (c : Node),
      (b, c) ∈ ch → Node.size c < sizeCh ch := by
  intro ch
  induction ch with
  | nil => intro b c h; cases h
  | cons hd rest ih =>
      intro b c h
      obtain ⟨b0, c0⟩ := hd
      have hr : sizeCh ((b0, c0) :: rest) =
          1 + Node.size c0 + sizeCh rest := rfl
      rcases List.mem_cons.mp h with h1 | h2
      · obtain ⟨-, rfl⟩ := Prod.mk.injEq .. ▸ h1
        omega
      · have := ih b c h2
        omega

lemma setv_ok (l : List Str) (i : Int) (v : Str) (h0 : 0 ≤ i)
    (h1 : i < (l.length : Int)) :
    ∃ l2, setv l i v = some l2 ∧ l2.length = l.length := by
  unfold setv
  rw [if_pos ⟨h0, by omega⟩]
  exact ⟨l.set i.toNat v, rfl, List.length_set l i.toNat v⟩

lemma copyFrom_ok (dst src : List Str) (i : Int) (h0 : 0 ≤ i)
    (h1 : i ≤ (dst.length : Int)) (h2 : i ≤ (src.length : Int)) :
    ∃ out, copyFrom dst src i = some out ∧ out.length = dst.length := by
  unfold copyFrom
  rw [if_pos ⟨h0, by omega, by omega⟩]
  refine ⟨_, rfl, ?_⟩
  simp only [goCopy, List.length_append, List.length_take, List.length_drop]
  omega

/-- Totality of the matching engine: on a well-formed tree and a value
buffer at least as long as the parameter bound, `node.get` neither panics
nor exhausts the `3 * size` recursion budget, and it returns a buffer of
the same length. -/
lemma getTotal :
    ∀ fuel : Nat,
      (∀ (c : Nat) (B : Int) (n : Node) (path : Str) (pv : List Str),
        Inv c B n → B ≤ (pv.length : Int) → 3 * Node.size n ≤ fuel →
        ∃ d ns o pv2, Node.getF fuel n path pv = .ok (d, ns, o, pv2) ∧
          pv2.length = pv.length) ∧
      (∀ (c : Nat) (B : Int) (n : Node) (path : Str) (pv : List Str),
        Inv c B n → B ≤ (pv.length : Int) →
        2 + 3 * sizeCh n.children + 3 * sizePCh n.pchildren ≤ fuel →
        ∃ d ns o pv2, Node.descendF fuel n path pv = .ok (d, ns, o, pv2) ∧
          pv2.length = pv.length) ∧
      (∀ (c : Nat) (B : Int) (pcs : List Node) (path : Str)
        (bd : Option Handlers) (bn : List Str) (bo : Nat) (pv : List Str)
        (tmp : Option (List Str)),
        (∀ pc ∈ pcs, Inv c B pc ∧ pc.static = false) →
        B ≤ (pv.length : Int) →
        (∀ t, tmp = some t → t.length = pv.length) →
        1 + 3 * sizePCh pcs ≤ fuel →
        ∃ d ns o pv2,
          Node.pcLoopF fuel pcs path bd bn bo pv tmp = .ok (d, ns, o, pv2) ∧
          pv2.length = pv.length) := by
  intro fuel
  induction fuel with
  | zero =>
      refine ⟨?_, ?_, ?_⟩
      · intro c B n path pv _ _ hfuel
        have := size_pos n
        omega
      · intro c B n path pv _ _ hfuel
        omega
      · intro c B pcs path bd bn bo pv tmp _ _ _ hfuel
        omega
  | succ fuel ih =>
      obtain ⟨ih1, ih2, ih3⟩ := ih
      refine ⟨?_, ?_, ?_⟩
      · intro c B n path pv hinv hB hfuel
        have hsz := size_eq n
        simp only [Node.getF]
        by_cases hst : n.static = true
        · rw [if_pos hst]
          by_cases hpre : n.key.isPrefixOf path = true
          · rw [if_pos hpre]
            exact ih2 c B n _ pv hinv hB (by omega)
          · rw [if_neg hpre]
            exact ⟨none, [], maxInt32, pv, rfl, rfl⟩
        · rw [if_neg hst]
          have hsf : n.static = false := by
            revert hst; cases n.static <;> simp
          have hpi := (hinv n (Sub.refl n)).2.2.2.2.2.1 hsf
          cases hre : n.regex with
          | some re =>
              dsimp only
              by_cases hopt : path.length = 0 ∧ n.optional = true
              · rw [if_pos hopt]
                obtain ⟨pv3, hsv, hlen3⟩ :=
                  setv_ok pv n.pindex [] hpi.1 (by omega)
                simp only [hsv]
                obtain ⟨d, ns, o, pv2, hg, hl⟩ :=
                  ih2 c B n path pv3 hinv (by omega) (by omega)
                exact ⟨d, ns, o, pv2, hg, by omega⟩
              · rw [if_neg hopt]
                cases hrp : re path with
                | some e =>
                    obtain ⟨pv3, hsv, hlen3⟩ :=
                      setv_ok pv n.pindex (path.take e) hpi.1 (by omega)
                    simp only [hsv]
                    obtain ⟨d, ns, o, pv2, hg, hl⟩ :=
                      ih2 c B n _ pv3 hinv (by omega) (by omega)
                    exact ⟨d, ns, o, pv2, hg, by omega⟩
                | none => exact ⟨none, [], maxInt32, pv, rfl, rfl⟩
          | none =>
              dsimp only
              by_cases hwc : n.wildcard = true
              · rw [if_pos hwc]
                obtain ⟨pv3, hsv, hlen3⟩ :=
                  setv_ok pv n.pindex path hpi.1 (by omega)
                simp only [hsv]
                obtain ⟨d, ns, o, pv2, hg, hl⟩ :=
                  ih2 c B n [] pv3 hinv (by omega) (by omega)
                exact ⟨d, ns, o, pv2, hg, by omega⟩
              · rw [if_neg hwc]
                by_cases hnil : path = []
                · rw [if_pos hnil]
                  by_cases hop2 : n.optional = true
                  · rw [if_pos hop2]
                    obtain ⟨pv3, hsv, hlen3⟩ :=
                      setv_ok pv n.pindex [] hpi.1 (by omega)
                    simp only [hsv]
                    obtain ⟨d, ns, o, pv2, hg, hl⟩ :=
                      ih2 c B n [] pv3 hinv (by omega) (by omega)
                    exact ⟨d, ns, o, pv2, hg, by omega⟩
                  · rw [if_neg hop2]
                    exact ⟨none, [], maxInt32, pv, rfl, rfl⟩
                · rw [if_neg hnil]
                  obtain ⟨pv3, hsv, hlen3⟩ :=
                    setv_ok pv n.pindex
                      (path.take (seekIdx n.children path 0)) hpi.1 (by omega)
                  simp only [hsv]
                  obtain ⟨d, ns, o, pv2, hg, hl⟩ :=
                    ih2 c B n _ pv3 hinv (by omega) (by omega)
                  exact ⟨d, ns, o, pv2, hg, by omega⟩
      · intro c B n path pv hinv hB hfuel
        simp only [Node.descendF]
        have hpcsInv : ∀ pc ∈ n.pchildren, Inv c B pc ∧ pc.static = false :=
          fun pc hpc => ⟨Inv_pchild hinv hpc,
            (hinv n (Sub.refl n)).2.2.2.2.2.2 pc hpc⟩
        match path with
        | p0 :: prest =>
            dsimp only
            cases hlit : getChild n.children p0 with
            | some lit =>
                dsimp only
                have hlitInv : Inv c B lit :=
                  Inv_child hinv (getChild_mem _ _ _ hlit)
                have hszc : Node.size lit < sizeCh n.children :=
                  sizeCh_child _ _ _ (getChild_mem _ _ _ hlit)
                by_cases hpz : n.pchildren.length = 0
                · rw [if_pos hpz]
                  exact ih1 c B lit _ pv hlitInv hB (by omega)
                · rw [if_neg hpz]
                  obtain ⟨d1, ns1, o1, pv3, hg1, hl1⟩ :=
                    ih1 c B lit (p0 :: prest) pv hlitInv hB (by omega)
                  simp only [hg1]
                  by_cases hbet : d1 ≠ none ∧ o1 < maxInt32
                  · rw [if_pos hbet]
                    obtain ⟨d, ns, o, pv2, hg, hl⟩ :=
                      ih3 c B n.pchildren _ d1 ns1 o1 pv3 none hpcsInv
                        (by omega) (fun t ht => nomatch ht) (by omega)
                    exact ⟨d, ns, o, pv2, hg, by omega⟩
                  · rw [if_neg hbet]
                    obtain ⟨d, ns, o, pv2, hg, hl⟩ :=
                      ih3 c B n.pchildren _ none [] maxInt32 pv3 none hpcsInv
                        (by omega) (fun t ht => nomatch ht) (by omega)
                    exact ⟨d, ns, o, pv2, hg, by omega⟩
            | none =>
                dsimp only
                exact ih3 c B n.pchildren _ none [] maxInt32 pv none hpcsInv
                  hB (fun t ht => nomatch ht) (by omega)
        | [] =>
            dsimp only
            cases hh : n.handlers with
            | some hs =>
                dsimp only
                exact ih3 c B n.pchildren [] (some hs) n.pnames n.order pv
                  none hpcsInv hB (fun t ht => nomatch ht) (by omega)
            | none =>
                dsimp only
                exact ih3 c B n.pchildren [] none [] maxInt32 pv none
                  hpcsInv hB (fun t ht => nomatch ht) (by omega)
      · intro c B pcs path bd bn bo pv tmp hpcs hB htmp hfuel
        simp only [Node.pcLoopF]
        match pcs with
        | [] => exact ⟨bd, bn, bo, pv, rfl, rfl⟩
        | pc :: rest =>
            dsimp only
            have hszpc : 1 ≤ Node.size pc := size_pos pc
            have hszr : sizePCh (pc :: rest) =
                1 + Node.size pc + sizePCh rest := rfl
            have hrest : ∀ q ∈ rest, Inv c B q ∧ q.static = false :=
              fun q hq => hpcs q (List.mem_cons_of_mem _ hq)
            by_cases hprune : bo ≤ pc.minOrder
            · rw [if_pos hprune]
              exact ih3 c B rest path bd bn bo pv tmp hrest hB htmp (by omega)
            · rw [if_neg hprune]
              obtain ⟨hpcInv, hpcSt⟩ := hpcs pc (by simp)
              have hpib := (hpcInv pc (Sub.refl pc)).2.2.2.2.2.1 hpcSt
              match tmp, bd, htmp with
              | some t, xbd, htmp =>
                  dsimp only
                  have hlt : t.length = pv.length := htmp t rfl
                  obtain ⟨d1, ns1, o1, t2, hg1, hl1⟩ :=
                    ih1 c B pc path t hpcInv (by omega) (by omega)
                  simp only [hg1]
                  by_cases hbet : d1 ≠ none ∧ o1 < bo
                  · rw [if_pos hbet]
                    obtain ⟨pv3, hcf, hlcf⟩ :=
                      copyFrom_ok pv t2 pc.pindex hpib.1 (by omega) (by omega)
                    simp only [hcf]
                    obtain ⟨d, ns, o, pv2, hg, hl⟩ :=
                      ih3 c B rest path d1 ns1 o1 pv3 (some t2) hrest
                        (by omega)
                        (fun u hu => by
                          injection hu with hu2
                          subst hu2
                          omega)
                        (by omega)
                    exact ⟨d, ns, o, pv2, hg, by omega⟩
                  · rw [if_neg hbet]
                    obtain ⟨d, ns, o, pv2, hg, hl⟩ :=
                      ih3 c B rest path xbd bn bo pv (some t2) hrest hB
                        (fun u hu => by
                          injection hu with hu2
                          subst hu2
                          omega)
                        (by omega)
                    exact ⟨d, ns, o, pv2, hg, hl⟩
              | none, some hd, htmp =>
                  dsimp only
                  obtain ⟨d1, ns1, o1, t2, hg1, hl1⟩ :=
                    ih1 c B pc path (List.replicate pv.length []) hpcInv
                      (by simpa using hB) (by omega)
                  simp only [hg1]
                  have hl1r : t2.length = pv.length := by
                    simpa using hl1
                  by_cases hbet : d1 ≠ none ∧ o1 < bo
                  · rw [if_pos hbet]
                    obtain ⟨pv3, hcf, hlcf⟩ :=
                      copyFrom_ok pv t2 pc.pindex hpib.1 (by omega) (by omega)
                    simp only [hcf]
                    obtain ⟨d, ns, o, pv2, hg, hl⟩ :=
                      ih3 c B rest path d1 ns1 o1 pv3 (some t2) hrest
                        (by omega)
                        (fun u hu => by
                          injection hu with hu2
                          subst hu2
                          omega)
                        (by omega)
                    exact ⟨d, ns, o, pv2, hg, by omega⟩
                  · rw [if_neg hbet]
                    obtain ⟨d, ns, o, pv2, hg, hl⟩ :=
                      ih3 c B rest path (some hd) bn bo pv (some t2) hrest hB
                        (fun u hu => by
                          injection hu with hu2
                          subst hu2
                          omega)
                        (by omega)
                    exact ⟨d, ns, o, pv2, hg, hl⟩
              | none, none, htmp =>
                  dsimp only
                  obtain ⟨d1, ns1, o1, pv3, hg1, hl1⟩ :=
                    ih1 c B pc path pv hpcInv hB (by omega)
                  simp only [hg1]
                  by_cases hbet : d1 ≠ none ∧ o1 < bo
                  · rw [if_pos hbet]
                    obtain ⟨d, ns, o, pv2, hg, hl⟩ :=
                      ih3 c B rest path d1 ns1 o1 pv3 none hrest (by omega)
                        (fun u hu => nomatch hu) (by omega)
                    exact ⟨d, ns, o, pv2, hg, by omega⟩
                  · rw [if_neg hbet]
                    obtain ⟨d, ns, o, pv2, hg, hl⟩ :=
                      ih3 c B rest path none bn bo pv3 none hrest (by omega)
                        (fun u hu => nomatch hu) (by omega)
                    exact ⟨d, ns, o, pv2, hg, by omega⟩

lemma indexOfByte_none :
    ∀ (l : Str) (b : Nat), b ∉ l → indexOfByte l b = -1 := by
  intro l
  induction l with
  | nil => intro b _; rfl
  | cons c rest ih =>
      intro b hb
      have hcb : ¬ c = b := fun he => hb (by simp [he])
      have hrb : b ∉ rest := fun hr => hb (List.mem_cons_of_mem _ hr)
      simp only [indexOfByte, if_neg hcb, ih b hrb]

/-- The brace scanner walks over a brace-free prefix without changing
state (while no open brace is pending). -/
lemma scan_skip :
    ∀ (pre rest : Str) (i : Nat) (p0 : Int), 123 ∉ pre → p0 < 0 →
      scanBrace (pre ++ rest) i p0 = scanBrace rest (i + pre.length) p0 := by
  intro pre
  induction pre with
  | nil => intro rest i p0 _ _; simp
  | cons c cs ih =>
      intro rest i p0 hb hp0
      have hc123 : ¬ c = 123 := fun he => hb (by simp [he])
      have hcs : 123 ∉ cs := fun hr => hb (List.mem_cons_of_mem _ hr)
      have hno : ¬ (c = 125 ∧ 0 ≤ p0) := fun hA => by
        have := hA.2
        omega
      simp only [List.cons_append, scanBrace, if_neg hc123, if_neg hno,
        List.append_eq]
      rw [ih rest (i + 1) p0 hcs hp0, List.length_cons]
      have he : i + 1 + cs.length = i + (cs.length + 1) := by omega
      rw [he]

/-- The brace scanner walks over a brace-free token body with an open brace
pending. -/
lemma scan_name :
    ∀ (name rest : Str) (i : Nat) (k : Nat), 123 ∉ name → 125 ∉ name →
      scanBrace (name ++ rest) i (Int.ofNat k) =
        scanBrace rest (i + name.length) (Int.ofNat k) := by
  intro name
  induction name with
  | nil => intro rest i k _ _; simp
  | cons c cs ih =>
      intro rest i k hb hb2
      have hc123 : ¬ c = 123 := fun he => hb (by simp [he])
      have hc125 : ¬ (c = 125 ∧ 0 ≤ (Int.ofNat k : Int)) := fun hA =>
        hb2 (by simp [hA.1])
      have hcs : 123 ∉ cs := fun hr => hb (List.mem_cons_of_mem _ hr)
      have hcs2 : 125 ∉ cs := fun hr => hb2 (List.mem_cons_of_mem _ hr)
      simp only [List.cons_append, scanBrace, if_neg hc123, if_neg hc125,
        List.append_eq]
      rw [ih rest (i + 1) k hcs hcs2, List.length_cons]
      have he : i + 1 + cs.length = i + (cs.length + 1) := by omega
      rw [he]

lemma scan_step_ne (c : Nat) (rest : Str) (i k : Nat) (hc1 : ¬ c = 123)
    (hc2 : ¬ c = 125) :
    scanBrace (c :: rest) i (Int.ofNat k) =
      scanBrace rest (i + 1) (Int.ofNat k) := by
  have hno : ¬ (c = 125 ∧ 0 ≤ (Int.ofNat k : Int)) := fun hA => hc2 hA.1
  simp only [scanBrace, if_neg hc1, if_neg hno]

lemma scan_step_close (rest : Str) (i k : Nat) :
    scanBrace (125 :: rest) i (Int.ofNat k) = (Int.ofNat k, Int.ofNat i) := by
  simp [scanBrace, Int.ofNat_eq_coe]

/-- On a key of the shape `pre{name*}suf` the scanner finds the braces of
the first token. -/
lemma scan_wc (pre name suf : Str) (h1 : 123 ∉ pre) (h2 : 123 ∉ name)
    (h3 : 125 ∉ name) :
    scanBrace (pre ++ 123 :: (name ++ 42 :: 125 :: suf)) 0 (-1) =
      (Int.ofNat pre.length, Int.ofNat (pre.length + name.length + 2)) := by
  rw [scan_skip pre _ 0 (-1) h1 (by omega)]
  have hopen : scanBrace (123 :: (name ++ 42 :: 125 :: suf))
      (0 + pre.length) (-1) =
      scanBrace (name ++ 42 :: 125 :: suf) (0 + pre.length + 1)
        (Int.ofNat (0 + pre.length)) := by
    simp [scanBrace]
  rw [hopen, scan_name name _ _ _ h2 h3,
    scan_step_ne 42 _ _ _ (by omega) (by omega), scan_step_close]
  simp only [Prod.mk.injEq, Int.ofNat_eq_coe]
  constructor
  · omega
  · omega

/-- The token body of the leading `{name*}` token is `name*`. -/
lemma tokenBody_wc (name suf : Str) :
    tokenBody (123 :: (name ++ 42 :: 125 :: suf))
      (Int.ofNat (name.length + 2)) = name ++ [42] := by
  unfold tokenBody
  have ht : (123 :: (name ++ 42 :: 125 :: suf)).take
      ((Int.ofNat (name.length + 2)).toNat + 1) =
      123 :: (name ++ [42, 125]) := by
    have h1 : (Int.ofNat (name.length + 2)).toNat = name.length + 2 := rfl
    rw [h1, List.take_succ_cons]
    have h2 : name ++ 42 :: 125 :: suf = (name ++ [42, 125]) ++ suf := by
      simp
    rw [h2]
    have h3 : (name ++ [42, 125]).length = name.length + 2 := by simp
    rw [← h3, List.take_left]
  rw [ht]
  have h4 : (123 :: (name ++ [42, 125])).length = name.length + 3 := by simp
  rw [h4]
  have h5 : (123 :: (name ++ [42, 125])).drop 1 = name ++ [42, 125] := rfl
  rw [h5]
  have h6 : name.length + 3 - 2 = name.length + 1 := by omega
  rw [h6]
  have h7 : name ++ [42, 125] = (name ++ [42]) ++ [125] := by simp
  rw [h7]
  have h8 : (name ++ [42]).length = name.length + 1 := by simp
  rw [← h8, List.take_left]

/-- Parsing the token body `name*` (no `{`, `}`, `:`, `*` inside `name`)
yields a non-optional wildcard parameter called `name`. -/
lemma parseToken_wc (name : Str) (h42 : 42 ∉ name) (h58 : 58 ∉ name) :
    parseToken (name ++ [42]) = (false, true, name, []) := by
  have hrelo : ¬ (1 < (name ++ [42]).length ∧
      (name ++ [42]).head? = some 42) := by
    cases name with
    | nil => simp
    | cons c cs =>
        intro hA
        have hc : c = 42 := by simpa using hA.2
        exact h42 (by simp [hc])
  have h58a : (58 : Nat) ∉ name ++ [42] := by
    intro hm
    rcases List.mem_append.mp hm with hm1 | hm2
    · exact h58 hm1
    · simp at hm2
  have hidx : indexOfByte (name ++ [42]) 58 = -1 := indexOfByte_none _ _ h58a
  have hlast : (name ++ [42]).getLast? = some 42 := List.getLast?_concat _
  simp only [parseToken, if_neg hrelo, hidx]
  rw [if_neg (by omega : ¬ (0 : Int) ≤ -1)]
  rw [if_neg (by omega : ¬ (0 : Int) ≤ -1)]
  simp only [hlast]
  have hopt : ((some (42 : Nat) == some 63) : Bool) = false := by decide
  rw [hopt]
  simp only [if_neg (by simp : ¬ (false = true))]
  have hwc : ((some (42 : Nat) == some 42) : Bool) = true := by decide
  rw [hlast, hwc]
  simp [List.dropLast_concat]

/-- The parameter-token step panics on a wildcard token followed by more
pattern text. -/
lemma addParamF_wc_panic (fuel : Nat) (compile : Str → Option Regex)
    (n : Node) (name suf : Str) (hs : Handlers) (ord : Nat)
    (h1f : 1 ≤ fuel) (h42 : 42 ∉ name) (h58 : 58 ∉ name)
    (hsuf : suf ≠ []) :
    Node.addParamF fuel compile n (123 :: (name ++ 42 :: 125 :: suf)) hs ord
      (Int.ofNat (name.length + 2)) = .panic := by
  obtain ⟨k, rfl⟩ : ∃ k, fuel = k + 1 := ⟨fuel - 1, by omega⟩
  have hsl : suf.length ≠ 0 := by
    intro h0
    exact hsuf (List.length_eq_zero.mp h0)
  simp only [Node.addParamF]
  rw [tokenBody_wc name suf, parseToken_wc name h42 h58]
  dsimp only
  have hcond : (true = true) ∧
      ¬ (Int.ofNat (name.length + 2)).toNat + 1 =
        (123 :: (name ++ 42 :: 125 :: suf)).length := by
    refine ⟨rfl, ?_⟩
    have htn : (Int.ofNat (name.length + 2)).toNat = name.length + 2 := rfl
    rw [htn]
    simp only [List.length_cons, List.length_append, List.length_cons]
    omega
  rw [if_pos hcond]

/-- `node.addChild` panics on a key whose leading token is a non-terminal
wildcard. -/
lemma addChildF_wc_panic0 (fuel : Nat) (compile : Str → Option Regex)
    (n : Node) (name suf : Str) (hs : Handlers) (ord : Nat)
    (h2f : 2 ≤ fuel) (h123 : 123 ∉ name) (h125 : 125 ∉ name)
    (h42 : 42 ∉ name) (h58 : 58 ∉ name) (hsuf : suf ≠ []) :
    Node.addChildF fuel compile n (123 :: (name ++ 42 :: 125 :: suf)) hs
      ord = .panic := by
  obtain ⟨k, rfl⟩ : ∃ k, fuel = k + 2 := ⟨fuel - 2, by omega⟩
  simp only [Node.addChildF]
  have hscan := scan_wc [] name suf (by simp) h123 h125
  simp only [List.nil_append, List.length_nil, Nat.zero_add] at hscan
  simp only [hscan]
  have hc1 : ¬ (Int.ofNat 0 < 0 ∨ Int.ofNat (name.length + 2) < 0) := by
    simp only [Int.ofNat_eq_coe]
    omega
  rw [if_neg hc1]
  have hc2 : ¬ ((0 : Int) < Int.ofNat 0) := by
    simp only [Int.ofNat_eq_coe]
    omega
  rw [if_neg hc2]
  exact addParamF_wc_panic (k + 1) compile n name suf hs ord (by omega)
    h42 h58 hsuf

/-- `node.addChild` panics on any key containing a non-terminal wildcard
token (possibly after a brace-free static prefix). -/
lemma addChildF_wc_panic (fuel : Nat) (compile : Str → Option Regex)
    (n : Node) (pre name suf : Str) (hs : Handlers) (ord : Nat)
    (h3f : 3 ≤ fuel) (hpre : 123 ∉ pre) (h123 : 123 ∉ name)
    (h125 : 125 ∉ name) (h42 : 42 ∉ name) (h58 : 58 ∉ name)
    (hsuf : suf ≠ []) :
    Node.addChildF fuel compile n
      (pre ++ 123 :: (name ++ 42 :: 125 :: suf)) hs ord = .panic := by
  cases pre with
  | nil =>
      simpa using addChildF_wc_panic0 fuel compile n name suf hs ord
        (by omega) h123 h125 h42 h58 hsuf
  | cons p ps =>
      obtain ⟨m, hm2, rfl⟩ : ∃ m, 2 ≤ m ∧ fuel = m + 1 :=
        ⟨fuel - 1, by omega, by omega⟩
      simp only [Node.addChildF]
      have hscan := scan_wc (p :: ps) name suf hpre h123 h125
      simp only [hscan]
      have hlps : (p :: ps).length = ps.length + 1 := List.length_cons p ps
      have hc1 : ¬ (Int.ofNat (p :: ps).length < 0 ∨
          Int.ofNat ((p :: ps).length + name.length + 2) < 0) := by
        simp only [Int.ofNat_eq_coe]
        omega
      rw [if_neg hc1]
      have hc2 : (0 : Int) < Int.ofNat (p :: ps).length := by
        simp only [Int.ofNat_eq_coe, hlps]
        omega
      rw [if_pos hc2]
      cases hkey : (p :: ps) ++ 123 :: (name ++ 42 :: 125 :: suf) with
      | nil => simp at hkey
      | cons c0 krest =>
          dsimp only
          have hdrop : (c0 :: krest).drop
              (Int.ofNat (p :: ps).length).toNat =
              123 :: (name ++ 42 :: 125 :: suf) := by
            rw [← hkey]
            have htn : (Int.ofNat (p :: ps).length).toNat =
                (p :: ps).length := rfl
            rw [htn]
            exact List.drop_left _ _
          rw [hdrop]
          have hrec := addChildF_wc_panic0 m compile
            (.mk true false false ((c0 :: krest).take
              (Int.ofNat (p :: ps).length).toNat) none none 0 ord [] []
              n.pindex n.pnames) name suf hs ord hm2 h123 h125 h42
            h58 hsuf
          rw [hrec]

lemma commonPrefixLen_nil_right : ∀ key : Str, commonPrefixLen key [] = 0 := by
  intro key
  cases key <;> rfl

/-- Registering a pattern with a non-terminal wildcard token into an empty
tree panics inside `tree.Add`. -/
lemma treeAdd_wc_panic (compile : Str → Option Regex) (pre name suf : Str)
    (hs : Handlers) (hpre : 123 ∉ pre) (h123 : 123 ∉ name)
    (h125 : 125 ∉ name) (h42 : 42 ∉ name) (h58 : 58 ∉ name)
    (hsuf : suf ≠ []) :
    Tree.Add compile newTree (pre ++ 123 :: (name ++ 42 :: 125 :: suf))
      hs = .panic := by
  have hkeyne : pre ++ 123 :: (name ++ 42 :: 125 :: suf) ≠ [] := by
    cases pre <;> simp
  have haf : ∀ fuel : Nat, 5 ≤ fuel →
      Node.addF fuel compile newTree.root
        (pre ++ 123 :: (name ++ 42 :: 125 :: suf)) hs 1 = .panic := by
    intro fuel h5f
    obtain ⟨m, hm2, rfl⟩ : ∃ m, 2 ≤ m ∧ fuel = ((m + 1) + 1) + 1 :=
      ⟨fuel - 3, by omega, by omega⟩
    simp only [Node.addF]
    have hkr : newTree.root.key = ([] : Str) := rfl
    rw [hkr, commonPrefixLen_nil_right]
    have hEx : ¬ ((0 : Nat) = List.length ([] : Str) ∧
        0 = (pre ++ 123 :: (name ++ 42 :: 125 :: suf)).length) := by
      intro hA
      have h2 := hA.2
      cases pre with
      | nil => simp at h2
      | cons p ps => simp at h2
    rw [if_neg hEx]
    rw [if_pos (by simp : (0 : Nat) = List.length ([] : Str))]
    rw [List.drop_zero]
    cases hkey : pre ++ 123 :: (name ++ 42 :: 125 :: suf) with
    | nil => exact absurd hkey hkeyne
    | cons c0 ck =>
        dsimp only
        have hch : getChild newTree.root.children c0 = none := rfl
        rw [hch]
        simp only [Node.addRestF]
        have hpch : newTree.root.pchildren = ([] : List Node) := rfl
        rw [hpch]
        simp only [Node.addPCsF]
        rw [← hkey]
        rw [addChildF_wc_panic (m + 1) compile _ pre name suf hs 1
          (by omega) hpre h123 h125 h42 h58 hsuf]
  unfold Tree.Add
  have hcnt : newTree.count + 1 = 1 := rfl
  rw [hcnt]
  rw [haf (addFuel newTree.root (pre ++ 123 :: (name ++ 42 :: 125 :: suf)))
    ?_]
  have h1 : 1 ≤ Node.size newTree.root := size_pos _
  unfold addFuel
  calc (5 : Nat) ≤ 3 * 2 *
        (Node.size newTree.root + 4 *
          (pre ++ 123 :: (name ++ 42 :: 125 :: suf)).length + 16) := by
        omega
    _ ≤ 3 * ((pre ++ 123 :: (name ++ 42 :: 125 :: suf)).length + 2) *
        (Node.size newTree.root + 4 *
          (pre ++ 123 :: (name ++ 42 :: 125 :: suf)).length + 16) := by
        apply Nat.mul_le_mul_right
        omega

lemma pcLoopF_order_mono :
    ∀ (fuel : Nat) (pcs : List Node) (path : Str) (bd : Option Handlers)
      (bn : List Str) (bo : Nat) (pv : List Str) (tmp : Option (List Str))
      (d : Option Handlers) (ns : List Str) (o : Nat) (pv2 : List Str),
      Node.pcLoopF fuel pcs path bd bn bo pv tmp = .ok (d, ns, o, pv2) →
      o ≤ bo := by
  intro fuel
  induction fuel with
  | zero => intro pcs path bd bn bo pv tmp d ns o pv2 h; simp [Node.pcLoopF] at h
  | succ fuel ih =>
      intro pcs path bd bn bo pv tmp d ns o pv2 h
      match pcs with
      | [] =>
          simp [Node.pcLoopF] at h
          omega
      | pc :: rest =>
          simp only [Node.pcLoopF] at h
          split at h
          · exact ih _ _ _ _ _ _ _ _ _ _ _ h
          · repeat' split at h
            all_goals try exact absurd h (by simp)
            all_goals try exact ih _ _ _ _ _ _ _ _ _ _ _ h
            all_goals
              have h2 := ih _ _ _ _ _ _ _ _ _ _ _ h
              first
                | (rename_i hc; exact h2.trans (Nat.le_of_lt hc.2))
                | (rename_i hc x1 x2 x3; exact h2.trans (Nat.le_of_lt hc.2))

end Lemmas

/-- A committed scratch buffer leaves the entries before the commit offset
untouched. -/
lemma copyFrom_take (dst src : List Str) (i : Int) (out : List Str)
    (h : copyFrom dst src i = some out) :
    out.take i.toNat = dst.take i.toNat := by
  unfold copyFrom at h
  split at h
  · next hcond =>
      simp only [Option.some.injEq] at h
      subst h
      have hlen : (dst.take i.toNat).length = i.toNat := by
        simp [List.length_take]
        omega
      simp [List.take_append_eq_append_take, List.take_take, hlen]
  · exact absurd h (by simp)

/-- Once a best candidate is held, a run of the parametric-children loop that
finds nothing strictly better returns the caller buffer unchanged: all
speculative writes went to the scratch buffer. -/
lemma pcLoopF_frame :
    ∀ (fuel : Nat) (pcs : List Node) (path : Str) (bd : Option Handlers)
      (bn : List Str) (bo : Nat) (pv : List Str) (tmp : Option (List Str))
      (d : Option Handlers) (ns : List Str) (o : Nat) (pv2 : List Str),
      bd ≠ none →
      Node.pcLoopF fuel pcs path bd bn bo pv tmp = .ok (d, ns, o, pv2) →
      bo ≤ o → pv2 = pv := by
  intro fuel
  induction fuel with
  | zero =>
      intro pcs path bd bn bo pv tmp d ns o pv2 hbd h hbo
      simp [Node.pcLoopF] at h
  | succ fuel ih =>
      intro pcs path bd bn bo pv tmp d ns o pv2 hbd h hbo
      match pcs with
      | [] =>
          simp [Node.pcLoopF] at h
          exact h.2.2.2.symm
      | pc :: rest =>
          simp only [Node.pcLoopF] at h
          split at h
          · exact ih _ _ _ _ _ _ _ _ _ _ _ hbd h hbo
          · repeat' split at h
            all_goals try exact absurd h (by simp)
            all_goals try exact absurd rfl hbd
            all_goals try exact ih _ _ _ _ _ _ _ _ _ _ _ hbd h hbo
            all_goals
              have h2 := pcLoopF_order_mono _ _ _ _ _ _ _ _ _ _ _ _ h
              first
                | (rename_i hc;
                   exact absurd (lt_of_le_of_lt (hbo.trans h2) hc.2)
                     (lt_irrefl _))
                | (rename_i hc x1 x2 x3;
                   exact absurd (lt_of_le_of_lt (hbo.trans h2) hc.2)
                     (lt_irrefl _))

end Zeno


namespace Zeno

/-- C1: with the parametric pattern `/user/{id}` registered first (order 1)
and the literal `/user/admin` second (order 2), `Get("/user/admin")` returns
the PARAMETRIC route's handlers with `id="admin"` — the lowest insertion
order wins even against a static branch; `Get("/user/42")` returns the
parametric route with `id="42"`; with the registrations reversed, the
literal (now lowest-order) route wins with no capture. -/
theorem c1_lowest_order_wins :
    Tree.Get (treeOf [("/user/\x7bid\x7d", [1]), ("/user/admin", [2])])
        (bstr "/user/admin") [[]] =
      .ok (some [1], [bstr "id"], [bstr "admin"]) ∧
    Tree.Get (treeOf [("/user/\x7bid\x7d", [1]), ("/user/admin", [2])])
        (bstr "/user/42") [[]] =
      .ok (some [1], [bstr "id"], [bstr "42"]) ∧
    Tree.Get (treeOf [("/user/admin", [2]), ("/user/\x7bid\x7d", [1])])
        (bstr "/user/admin") [[]] =
      .ok (some [2], [], [[]]) :=
  ⟨by decide, by decide, by decide⟩

/-- C1 counterexample: after registering `/user/{id}` first and
`/user/admin` second, `Get("/user/admin")` does NOT return the literal
route's handlers with no captured id — it returns the parametric route. -/
theorem c1_static_precedence_refuted :
    Tree.Get (treeOf [("/user/\x7bid\x7d", [1]), ("/user/admin", [2])])
        (bstr "/user/admin") [[]] ≠ .ok (some [2], [], [[]]) ∧
    Tree.Get (treeOf [("/user/\x7bid\x7d", [1]), ("/user/admin", [2])])
        (bstr "/user/admin") [[]] =
      .ok (some [1], [bstr "id"], [bstr "admin"]) :=
  ⟨by decide, by decide⟩

/-- C2: on any tree built by a registration sequence (the counter staying
below `math.MaxInt32`), whenever the complete matches of a path are
`ms` (the pruning-free mirror `matchList`), `Get` returns the order equal
to the minimum insertion order over `ms`, returns handlers iff some
complete match exists, and the `minOrder` pruning never changes the
outcome: the pruning-free walk `getMNP` agrees with the pruned walk
`getM`. -/
theorem c2_lowest_order_pruning (compile : Str → Option Regex)
    (regs : List (Str × Handlers)) (t : Tree) (maxp : Int) (fuel : Nat)
    (path : Str) (pv : List Str) (d : Option Handlers) (ns : List Str)
    (o : Nat) (pv2 : List Str) (ms : List (Handlers × List Str × Nat))
    (hbuild : buildTree compile regs = .ok (t, maxp))
    (hlen : regs.length < maxInt32)
    (hget : Node.getF fuel t.root path pv = .ok (d, ns, o, pv2))
    (hml : Node.matchList fuel t.root path = some ms) :
    o = minO ms ∧ (d = none ↔ ms = []) ∧
      Node.getMNP fuel t.root path = Node.getM fuel t.root path := by
  obtain ⟨hinv, hb, hcnt⟩ := buildInv hbuild
  have hc : t.count < maxInt32 := by omega
  have hgm := (bufM fuel).1 t.root path pv d ns o pv2 hget
  obtain ⟨d2, ns2, o2, hgm2, ho2, hiff⟩ :=
    (minM fuel).1 t.count maxp t.root path ms hinv hc hml
  rw [hgm] at hgm2
  simp only [Option.some.injEq, Prod.mk.injEq] at hgm2
  obtain ⟨rfl, rfl, rfl⟩ := hgm2
  exact ⟨ho2, hiff, (npM fuel).1 t.count maxp t.root path ms hinv hc hml⟩

/-- Witness for C2: both parametric routes of `regsX` completely match
`/x/7`; the returned match is the earlier-registered one (order 1, the
minimum), and the pruning-free walk agrees. -/
theorem c2_lowest_order_pruning_witness :
    buildTree noRegex regsX = .ok (tX, 1) ∧
    regsX.length < maxInt32 ∧
    Node.getF (getFuel tX.root) tX.root (bstr "/x/7") [[]] =
      .ok (some [1], [bstr "a"], 1, [bstr "7"]) ∧
    Node.matchList (getFuel tX.root) tX.root (bstr "/x/7") =
      some [([1], [bstr "a"], 1), ([2], [bstr "b"], 2)] ∧
    1 = minO [([1], [bstr "a"], 1), ([2], [bstr "b"], 2)] ∧
    ((some [1] : Option Handlers) = none ↔
      ([([1], [bstr "a"], 1), ([2], [bstr "b"], 2)] :
        List (Handlers × List Str × Nat)) = []) ∧
    Node.getMNP (getFuel tX.root) tX.root (bstr "/x/7") =
      Node.getM (getFuel tX.root) tX.root (bstr "/x/7") :=
  ⟨rfl, by decide, by decide, by decide,
    c2_lowest_order_pruning noRegex regsX tX 1 (getFuel tX.root)
      (bstr "/x/7") [[]] (some [1]) [bstr "a"] 1 [bstr "7"]
      [([1], [bstr "a"], 1), ([2], [bstr "b"], 2)] rfl (by decide)
      (by decide) (by decide)⟩

/-- C3: `get` yields a handler chain only for a complete match: whenever the
walk returns handlers, that result is one of the complete matches of the
path recorded by `matchList`, whose entries are produced exclusively at
nodes where the whole path has been consumed. -/
theorem c3_full_consumption (fuel : Nat) (n : Node) (path : Str)
    (pv : List Str) (d : Handlers) (ns : List Str) (o : Nat)
    (pv2 : List Str) (ms : List (Handlers × List Str × Nat))
    (hget : Node.getF fuel n path pv = .ok (some d, ns, o, pv2))
    (hml : Node.matchList fuel n path = some ms) :
    (d, ns, o) ∈ ms :=
  (soundM fuel).1 n path d ns o ms
    ((bufM fuel).1 n path pv (some d) ns o pv2 hget) hml

/-- Witness for C3: `/post/42` against `/post/{id?}` returns the unique
complete match; with the extra trailing segment, `Get("/post/42/extra")`
does not match even though a handler sits on the optional-id node passed
on the way. -/
theorem c3_full_consumption_witness :
    Node.getF (getFuel tPost.root) tPost.root (bstr "/post/42") [[]] =
      .ok (some [1], [bstr "id"], 1, [bstr "42"]) ∧
    Node.matchList (getFuel tPost.root) tPost.root (bstr "/post/42") =
      some [([1], [bstr "id"], 1)] ∧
    Tree.Get tPost (bstr "/post/42/extra") [[]] =
      .ok (none, [], [bstr "42"]) ∧
    (([1] : Handlers), [bstr "id"], 1) ∈
      [(([1] : Handlers), [bstr "id"], 1)] :=
  ⟨by decide, by decide, by decide,
    c3_full_consumption (getFuel tPost.root) tPost.root (bstr "/post/42")
      [[]] [1] [bstr "id"] 1 [bstr "42"] [([1], [bstr "id"], 1)]
      (by decide) (by decide)⟩

set_option maxHeartbeats 2000000 in
/-- C4: the plain-parameter capture boundary `seekIdx` stops exactly at the
first byte that is a `/` or has a registered static child (every byte
before it is neither, and the stop position carries such a byte when the
input is not exhausted); consequently `/page/{year}-{slug}` matches
`/page/2022-zeno` with `year="2022"`, `slug="zeno"`, while
`/page/2022zeno` and `/page/2022-` do not match. -/
theorem c4_param_capture_boundary :
    (∀ (ch : List (Nat × Node)) (path : Str),
      seekIdx ch path 0 ≤ path.length ∧
      (∀ j c, j < seekIdx ch path 0 → path.get? j = some c →
        ¬ (c = 47 ∨ (getChild ch c).isSome = true)) ∧
      (seekIdx ch path 0 < path.length →
        ∃ c, path.get? (seekIdx ch path 0) = some c ∧
          (c = 47 ∨ (getChild ch c).isSome = true))) ∧
    Tree.Get tPage (bstr "/page/2022-zeno") [[], []] =
      .ok (some [1], [bstr "year", bstr "slug"],
        [bstr "2022", bstr "zeno"]) ∧
    Tree.Get tPage (bstr "/page/2022zeno") [[], []] =
      .ok (none, [], [bstr "2022zeno", []]) ∧
    Tree.Get tPage (bstr "/page/2022-") [[], []] =
      .ok (none, [], [bstr "2022", []]) := by
  refine ⟨?_, by decide, by decide, by decide⟩
  intro ch path
  refine ⟨?_, ?_, ?_⟩
  · have h := seekIdx_le ch path 0
    omega
  · intro j c hj hc
    have h := seekIdx_before ch path 0 j (Nat.zero_le j) hj c
      (by simpa using hc)
    simpa [stopByte] using h
  · intro hlt
    obtain ⟨c, hc, hs⟩ := seekIdx_stop ch path 0 (by omega)
    exact ⟨c, by simpa using hc, by simpa [stopByte] using hs⟩

/-- C5: against the registration `/post/{id?}`, `Get("/post")` does NOT
match (the static edge `/post/` is not a prefix of `/post`, so the walk
never reaches the optional parameter): the handler chain is `nil` and
nothing is captured; `Get("/post/")` and `Get("/post/42")` do match with
`id=""` and `id="42"`. -/
theorem c5_optional_param_absent_no_match :
    Tree.Get tPost (bstr "/post") [[]] = .ok (none, [], [[]]) ∧
    Tree.Get tPost (bstr "/post/") [[]] =
      .ok (some [1], [bstr "id"], [[]]) ∧
    Tree.Get tPost (bstr "/post/42") [[]] =
      .ok (some [1], [bstr "id"], [bstr "42"]) :=
  ⟨by decide, by decide, by decide⟩

/-- C6: once a best match is held (`bestData ≠ nil`), the
parametric-children loop commits values into the caller's buffer only on a
strictly better (lower-order) complete match: a run that finds nothing
below the current best order returns the caller buffer unchanged, every
speculative write having gone to the scratch copy. -/
theorem c6_scratch_commit (fuel : Nat) (pcs : List Node) (path : Str)
    (bd : Option Handlers) (bn : List Str) (bo : Nat) (pv : List Str)
    (tmp : Option (List Str)) (d : Option Handlers) (ns : List Str)
    (o : Nat) (pv2 : List Str) (hbd : bd ≠ none)
    (hrun : Node.pcLoopF fuel pcs path bd bn bo pv tmp = .ok (d, ns, o, pv2))
    (hbo : bo ≤ o) : pv2 = pv :=
  pcLoopF_frame fuel pcs path bd bn bo pv tmp d ns o pv2 hbd hrun hbo

/-- Witness for C6: exploring the parametric child `pcW` (order 7) while
holding a best match of order 3 finds only a worse match and leaves the
caller buffer `["keep"]` untouched. -/
theorem c6_scratch_commit_witness :
    ((some [1] : Option Handlers) ≠ none) ∧
    Node.pcLoopF 5 [pcW] (bstr "z") (some [1]) [] 3 [bstr "keep"]
      (some [[]]) = .ok (some [1], [], 3, [bstr "keep"]) ∧
    (3 : Nat) ≤ 3 ∧
    ([bstr "keep"] : List Str) = [bstr "keep"] :=
  ⟨by decide, by decide, by decide,
    c6_scratch_commit 5 [pcW] (bstr "z") (some [1]) [] 3 [bstr "keep"]
      (some [[]]) (some [1]) [] 3 [bstr "keep"] (by decide) (by decide)
      (by decide)⟩

/-- C6 counterexample: before any best match is found, parametric
exploration writes directly into the caller's buffer — `/a/foo/c` against
`/a/{x}/b` is a non-match, yet the call leaves the captured `"foo"` in the
caller-visible buffer instead of `[[], []]`. -/
theorem c6_direct_write_counterexample :
    Tree.Get (treeOf [("/a/\x7bx\x7d/b", [1])]) (bstr "/a/foo/c")
        [[], []] = .ok (none, [], [bstr "foo", []]) ∧
    Tree.Get (treeOf [("/a/\x7bx\x7d/b", [1])]) (bstr "/a/foo/c")
        [[], []] ≠ .ok (none, [], [[], []]) :=
  ⟨by decide, by decide⟩

/-- C7: on any tree built by a registration sequence, `Get` with a value
buffer at least as long as the router-wide maximum parameter count is
total: it returns normally (no panic, no out-of-bounds `paramIndex`
access), a non-match being the ordinary `nil`-handler outcome, and the
buffer keeps its length. -/
theorem c7_get_total (compile : Str → Option Regex)
    (regs : List (Str × Handlers)) (t : Tree) (maxp : Int) (path : Str)
    (pv : List Str) (hbuild : buildTree compile regs = .ok (t, maxp))
    (hlen : maxp ≤ (pv.length : Int)) :
    ∃ d ns pv2, Tree.Get t path pv = .ok (d, ns, pv2) ∧
      pv2.length = pv.length := by
  obtain ⟨hinv, hb, hcnt⟩ := buildInv hbuild
  obtain ⟨d, ns, o, pv2, hg, hl⟩ :=
    (getTotal (getFuel t.root)).1 t.count maxp t.root path pv hinv hlen
      (le_refl _)
  refine ⟨d, ns, pv2, ?_, hl⟩
  unfold Tree.Get
  rw [hg]

/-- Witness for C7: the two-parameter tree of `regsPage` (maximum parameter
count 2) probed with a two-slot buffer returns normally. -/
theorem c7_get_total_witness :
    buildTree noRegex regsPage = .ok (tPage, 2) ∧
    ((2 : Int) ≤ (([[], []] : List Str).length : Int)) ∧
    ∃ d ns pv2, Tree.Get tPage (bstr "/page/2022-zeno") [[], []] =
      .ok (d, ns, pv2) ∧ pv2.length = ([[], []] : List Str).length :=
  ⟨rfl, by decide,
    c7_get_total noRegex regsPage tPage 2 (bstr "/page/2022-zeno")
      [[], []] rfl (by decide)⟩

/-- C8: registering, into an empty tree, any pattern in which a wildcard
token `{name*}` is followed by further pattern text panics at `Add` time:
the freshly created wildcard child trips the terminal-wildcard check for
every brace-free prefix, brace/colon/star-free name and nonempty suffix. -/
theorem c8_nonfinal_wildcard_panic (compile : Str → Option Regex)
    (fuel : Nat) (n : Node) (pre name suf : Str) (hs : Handlers)
    (ord : Nat) (h3f : 3 ≤ fuel) (hpre : 123 ∉ pre) (h123 : 123 ∉ name)
    (h125 : 125 ∉ name) (h42 : 42 ∉ name) (h58 : 58 ∉ name)
    (hsuf : suf ≠ []) :
    Node.addChildF fuel compile n
        (pre ++ 123 :: (name ++ 42 :: 125 :: suf)) hs ord = .panic ∧
    Tree.Add compile newTree
        (pre ++ 123 :: (name ++ 42 :: 125 :: suf)) hs = .panic :=
  ⟨addChildF_wc_panic fuel compile n pre name suf hs ord h3f hpre h123
      h125 h42 h58 hsuf,
    treeAdd_wc_panic compile pre name suf hs hpre h123 h125 h42 h58 hsuf⟩

/-- Witness for C8: registering `/files/{path*}/x` into an empty tree
panics, both via `addChild` and via `tree.Add`. -/
theorem c8_nonfinal_wildcard_panic_witness :
    (3 ≤ 5) ∧ (123 ∉ bstr "/files/") ∧ (123 ∉ bstr "path") ∧
    (125 ∉ bstr "path") ∧ (42 ∉ bstr "path") ∧ (58 ∉ bstr "path") ∧
    (bstr "/x" ≠ ([] : Str)) ∧
    (Node.addChildF 5 noRegex newTree.root
        (bstr "/files/" ++ 123 :: (bstr "path" ++ 42 :: 125 :: bstr "/x"))
        [1] 1 = .panic ∧
      Tree.Add noRegex newTree
        (bstr "/files/" ++ 123 :: (bstr "path" ++ 42 :: 125 :: bstr "/x"))
        [1] = .panic) :=
  ⟨by decide, by decide, by decide, by decide, by decide, by decide,
    by decide,
    c8_nonfinal_wildcard_panic noRegex 5 newTree.root (bstr "/files/")
      (bstr "path") (bstr "/x") [1] 1 (by decide) (by decide) (by decide)
      (by decide) (by decide) (by decide) (by decide)⟩

/-- C8 counterexample: the terminal-wildcard check sits only on the fresh
node-creation path — after `/files/{path*}` is registered, re-registering
the misplaced-wildcard pattern `/files/{path*}/x` takes the deduplication
branch and succeeds silently, while the same pattern panics against an
empty tree. -/
theorem c8_wildcard_dedup_counterexample :
    ((buildTree noRegex
      [(bstr "/files/\x7bpath*\x7d", [1]),
       (bstr "/files/\x7bpath*\x7d/x", [2])]).toOption).isSome = true ∧
    (buildTree noRegex
      [(bstr "/files/\x7bpath*\x7d/x", [1])]).isPanic = true :=
  ⟨by decide, by decide⟩

/-- C9: for `/demo` registered only under GET and POST,
`findAllowedMethods` returns exactly `[GET, POST]`; a DELETE request on
`/demo` yields status 405 with `Allow: GET, OPTIONS, POST` (sorted,
OPTIONS added); a GET on an unregistered path yields 404; a GET on
`/demo` succeeds with 200. -/
theorem c9_method_negotiation :
    z9.findAllowedMethods (bstr "/demo") =
      .ok [bstr "GET", bstr "POST"] ∧
    z9.handleRequest (bstr "DELETE") (bstr "/demo") =
      .ok (405, some (bstr "GET, OPTIONS, POST")) ∧
    z9.handleRequest (bstr "GET") (bstr "/nope") = .ok (404, none) ∧
    z9.handleRequest (bstr "GET") (bstr "/demo") = .ok (200, none) :=
  ⟨by decide, by decide, by decide, by decide⟩

/-- C10: `buildURLTemplate` strips the `:regex` qualifier from each token
(`/users/{id:[0-9]+}/posts/{slug}` becomes `/users/{id}/posts/{slug}`)
but PRESERVES the `?` and `*` modifiers: the templates of `/post/{id?}`
and `/files/{path*}` are the patterns themselves. -/
theorem c10_template_strips_regex :
    buildURLTemplate (bstr "/users/\x7bid:[0-9]+\x7d/posts/\x7bslug\x7d") =
      bstr "/users/\x7bid\x7d/posts/\x7bslug\x7d" ∧
    buildURLTemplate (bstr "/post/\x7bid?\x7d") = bstr "/post/\x7bid?\x7d" ∧
    buildURLTemplate (bstr "/files/\x7bpath*\x7d") =
      bstr "/files/\x7bpath*\x7d" :=
  ⟨by decide, by decide, by decide⟩

/-- C10 counterexample: the `?` and `*` modifiers are NOT reduced to a
plain placeholder: the template of `/post/{id?}` is not `/post/{id}` and
the template of `/files/{path*}` is not `/files/{path}`. -/
theorem c10_modifiers_not_stripped :
    buildURLTemplate (bstr "/post/\x7bid?\x7d") ≠ bstr "/post/\x7bid\x7d" ∧
    buildURLTemplate (bstr "/files/\x7bpath*\x7d") ≠
      bstr "/files/\x7bpath\x7d" :=
  ⟨by decide, by decide⟩

end Zeno
